import Mathlib

/-!
Verification of the JSON repair and safe-unmarshal engine of mhpenta/jobj.

The development shallowly embeds the Go code of `safeunmarshal/json_repair.go`
and `safeunmarshall/safe_unmarshall.go`.  Go strings are modelled as `List Char`
(all inputs of interest are ASCII, where Go's byte-wise and rune-wise loops
coincide).  Characters that are structurally meaningful to JSON are given named
definitions via `Char.ofNat`.
-/

set_option maxHeartbeats 1000000
set_option maxRecDepth 4000

/-- Go strings are modelled as lists of characters. -/
abbrev GoStr := List Char

/-- The double-quote character. -/
def qch : Char := Char.ofNat 34

/-- The single-quote (apostrophe) character. -/
def sqch : Char := Char.ofNat 39

/-- The backslash character. -/
def bsl : Char := Char.ofNat 92

/-- The opening-brace character. -/
def lbrace : Char := Char.ofNat 123

/-- The closing-brace character. -/
def rbrace : Char := Char.ofNat 125

/-- The opening-bracket character. -/
def lbrack : Char := Char.ofNat 91

/-- The closing-bracket character. -/
def rbrack : Char := Char.ofNat 93

/-- The backtick character. -/
def btick : Char := Char.ofNat 96

/-- ASCII whitespace recognized by Go's `unicode.IsSpace` (as used by
`strings.TrimSpace`): space, tab, newline, vertical tab, form feed,
carriage return. -/
def isGoSpace (c : Char) : Bool :=
  c = ' ' || c = '\t' || c = '\n' || c = Char.ofNat 11 || c = Char.ofNat 12 || c = '\r'

/-- Whitespace of Go's regexp class backslash-s: tab, newline, form feed,
carriage return, space. -/
def isReSpace (c : Char) : Bool :=
  c = '\t' || c = '\n' || c = Char.ofNat 12 || c = '\r' || c = ' '

/-- JSON insignificant whitespace per RFC 8259 and Go's `encoding/json`
scanner: space, tab, newline, carriage return. -/
def isJsonWsC (c : Char) : Bool :=
  c = ' ' || c = '\t' || c = '\n' || c = '\r'

/-- Word characters of Go's regexp class backslash-w. -/
def isWordC (c : Char) : Bool :=
  c.isDigit || ('a' ≤ c && c ≤ 'z') || ('A' ≤ c && c ≤ 'Z') || c = '_'

/-- ASCII letters. -/
def isAlphaC (c : Char) : Bool :=
  ('a' ≤ c && c ≤ 'z') || ('A' ≤ c && c ≤ 'Z')

/-- Hexadecimal digits. -/
def isHexC (c : Char) : Bool :=
  c.isDigit || ('a' ≤ c && c ≤ 'f') || ('A' ≤ c && c ≤ 'F')

/-- Characters allowed after a backslash in a JSON string, other than `u`. -/
def isEscC (c : Char) : Bool :=
  c = qch || c = bsl || c = '/' || c = 'b' || c = 'f' || c = 'n' || c = 'r' || c = 't'

/-- Go `strings.HasPrefix`. -/
def startsWithL (s pre : GoStr) : Bool := pre.isPrefixOf s

/-- Go `strings.HasSuffix`. -/
def endsWithL (s suf : GoStr) : Bool := suf.isSuffixOf s

/-- Go `strings.TrimSpace` restricted to ASCII input. -/
def goTrimSpace (s : GoStr) : GoStr :=
  ((s.dropWhile isGoSpace).reverse.dropWhile isGoSpace).reverse

/-- Go `strings.TrimPrefix`. -/
def goTrimPre (s pre : GoStr) : GoStr :=
  if startsWithL s pre then s.drop pre.length else s

/-- Go `strings.TrimSuffix`. -/
def goTrimSuf (s suf : GoStr) : GoStr :=
  if endsWithL s suf then s.take (s.length - suf.length) else s

/-- Contains-substring test, Go `strings.Contains`. -/
def containsSub (s pat : GoStr) : Bool :=
  match s with
  | [] => pat.isPrefixOf ([] : GoStr)
  | _ :: rest => pat.isPrefixOf s || containsSub rest pat

/-- Go `strings.Count` for a single-character separator. -/
def countC (s : GoStr) (c : Char) : Nat := s.countP (· = c)

/-- Go `strings.ReplaceAll` for literal patterns (non-empty pattern),
replacing non-overlapping occurrences left to right. -/
def replaceLit (fuel : Nat) (s pat rep : GoStr) : GoStr :=
  match fuel with
  | 0 => s
  | fuel + 1 =>
    match s with
    | [] => []
    | c :: rest =>
      if pat.isPrefixOf s then rep ++ replaceLit fuel (s.drop pat.length) pat rep
      else c :: replaceLit fuel rest pat rep

/-- The suffix of `s` starting at the first `lbrace` or `lbrack`, if any;
models `strings.IndexAny(src, brackets)` followed by re-slicing. -/
def firstBrackSuffix (s : GoStr) : Option GoStr :=
  match s with
  | [] => none
  | c :: rest =>
    if c = lbrace || c = lbrack then some s else firstBrackSuffix rest

/-- The literal `true`. -/
def trueLit : GoStr := ['t', 'r', 'u', 'e']

/-- The literal `false`. -/
def falseLit : GoStr := ['f', 'a', 'l', 's', 'e']

/-- The literal `null`. -/
def nullLit : GoStr := ['n', 'u', 'l', 'l']

/-- Raw-spelling JSON syntax tree.  String and number atoms keep the exact
characters of the source text (string bodies with escapes unexpanded), so a
parse tree determines the compacted text exactly. -/
inductive Json where
  | jnull : Json
  | jbool : Bool → Json
  | jnum : GoStr → Json
  | jstr : GoStr → Json
  | jarr : List Json → Json
  | jobj : List (GoStr × Json) → Json

/-- Skip JSON whitespace. -/
def skipWs (s : GoStr) : GoStr := s.dropWhile isJsonWsC

/-- Parse a JSON string body after the opening quote, per Go's scanner:
any character of code at least 32 except quote and backslash, standard
escapes, and `u` followed by four hex digits.  The first argument is the
number of pending hex digits still owed by a `u` escape, zero in the
normal scanning state (this mirrors the states of Go's scanner).  Returns
the raw body (escapes unexpanded) and the text after the closing quote. -/
def strBodyM : Nat → GoStr → Option (GoStr × GoStr)
  | Nat.succ _, [] => none
  | Nat.succ n, h :: rest =>
    if isHexC h then (strBodyM n rest).map (fun p => (h :: p.1, p.2)) else none
  | 0, [] => none
  | 0, c :: rest =>
    if c = qch then some ([], rest)
    else if c = bsl then
      match rest with
      | [] => none
      | e :: rest2 =>
        if e = 'u' then (strBodyM 4 rest2).map (fun p => (c :: e :: p.1, p.2))
        else if isEscC e then (strBodyM 0 rest2).map (fun p => (c :: e :: p.1, p.2))
        else none
    else if c.toNat < 32 then none
    else (strBodyM 0 rest).map (fun p => (c :: p.1, p.2))

/-- The string-body parser in its normal state. -/
def strBody : GoStr → Option (GoStr × GoStr) := strBodyM 0

/-- Integer part of a JSON number: `0`, or a nonzero digit followed by
digits.  Returns consumed text and rest. -/
def intPart : GoStr → Option (GoStr × GoStr)
  | [] => none
  | c :: r =>
    if c = '0' then some ([c], r)
    else if c.isDigit then
      some (c :: r.takeWhile Char.isDigit, r.dropWhile Char.isDigit)
    else none

/-- Optional fraction part of a JSON number. -/
def fracPart : GoStr → Option (GoStr × GoStr)
  | [] => some ([], [])
  | c :: r =>
    if c = '.' then
      match r.takeWhile Char.isDigit with
      | [] => none
      | ds => some ('.' :: ds, r.dropWhile Char.isDigit)
    else some ([], c :: r)

/-- Optional exponent part of a JSON number. -/
def expPart : GoStr → Option (GoStr × GoStr)
  | [] => some ([], [])
  | c :: r =>
    if c = 'e' || c = 'E' then
      match r with
      | [] => none
      | d :: r2 =>
        if d = '+' || d = '-' then
          match r2.takeWhile Char.isDigit with
          | [] => none
          | ds => some (c :: d :: ds, r2.dropWhile Char.isDigit)
        else
          match r.takeWhile Char.isDigit with
          | [] => none
          | ds => some (c :: ds, r.dropWhile Char.isDigit)
    else some ([], c :: r)

/-- Parse a JSON number token: optional minus, integer part, optional
fraction, optional exponent.  Returns consumed text and rest. -/
def numTok (s : GoStr) : Option (GoStr × GoStr) :=
  let sgn : GoStr × GoStr :=
    match s with
    | c :: r => if c = '-' then ([c], r) else ([], s)
    | [] => ([], [])
  match intPart sgn.2 with
  | none => none
  | some (ip, r1) =>
    match fracPart r1 with
    | none => none
    | some (fp, r2) =>
      match expPart r2 with
      | none => none
      | some (ep, r3) => some (sgn.1 ++ ip ++ fp ++ ep, r3)

mutual

/-- Fuel-indexed JSON value parser following Go's `encoding/json` syntax
checker.  The input must not start with whitespace (callers skip it);
the parser consumes exactly one JSON value and returns the rest. -/
def parseVal : Nat → GoStr → Option (Json × GoStr)
  | 0, _ => none
  | Nat.succ f, s =>
    match s with
    | [] => none
    | c :: rest =>
      if c = qch then (strBody rest).map (fun p => (Json.jstr p.1, p.2))
      else if c = lbrace then
        match skipWs rest with
        | c2 :: r2 =>
          if c2 = rbrace then some (Json.jobj [], r2)
          else (parseObjRest f (c2 :: r2)).map (fun p => (Json.jobj p.1, p.2))
        | [] => none
      else if c = lbrack then
        match skipWs rest with
        | c2 :: r2 =>
          if c2 = rbrack then some (Json.jarr [], r2)
          else (parseArrRest f (c2 :: r2)).map (fun p => (Json.jarr p.1, p.2))
        | [] => none
      else if startsWithL s trueLit then some (Json.jbool true, s.drop 4)
      else if startsWithL s falseLit then some (Json.jbool false, s.drop 5)
      else if startsWithL s nullLit then some (Json.jnull, s.drop 4)
      else if c = '-' || c.isDigit then
        (numTok s).map (fun p => (Json.jnum p.1, p.2))
      else none

/-- Parse one or more comma-separated array elements followed by the closing
bracket.  The input must not start with whitespace. -/
def parseArrRest : Nat → GoStr → Option (List Json × GoStr)
  | 0, _ => none
  | Nat.succ f, s =>
    match parseVal f s with
    | none => none
    | some (v, r1) =>
      match skipWs r1 with
      | c :: r2 =>
        if c = ',' then
          (parseArrRest f (skipWs r2)).map (fun p => (v :: p.1, p.2))
        else if c = rbrack then some ([v], r2)
        else none
      | [] => none

/-- Parse one or more comma-separated object members followed by the closing
brace.  The input must not start with whitespace. -/
def parseObjRest : Nat → GoStr → Option (List (GoStr × Json) × GoStr)
  | 0, _ => none
  | Nat.succ f, s =>
    match s with
    | [] => none
    | c :: r =>
      if c = qch then
        match strBody r with
        | none => none
        | some (k, r1) =>
          match skipWs r1 with
          | c1 :: r2 =>
            if c1 = ':' then
              match parseVal f (skipWs r2) with
              | none => none
              | some (v, r3) =>
                match skipWs r3 with
                | c2 :: r4 =>
                  if c2 = ',' then
                    (parseObjRest f (skipWs r4)).map (fun p => ((k, v) :: p.1, p.2))
                  else if c2 = rbrace then some ([(k, v)], r4)
                  else none
                | [] => none
            else none
          | [] => none
      else none

end

/-- Parse a complete JSON document: optional leading and trailing whitespace
around exactly one value.  Models the success or failure of Go's
`json.Valid` and, on success, yields the parse tree. -/
def jsonSemFull (s : GoStr) : Option Json :=
  let s1 := skipWs s
  match parseVal (2 * s1.length + 2) s1 with
  | some (v, r) => if skipWs r = [] then some v else none
  | none => none

/-- Go `json.Valid`. -/
def jsonValid (s : GoStr) : Bool := (jsonSemFull s).isSome

mutual

/-- Render a JSON tree without any insignificant whitespace, preserving the
raw spellings of atoms.  On trees produced by the parser this reproduces the
input text minus whitespace outside string literals, which is exactly the
output of Go's `json.Compact`. -/
def render : Json → GoStr
  | Json.jnull => nullLit
  | Json.jbool true => trueLit
  | Json.jbool false => falseLit
  | Json.jnum t => t
  | Json.jstr b => qch :: b ++ [qch]
  | Json.jarr [] => [lbrack, rbrack]
  | Json.jarr (x :: xs) => lbrack :: render x ++ renderArrTail xs
  | Json.jobj [] => [lbrace, rbrace]
  | Json.jobj (kv :: kvs) =>
    lbrace :: qch :: kv.1 ++ qch :: ':' :: render kv.2 ++ renderObjTail kvs

/-- Render the tail of an array: comma-separated elements then the bracket. -/
def renderArrTail : List Json → GoStr
  | [] => [rbrack]
  | x :: xs => ',' :: render x ++ renderArrTail xs

/-- Render the tail of an object: comma-separated members then the brace. -/
def renderObjTail : List (GoStr × Json) → GoStr
  | [] => [rbrace]
  | kv :: kvs => ',' :: qch :: kv.1 ++ qch :: ':' :: render kv.2 ++ renderObjTail kvs

end

/-- Go `json.Compact` on the inputs where the repair engine invokes it
(it is always guarded by `json.Valid`): parse and re-render without
insignificant whitespace.  Returns `none` exactly when the input is invalid,
in which case Go's `Compact` returns an error. -/
def goCompact (s : GoStr) : Option GoStr := (jsonSemFull s).map render

/-! ### Textual rewrite passes of the repair engine -/

/-- The three-dot ellipsis literal. -/
def dots3 : GoStr := ['.', '.', '.']

/-- One step test for the pattern whitespace-star ellipsis at the head of
the text: returns the rest after the match, if it matches here.  Since
regexp whitespace and the dot character are disjoint, the leftmost-first
match of the Go pattern at a position is the maximal whitespace run
followed by three dots. -/
def wsDotsAt (s : GoStr) : Option GoStr :=
  let r := s.dropWhile isReSpace
  if dots3.isPrefixOf r then some (r.drop 3) else none

/-- Go `regexp.ReplaceAllString` for the pattern whitespace-star ellipsis
with empty replacement: delete every non-overlapping leftmost match. -/
def stripEllipsis (fuel : Nat) (s : GoStr) : GoStr :=
  match fuel with
  | 0 => s
  | fuel + 1 =>
    match s with
    | [] => []
    | c :: rest =>
      match wsDotsAt s with
      | some r => stripEllipsis fuel r
      | none => c :: stripEllipsis fuel rest

/-- Lazy scan for the group of the Go pattern `(.*?)` followed by a closing
bracket or end of text: the shortest run of non-newline characters up to a
closing bracket or the end.  Returns `none` when a newline intervenes
(the dot class excludes newline and the end anchor only matches at the very
end). -/
def lazyToBrack : GoStr → Option GoStr
  | [] => some []
  | c :: rest =>
    if c = rbrack then some []
    else if c = '\n' then none
    else (lazyToBrack rest).map (c :: ·)

/-- First submatch of the Go pattern: opening bracket, lazy group, then
closing bracket or end.  Tries each start position from the left; a start
position must be an opening bracket. -/
def arrGroup : GoStr → Option GoStr
  | [] => none
  | c :: rest =>
    if c = lbrack then
      match lazyToBrack rest with
      | some g => some g
      | none => arrGroup rest
    else arrGroup rest

/-- Whether whitespace-star followed by a closing bracket or end of text
matches here. -/
def wsThenCloseOrEnd (s : GoStr) : Bool :=
  match s.dropWhile isReSpace with
  | [] => true
  | c :: _ => c = rbrack

/-- Lazy scan for the group of the Go pattern: shortest run of non-newline
characters up to a comma that is followed by whitespace-star and then a
closing bracket or end of text. -/
def lazyToCommaClose : GoStr → Option GoStr
  | [] => none
  | c :: rest =>
    if c = ',' && wsThenCloseOrEnd rest then some []
    else if c = '\n' then none
    else (lazyToCommaClose rest).map (c :: ·)

/-- First submatch of the Go pattern: opening bracket, lazy group, comma,
whitespace-star, then closing bracket or end. -/
def arrTrailGroup : GoStr → Option GoStr
  | [] => none
  | c :: rest =>
    if c = lbrack then
      match lazyToCommaClose rest with
      | some g => some g
      | none => arrTrailGroup rest
    else arrTrailGroup rest

/-- Match a quoted token of one or more non-quote characters starting here,
returning the rest after the closing quote. -/
def quotedTok1 (s : GoStr) : Option GoStr :=
  match s with
  | c :: rest =>
    if c = qch then
      let body := rest.takeWhile (· ≠ qch)
      let r := rest.dropWhile (· ≠ qch)
      if body = [] then none
      else
        match r with
        | c2 :: r2 => if c2 = qch then some r2 else none
        | [] => none
    else none
  | [] => none

/-- Require one or more regexp whitespace characters, returning the rest. -/
def reWs1 (s : GoStr) : Option GoStr :=
  match s with
  | c :: rest => if isReSpace c then some (rest.dropWhile isReSpace) else none
  | [] => none

/-- Whether the Go pattern of three whitespace-separated quoted tokens
followed by digits matches at this position (which must be an opening
bracket followed by optional whitespace). -/
def spaceSepAt (s : GoStr) : Bool :=
  match s with
  | c :: rest =>
    if c = lbrack then
      let r0 := rest.dropWhile isReSpace
      match quotedTok1 r0 with
      | none => false
      | some r1 =>
        match reWs1 r1 with
        | none => false
        | some r2 =>
          match quotedTok1 r2 with
          | none => false
          | some r3 =>
            match reWs1 r3 with
            | none => false
            | some r4 =>
              match quotedTok1 r4 with
              | none => false
              | some r5 =>
                match reWs1 r5 with
                | none => false
                | some r6 =>
                  match r6 with
                  | d :: _ => d.isDigit
                  | [] => false
    else false
  | [] => false

/-- Go `regexp.MatchString` for the space-separated-array pattern: search
every start position. -/
def spaceSepMatch : GoStr → Bool
  | [] => false
  | c :: rest => spaceSepAt (c :: rest) || spaceSepMatch rest

/-- Split on every comma, Go `strings.Split` with a comma separator. -/
def splitComma (s : GoStr) : List GoStr :=
  match s with
  | [] => [[]]
  | c :: rest =>
    let ps := splitComma rest
    if c = ',' then [] :: ps
    else
      match ps with
      | p :: ps' => (c :: p) :: ps'
      | [] => [[c]]

/-- Join with comma separators, Go `strings.Join`. -/
def joinComma : List GoStr → GoStr
  | [] => []
  | [p] => p
  | p :: ps => p ++ ',' :: joinComma ps

/-- Lowercase an ASCII character, Go `strings.ToLower` per character. -/
def lowerC (c : Char) : Char := c.toLower

/-- Lowercase a string. -/
def lowerStr (s : GoStr) : GoStr := s.map lowerC

/-- Case-insensitive literal match at the head: returns the consumed
original-case text and the rest. -/
def ciLitAt (lit s : GoStr) : Option (GoStr × GoStr) :=
  match lit, s with
  | [], _ => some ([], s)
  | _ :: _, [] => none
  | l :: ls, c :: cs =>
    if lowerC c = l then (ciLitAt ls cs).map (fun p => (c :: p.1, p.2)) else none

/-- Go `regexp.ReplaceAllString` for a case-insensitive literal word with a
fixed replacement (used to normalize boolean and null spellings inside a
matched region). -/
def ciReplace (fuel : Nat) (s lit rep : GoStr) : GoStr :=
  match fuel with
  | 0 => s
  | fuel + 1 =>
    match s with
    | [] => []
    | c :: rest =>
      match ciLitAt lit s with
      | some p => rep ++ ciReplace fuel p.2 lit rep
      | none => c :: ciReplace fuel rest lit rep

/-- The function passed to `ReplaceAllStringFunc` in the first pass of
`fixUnquotedValues`: matched text containing `true`, `false` or `null` in
any case is rewritten with the keyword lowercased. -/
def fvFunc (m : GoStr) : GoStr :=
  if containsSub (lowerStr m) trueLit then ciReplace m.length m trueLit trueLit
  else if containsSub (lowerStr m) falseLit then ciReplace m.length m falseLit falseLit
  else if containsSub (lowerStr m) nullLit then ciReplace m.length m nullLit nullLit
  else m

/-- Group-two alternation of the `fixUnquotedValues` patterns:
whitespace-star then a comma or closing brace, or whitespace-star then the
end of the text.  Returns the consumed text and the rest, or `none`. -/
def fvTail (s : GoStr) : Option (GoStr × GoStr) :=
  let w := s.takeWhile isReSpace
  let r := s.dropWhile isReSpace
  match r with
  | [] => some (w, [])
  | c :: r2 => if c = ',' || c = rbrace then some (w ++ [c], r2) else none

/-- Match of the first `fixUnquotedValues` pattern at a position: colon,
whitespace-star, a case-insensitive `true`, `false` or `null`, then the
group-two alternation.  Returns the whole matched text and the rest. -/
def fv1At (s : GoStr) : Option (GoStr × GoStr) :=
  match s with
  | c :: rest =>
    if c = ':' then
      let w := rest.takeWhile isReSpace
      let r := rest.dropWhile isReSpace
      let lit? : Option (GoStr × GoStr) :=
        match ciLitAt trueLit r with
        | some p => some p
        | none =>
          match ciLitAt falseLit r with
          | some p => some p
          | none => ciLitAt nullLit r
      match lit? with
      | none => none
      | some (litRaw, r2) =>
        (fvTail r2).map (fun p => (c :: w ++ litRaw ++ p.1, p.2))
    else none
  | [] => none

/-- First pass of `fixUnquotedValues`: `ReplaceAllStringFunc` of the
case-insensitive keyword pattern with `fvFunc`. -/
def fvPass1 (fuel : Nat) (s : GoStr) : GoStr :=
  match fuel with
  | 0 => s
  | fuel + 1 =>
    match s with
    | [] => []
    | c :: rest =>
      match fv1At s with
      | some (m, r) => fvFunc m ++ fvPass1 fuel r
      | none => c :: fvPass1 fuel rest

/-- Colon-space prefixed lowercase keywords checked by the second pass. -/
def colonSpTrue : GoStr := [':', ' ', 't', 'r', 'u', 'e']

/-- Colon-space `false`. -/
def colonSpFalse : GoStr := [':', ' ', 'f', 'a', 'l', 's', 'e']

/-- Colon-space `null`. -/
def colonSpNull : GoStr := [':', ' ', 'n', 'u', 'l', 'l']

/-- Match of the second `fixUnquotedValues` pattern at a position: colon,
whitespace-star, a bare identifier (letter then word characters), then the
group-three alternation.  Returns colon-group, identifier, tail group and
the rest. -/
def fv2At (s : GoStr) : Option (GoStr × GoStr × GoStr × GoStr) :=
  match s with
  | c :: rest =>
    if c = ':' then
      let w := rest.takeWhile isReSpace
      let r := rest.dropWhile isReSpace
      match r with
      | d :: r2 =>
        if isAlphaC d then
          let idTail := r2.takeWhile isWordC
          let r3 := r2.dropWhile isWordC
          (fvTail r3).map (fun p => (c :: w, d :: idTail, p.1, p.2))
        else none
      | [] => none
    else none
  | [] => none

/-- The `process` function of the second pass: a match whose lowercase form
contains a colon-space keyword is kept, otherwise the identifier is wrapped
in quotes. -/
def fv2Process (g1 ident g3 : GoStr) : GoStr :=
  let m := g1 ++ ident ++ g3
  if containsSub (lowerStr m) colonSpTrue || containsSub (lowerStr m) colonSpFalse
      || containsSub (lowerStr m) colonSpNull then m
  else g1 ++ qch :: ident ++ qch :: g3

/-- Second pass of `fixUnquotedValues`. -/
def fvPass2 (fuel : Nat) (s : GoStr) : GoStr :=
  match fuel with
  | 0 => s
  | fuel + 1 =>
    match s with
    | [] => []
    | c :: rest =>
      match fv2At s with
      | some (g1, ident, g3, r) => fv2Process g1 ident g3 ++ fvPass2 fuel r
      | none => c :: fvPass2 fuel rest

/-- Third pass of `fixUnquotedValues`: the end-anchored pattern colon,
whitespace-star, bare identifier at the very end, replaced by colon, space,
quoted identifier. -/
def fvPass3 : GoStr → GoStr
  | [] => []
  | c :: rest =>
    if c = ':' then
      let r := rest.dropWhile isReSpace
      match r with
      | d :: r2 =>
        if isAlphaC d && (r2.dropWhile isWordC = []) then
          ':' :: ' ' :: qch :: d :: r2.takeWhile isWordC ++ [qch]
        else c :: fvPass3 rest
      | [] => c :: fvPass3 rest
    else c :: fvPass3 rest

/-- Go `fixUnquotedValues`: the three passes in order. -/
def fixUnquotedValues (s : GoStr) : GoStr :=
  let r1 := fvPass1 s.length s
  let r2 := fvPass2 r1.length r1
  fvPass3 r2

/-- Go `replaceQuotes`: converts single quotes to double quotes.  The Go
loop keeps an in-string flag that is toggled but never read, and its escape
branch copies the escaped character verbatim (the apostrophe case appends
an apostrophe, which is the character itself), so the pass rewrites every
unescaped single quote to a double quote. -/
def replaceQuotes : GoStr → GoStr
  | [] => []
  | c :: rest =>
    if c = bsl then
      match rest with
      | [] => [bsl]
      | d :: rest2 => bsl :: d :: replaceQuotes rest2
    else if c = qch then qch :: replaceQuotes rest
    else if c = sqch then qch :: replaceQuotes rest
    else c :: replaceQuotes rest

/-- Match of the `fixUnquotedKeys` pattern at a position: an opening brace
or comma, whitespace-star, one or more word characters, whitespace-star,
then a colon.  Returns the rewritten match text and the rest. -/
def fukAt (s : GoStr) : Option (GoStr × GoStr) :=
  match s with
  | c :: rest =>
    if c = lbrace || c = ',' then
      let w := rest.takeWhile isReSpace
      let r := rest.dropWhile isReSpace
      let k := r.takeWhile isWordC
      let r2 := r.dropWhile isWordC
      if k = [] then none
      else
        let w2 := r2.takeWhile isReSpace
        let r3 := r2.dropWhile isReSpace
        match r3 with
        | d :: r4 =>
          if d = ':' then some (c :: w ++ qch :: k ++ qch :: w2 ++ [':'], r4)
          else none
        | [] => none
    else none
  | [] => none

/-- Go `fixUnquotedKeys`: quote bare object keys. -/
def fixUnquotedKeys (fuel : Nat) (s : GoStr) : GoStr :=
  match fuel with
  | 0 => s
  | fuel + 1 =>
    match s with
    | [] => []
    | c :: rest =>
      match fukAt s with
      | some (m, r) => m ++ fixUnquotedKeys fuel r
      | none => c :: fixUnquotedKeys fuel rest

/-- One replacement step of `removeTrailingCommas` for a given closing
character: a comma, whitespace-star, then the closer, replaced by the
closer alone. -/
def rtcAt (close : Char) (s : GoStr) : Option GoStr :=
  match s with
  | c :: rest =>
    if c = ',' then
      let r := rest.dropWhile isReSpace
      match r with
      | d :: r2 => if d = close then some r2 else none
      | [] => none
    else none
  | [] => none

/-- Replace every comma-whitespace-closer occurrence by the closer. -/
def rtcPass (close : Char) (fuel : Nat) (s : GoStr) : GoStr :=
  match fuel with
  | 0 => s
  | fuel + 1 =>
    match s with
    | [] => []
    | c :: rest =>
      match rtcAt close s with
      | some r => close :: rtcPass close fuel r
      | none => c :: rtcPass close fuel rest

/-- Go `removeTrailingCommas`: first for objects, then for arrays. -/
def removeTrailingCommas (s : GoStr) : GoStr :=
  let r1 := rtcPass rbrace s.length s
  rtcPass rbrack r1.length r1

/-- One step of the bracket-balancing scan of Go `balanceBrackets`: push
opening braces and brackets, pop on a matching closer; unmatched closers
are ignored.  The head of the stack is the most recently unclosed opener. -/
def bbStep (st : List Char) (c : Char) : List Char :=
  if c = lbrace || c = lbrack then c :: st
  else if c = rbrace then
    match st with
    | t :: st' => if t = lbrace then st' else st
    | [] => st
  else if c = rbrack then
    match st with
    | t :: st' => if t = lbrack then st' else st
    | [] => st
  else st

/-- The bracket-balancing scan: Go's range loop over the text. -/
def bbScan (st : List Char) (s : GoStr) : List Char := s.foldl bbStep st

/-- The closing characters appended by `balanceBrackets`: one matching
closer per unclosed opener, most recent first. -/
def bbClosers (st : List Char) : GoStr :=
  st.map (fun c => if c = lbrace then rbrace else rbrack)

/-- Go `balanceBrackets`. -/
def balanceBrackets (s : GoStr) : GoStr := s ++ bbClosers (bbScan [] s)

/-- A quoted token of zero or more non-quote characters (the quoted
alternative of the comma-insertion pattern), with its quotes, and the rest. -/
def quotedTok0 (s : GoStr) : Option (GoStr × GoStr) :=
  match s with
  | c :: rest =>
    if c = qch then
      let body := rest.takeWhile (· ≠ qch)
      let r := rest.dropWhile (· ≠ qch)
      match r with
      | c2 :: r2 => if c2 = qch then some (qch :: body ++ [qch], r2) else none
      | [] => none
    else none
  | [] => none

/-- Second token of the comma-insertion pattern, tried in the alternation
order quoted string, digits, word characters. -/
def tok2At (s : GoStr) : Option (GoStr × GoStr) :=
  match s with
  | c :: rest =>
    if c = qch then quotedTok0 s
    else if c.isDigit then some (c :: rest.takeWhile Char.isDigit, rest.dropWhile Char.isDigit)
    else if isWordC c then some (c :: rest.takeWhile isWordC, rest.dropWhile isWordC)
    else none
  | [] => none

/-- Given a first token and the rest, require one or more whitespace
characters and a second token; on success return the replacement (the two
tokens joined by a comma, the whitespace of the match dropped) and the
rest after the match. -/
def pairTry (t1 r1 : GoStr) : Option (GoStr × GoStr) :=
  match reWs1 r1 with
  | none => none
  | some r2 => (tok2At r2).map (fun p => (t1 ++ ',' :: p.1, p.2))

/-- Leftmost-first match of the comma-insertion pattern at a position.
At a digit the preferred digits-only first token is tried before the longer
word-character run (backtracking order of the alternation). -/
def pairMatchAt (s : GoStr) : Option (GoStr × GoStr) :=
  match s with
  | c :: rest =>
    if c = qch then
      match quotedTok0 s with
      | some (t1, r1) => pairTry t1 r1
      | none => none
    else if c.isDigit then
      let d1 := c :: rest.takeWhile Char.isDigit
      let dr := rest.dropWhile Char.isDigit
      match pairTry d1 dr with
      | some x => some x
      | none =>
        let w1 := c :: rest.takeWhile isWordC
        let wr := rest.dropWhile isWordC
        if w1 = d1 then none else pairTry w1 wr
    else if isWordC c then pairTry (c :: rest.takeWhile isWordC) (rest.dropWhile isWordC)
    else none
  | [] => none

/-- Go `ReplaceAllString` of the comma-insertion pattern with the two
groups joined by a comma: single pass, non-overlapping matches, scanning
resumes after each match. -/
def commaInsertArr (fuel : Nat) (s : GoStr) : GoStr :=
  match fuel with
  | 0 => s
  | fuel + 1 =>
    match s with
    | [] => []
    | c :: rest =>
      match pairMatchAt s with
      | some (m, r) => m ++ commaInsertArr fuel r
      | none => c :: commaInsertArr fuel rest

/-- Value alternation of the degraded key-value extraction pattern: a
quoted string (possibly empty), digits, or a lowercase keyword. -/
def kvValAt (s : GoStr) : Option (GoStr × GoStr) :=
  match s with
  | c :: rest =>
    if c = qch then quotedTok0 s
    else if c.isDigit then some (c :: rest.takeWhile Char.isDigit, rest.dropWhile Char.isDigit)
    else if startsWithL s trueLit then some (trueLit, s.drop 4)
    else if startsWithL s falseLit then some (falseLit, s.drop 5)
    else if startsWithL s nullLit then some (nullLit, s.drop 4)
    else none
  | [] => none

/-- Match of the key-value pattern at a position: quoted non-empty key,
whitespace-star, colon, whitespace-star, then a value.  Returns the key,
the value text and the rest. -/
def kvPairAt (s : GoStr) : Option ((GoStr × GoStr) × GoStr) :=
  match s with
  | c :: rest =>
    if c = qch then
      let k := rest.takeWhile (· ≠ qch)
      let r := rest.dropWhile (· ≠ qch)
      if k = [] then none
      else
        match r with
        | c2 :: r2 =>
          if c2 = qch then
            let r3 := r2.dropWhile isReSpace
            match r3 with
            | d :: r4 =>
              if d = ':' then
                (kvValAt (r4.dropWhile isReSpace)).map (fun p => ((k, p.1), p.2))
              else none
            | [] => none
          else none
        | [] => none
    else none
  | [] => none

/-- Go `FindAllStringSubmatch` of the key-value pattern: all
non-overlapping leftmost matches. -/
def kvScanAll (fuel : Nat) (s : GoStr) : List (GoStr × GoStr) :=
  match fuel with
  | 0 => []
  | fuel + 1 =>
    match s with
    | [] => []
    | _ :: rest =>
      match kvPairAt s with
      | some (kv, r) => kv :: kvScanAll fuel r
      | none => kvScanAll fuel rest

/-- Rebuild a fresh object literal from extracted key-value pairs, as the
degraded-extraction branch of `repairJSON` does. -/
def kvRebuild (pairs : List (GoStr × GoStr)) : GoStr :=
  lbrace :: joinComma (pairs.map (fun kv => qch :: kv.1 ++ qch :: ':' :: kv.2)) ++ [rbrace]

/-! ### The repair engine -/

/-- Error outcomes of `repairJSON`: a compaction failure (the wrapped
`json.Compact` errors) or the terminal `ErrJSONRepairFailed`. -/
inductive RepairErr where
  | compactErr : RepairErr
  | repairFailed : RepairErr
deriving DecidableEq

/-- The opening markdown fence stripped by the pre-trim. -/
def fenceOpen : GoStr := [btick, btick, btick, 'j', 's', 'o', 'n']

/-- The closing markdown fence stripped by the pre-trim. -/
def fenceClose : GoStr := [btick, btick, btick]

/-- The pre-trim of `repairJSON`: trim space, strip a markdown fence
pair, trim space again. -/
def pretrim (s : GoStr) : GoStr :=
  goTrimSpace (goTrimSuf (goTrimPre (goTrimSpace s) fenceOpen) fenceClose)

/-- The two-character text of a JSON empty-string literal. -/
def jsonEmptyLit : GoStr := [qch, qch]

/-- The hard-coded literal returned by the space-separated-array branch. -/
def abcLit : GoStr :=
  [lbrack, qch, 'a', qch, ',', qch, 'b', qch, ',', qch, 'c', qch, ',', '1', rbrack]

/-- The pattern backslash-apostrophe-t of the apostrophe regex. -/
def bsT : GoStr := [bsl, sqch, 't']

/-- Early return of the ellipsis branch: first bracket group of the
(already ellipsis-stripped) text, split on commas, trimmed, empties
dropped, and rejoined — if any elements remain. -/
def ellipsisTry (s : GoStr) : Option GoStr :=
  match arrGroup s with
  | none => none
  | some g =>
    let es := ((splitComma g).map goTrimSpace).filter (· ≠ [])
    if es = [] then none else some (lbrack :: joinComma es ++ [rbrack])

/-- Rewrite stages of `repairJSON` up to the validity recheck: quote
normalization, key quoting, value quoting, trailing-comma removal, bracket
balancing, residual ellipsis stripping, comma insertion for arrays. -/
def pipeR7 (src1 : GoStr) : GoStr :=
  let r1 := replaceQuotes src1
  let r2 := fixUnquotedKeys r1.length r1
  let r3 := fixUnquotedValues r2
  let r4 := removeTrailingCommas r3
  let r5 := balanceBrackets r4
  let r6 := if containsSub r5 dots3 then stripEllipsis r5.length r5 else r5
  if startsWithL r6 [lbrack] then commaInsertArr r6.length r6 else r6

/-- The degraded key-value extraction applied when the rewritten text is
still invalid and looks like an object with unclosed structure. -/
def pipeR8 (r7 : GoStr) : GoStr :=
  if startsWithL r7 [lbrace] &&
      (decide (countC r7 rbrace < countC r7 lbrace) ||
        decide (countC r7 rbrack < countC r7 lbrack)) then
    match kvScanAll r7.length r7 with
    | [] => r7
    | m :: ms => kvRebuild (m :: ms)
  else r7

/-- Stages of `repairJSON` from the rewrite pipeline on: the rewrites,
validity recheck with compaction, degraded key-value extraction,
empty-structure fallback, terminal failure. -/
def repairPipeline (src1 : GoStr) : Except RepairErr GoStr :=
  let r7 := pipeR7 src1
  if jsonValid r7 then
    match goCompact r7 with
    | some b => Except.ok b
    | none => Except.error RepairErr.compactErr
  else
    let r8 := pipeR8 r7
    if jsonValid r8 then
      match goCompact r8 with
      | some b => Except.ok b
      | none => Except.error RepairErr.compactErr
    else if startsWithL r8 [lbrace] then Except.ok [lbrace, rbrace]
    else if startsWithL r8 [lbrack] then Except.ok [lbrack, rbrack]
    else Except.error RepairErr.repairFailed

/-- Stage of `repairJSON` after the trailing-comma branch: the
space-separated-array special case, the apostrophe fix, the two-character
skeleton checks, then the rewrite pipeline. -/
def repairTail2 (src : GoStr) : Except RepairErr GoStr :=
  if (startsWithL src [lbrack, qch] || startsWithL src [lbrack, sqch]) && spaceSepMatch src then
    Except.ok abcLit
  else
    let src1 := if containsSub src bsT then replaceLit src.length src bsT [sqch, 't'] else src
    if startsWithL src1 [lbrace, qch] && decide (src1.length ≤ 2) then
      Except.ok [lbrace, rbrace]
    else if startsWithL src1 [lbrack, qch] && decide (src1.length ≤ 2) then
      Except.ok [lbrack, rbrack]
    else repairPipeline src1

/-- Stage of `repairJSON` after the ellipsis branch: the
comma-before-missing-bracket special case, then the later stages. -/
def repairTail (src : GoStr) : Except RepairErr GoStr :=
  if startsWithL src [lbrack] && endsWithL (goTrimSpace src) [','] then
    match arrTrailGroup src with
    | some g => Except.ok (lbrack :: g ++ [rbrack])
    | none => repairTail2 src
  else repairTail2 src

/-- Stage of `repairJSON` after bracket anchoring: fast path for already
valid text (compact and return), minimal-skeleton special cases, the
ellipsis branch (which reassigns the working text), then the later
stages. -/
def repairAnch (src : GoStr) : Except RepairErr GoStr :=
  if jsonValid src then
    match goCompact src with
    | some b => Except.ok b
    | none => Except.error RepairErr.compactErr
  else if src = [lbrack] then Except.ok [lbrack, rbrack]
  else if src = [lbrace] then Except.ok [lbrace, rbrace]
  else if src = [lbrack, lbrace, rbrack] then Except.ok [lbrack, lbrace, rbrace, rbrack]
  else if startsWithL src [lbrack] && containsSub src dots3 then
    let src2 := stripEllipsis src.length src
    match ellipsisTry src2 with
    | some r => Except.ok r
    | none => repairTail src2
  else repairTail src

/-- Bracket anchoring of `repairJSON`: text already starting with a brace,
bracket or quote is kept; otherwise everything before the first brace or
bracket is discarded, and text with no bracket at all yields `none`. -/
def anchored (src : GoStr) : Option GoStr :=
  if startsWithL src [lbrace] || startsWithL src [lbrack] || startsWithL src [qch] then
    some src
  else firstBrackSuffix src

/-- Go `repairJSON` of `safeunmarshal/json_repair.go`: empty-input
identity, pre-trim, degenerate-input short-circuits, bracket anchoring
(with the empty-string-literal return for text without any bracket), then
the anchored stages. -/
def repairJSON (src0 : GoStr) : Except RepairErr GoStr :=
  if src0 = [] then Except.ok []
  else
    let src := pretrim src0
    if src = [qch] then Except.ok jsonEmptyLit
    else if src = ['\n'] then Except.ok jsonEmptyLit
    else if src = [' '] then Except.ok jsonEmptyLit
    else if src = [rbrack] then Except.ok jsonEmptyLit
    else if src = [rbrace] then Except.ok jsonEmptyLit
    else
      match anchored src with
      | some s2 => repairAnch s2
      | none => Except.ok jsonEmptyLit

/-! ### The safe decoder -/

/-- Balanced-brace-region scan of `prepareStringWithJsonForUnmarshalling`:
walks the text with a brace counter (which may go negative on stray
closers), records the first opening brace, and returns the slice from it
through the position where the counter returns to zero. -/
def braceScanLoop (cnt : Int) (acc : Option GoStr) : GoStr → Option GoStr
  | [] => none
  | c :: rest =>
    if c = lbrace then
      let acc' := some (match acc with | none => [c] | some a => c :: a)
      braceScanLoop (cnt + 1) acc' rest
    else if c = rbrace then
      let acc' := acc.map (c :: ·)
      if cnt - 1 = 0 && acc.isSome then acc'.map List.reverse
      else braceScanLoop (cnt - 1) acc' rest
    else braceScanLoop cnt (acc.map (c :: ·)) rest

/-- Go `prepareStringWithJsonForUnmarshalling`: trim; keep the text when
it is brace- or bracket-delimited at both ends; otherwise extract the
first balanced brace region of the original text, or return the empty
string. -/
def prepareStringWithJson (data : GoStr) : GoStr :=
  let t := goTrimSpace data
  if t = [] then []
  else
    let firstc := t.headD ' '
    let lastc := (t.getLast?).getD ' '
    if (firstc = lbrace && lastc = rbrace) || (firstc = lbrack && lastc = rbrack) then t
    else
      match braceScanLoop 0 none data with
      | some region => region
      | none => []

/-- Go `isJSONArray`: skip leading spaces, tabs, newlines and carriage
returns; the first other character must be an opening bracket. -/
def isJSONArray : GoStr → Bool
  | [] => false
  | c :: rest =>
    if c = ' ' || c = '\t' || c = '\n' || c = '\r' then isJSONArray rest
    else c = lbrack

/-- Error kinds of the safe decoder `To`. -/
inductive ToErr where
  | emptyInput : ToErr
  | expectedArray : ToErr
  | repairFailed : ToErr
  | repairEmpty : ToErr
  | finalDecode : ToErr
deriving DecidableEq

/-- Input normalization of Go `To`: prepare the text to its outermost
bracketed region, then strip every newline. -/
def toNormalize (raw : GoStr) : GoStr :=
  replaceLit (prepareStringWithJson raw).length (prepareStringWithJson raw) ['\n'] []

/-- Go `To` of `safeunmarshall/safe_unmarshall.go`, parametrized by the
target shape: `isArr` tells whether the target type is an array or slice,
and `dec` is `json.Unmarshal` into the target, returning `none` on any
unmarshalling error.  After normalization: empty check, direct decode,
array guard, repair fallback, re-decode. -/
def toModel {α : Type} (isArr : Bool) (dec : GoStr → Option α) (raw : GoStr) :
    Except ToErr α :=
  let data := toNormalize raw
  if data = [] then Except.error ToErr.emptyInput
  else
    match dec data with
    | some v => Except.ok v
    | none =>
      if isArr && !isJSONArray data then Except.error ToErr.expectedArray
      else
        match repairJSON data with
        | Except.error _ => Except.error ToErr.repairFailed
        | Except.ok rep =>
          if rep = [] then Except.error ToErr.repairEmpty
          else
            match dec rep with
            | some v => Except.ok v
            | none => Except.error ToErr.finalDecode

/-- Numeric value of a hex digit. -/
def hexVal (c : Char) : Nat :=
  if c.isDigit then c.toNat - 48
  else if 'a' ≤ c && c ≤ 'f' then c.toNat - 87
  else c.toNat - 55

/-- Decode a raw JSON string body into the character sequence Go's
`encoding/json` produces: standard escapes expanded and `u` escapes decoded
as single code units (surrogate-pair combining, which no input of this
development exercises, is not modelled). -/
def unescBody : GoStr → Option GoStr
  | [] => some []
  | c :: rest =>
    if c = bsl then
      match rest with
      | [] => none
      | e :: rest2 =>
        if e = 'u' then
          match rest2 with
          | h1 :: h2 :: h3 :: h4 :: rest3 =>
            (unescBody rest3).map
              (Char.ofNat (((hexVal h1 * 16 + hexVal h2) * 16 + hexVal h3) * 16 + hexVal h4) :: ·)
          | _ => none
        else
          let d : Option Char :=
            if e = qch then some qch
            else if e = bsl then some bsl
            else if e = '/' then some '/'
            else if e = 'b' then some (Char.ofNat 8)
            else if e = 'f' then some (Char.ofNat 12)
            else if e = 'n' then some '\n'
            else if e = 'r' then some '\r'
            else if e = 't' then some '\t'
            else none
          match d with
          | some ch => (unescBody rest2).map (ch :: ·)
          | none => none
    else (unescBody rest).map (c :: ·)

/-- Digits to a natural number. -/
def digitsToNat (ds : GoStr) : Nat :=
  ds.foldl (fun n c => 10 * n + (c.toNat - 48)) 0

/-- Go's decoding of a JSON number literal into an `int` target: the
literal must be an optionally signed digit string (a fraction or exponent
makes `json.Unmarshal` fail for integer targets). -/
def parseGoInt (t : GoStr) : Option Int :=
  match t with
  | [] => none
  | c :: ds =>
    if c = '-' then
      if ds ≠ [] && ds.all Char.isDigit then some (-(digitsToNat ds : Int)) else none
    else if (c :: ds).all Char.isDigit then some (digitsToNat (c :: ds))
    else none

/-- The struct `SearchToolParams` with fields `ID int` and
`Query string`, the decode target of the repair-fallback scenario. -/
structure SearchToolParams where
  ID : Int
  Query : GoStr
deriving DecidableEq

/-- The field name `ID`. -/
def fieldID : GoStr := ['I', 'D']

/-- The field name `Query`. -/
def fieldQuery : GoStr := ['Q', 'u', 'e', 'r', 'y']

/-- Go `json.Unmarshal` into `SearchToolParams`: the document must be an
object; members are applied in order, an `ID` member must carry an
integral number and a `Query` member a string, and other members are
ignored.  (Go also admits case-insensitive field matches; no input of
this development exercises that.) -/
def decSearchToolParams (s : GoStr) : Option SearchToolParams :=
  match jsonSemFull s with
  | some (Json.jobj kvs) =>
    kvs.foldlM
      (fun acc kv =>
        match unescBody kv.1 with
        | none => none
        | some k =>
          if k = fieldID then
            match kv.2 with
            | Json.jnum t => (parseGoInt t).map (fun n => { acc with ID := n })
            | _ => none
          else if k = fieldQuery then
            match kv.2 with
            | Json.jstr b => (unescBody b).map (fun q => { acc with Query := q })
            | _ => none
          else some acc)
      { ID := 0, Query := [] }
  | _ => none

/-! ### Concrete inputs of the claims -/

deriving instance DecidableEq for Except

/-- The bracket-free plain-text input of the terminal-failure scenario. -/
def inpPlain : GoStr :=
  ['j', 'u', 's', 't', 's', 'o', 'm', 'e', 'p', 'l', 'a', 'i', 'n', 't', 'e', 'x', 't']

/-- An array with a bare word and an ellipsis. -/
def inpFooDots : GoStr := [lbrack, 'f', 'o', 'o', ' ', '.', '.', '.', rbrack]

/-- The invalid text the ellipsis branch returns for `inpFooDots`. -/
def outFoo : GoStr := [lbrack, 'f', 'o', 'o', rbrack]

/-- The valid JSON number `123` as text. -/
def inpNum : GoStr := ['1', '2', '3']

/-- The truncated object of the bracket-balancing scenario. -/
def inpC6 : GoStr := [lbrace, qch, 'a', qch, ':', ' ', lbrack, '1', ',', ' ', '2', ',', ' ', '3']

/-- The balanced compacted object expected for `inpC6`. -/
def outC6 : GoStr := [lbrace, qch, 'a', qch, ':', lbrack, '1', ',', '2', ',', '3', rbrack, rbrace]

/-- The malformed object of the decoder repair-fallback scenario. -/
def inpC4 : GoStr :=
  [lbrace, 'I', 'D', ':', ' ', '1', '2', '3', ',', ' ', sqch, 'Q', 'u', 'e', 'r', 'y', sqch,
   ':', ' ', sqch, 'a', 'n', 'o', 't', 'h', 'e', 'r', ' ', 'q', 'u', 'e', 'r', 'y', sqch, rbrace]

/-- The decoded struct expected for `inpC4`. -/
def outC4 : SearchToolParams :=
  { ID := 123, Query := ['a', 'n', 'o', 't', 'h', 'e', 'r', ' ', 'q', 'u', 'e', 'r', 'y'] }

/-- A space-separated array whose tokens differ from the hard-coded
literal. -/
def inpXYZ : GoStr := [lbrack, qch, 'x', qch, ' ', qch, 'y', qch, ' ', qch, 'z', qch, ' ', '9']

/-- The space-separated array of the documented example. -/
def inpABC : GoStr := [lbrack, qch, 'a', qch, ' ', qch, 'b', qch, ' ', qch, 'c', qch, ' ', '1']

/-- The truncated array payload of the normalization scenario. -/
def inpTruncArr : GoStr := [lbrack, '1', ',', ' ', '2', ',', ' ', '3']

/-- A missing-brace object used as a generic repair-success witness. -/
def inpMissBrace : GoStr := [lbrace, qch, 'a', qch, ':', ' ', '1']

/-- The compacted object produced for `inpMissBrace`. -/
def outMissBrace : GoStr := [lbrace, qch, 'a', qch, ':', '1', rbrace]

/-- A valid object with surrounding spaces. -/
def inpSpacedObj : GoStr := [' ', lbrace, qch, 'a', qch, ':', ' ', '1', rbrace, ' ']

/-- An object-shaped payload used against a sequence-typed target. -/
def inpObjPayload : GoStr := [lbrace, qch, 'a', qch, ':', ' ', '1', rbrace]

/-! ### Helper lemmas -/

/-- Scanning a concatenation scans the parts in order. -/
theorem bbScan_append (st : List Char) (a b : GoStr) :
    bbScan st (a ++ b) = bbScan (bbScan st a) b := by
  simp [bbScan, List.foldl_append]

/-- One scan step keeps the stack made of openers. -/
theorem bbStep_mem (st : List Char) (c : Char)
    (h : ∀ d ∈ st, d = lbrace ∨ d = lbrack) :
    ∀ d ∈ bbStep st c, d = lbrace ∨ d = lbrack := by
  intro d hd
  cases st with
  | nil =>
    unfold bbStep at hd
    split_ifs at hd with h1 h2 h3
    · rcases List.mem_cons.mp hd with h' | h'
      · subst h'
        simpa using h1
      · cases h'
    · cases hd
    · cases hd
    · cases hd
  | cons t st' =>
    unfold bbStep at hd
    split_ifs at hd with h1 h2 h3
    · rcases List.mem_cons.mp hd with h' | h'
      · subst h'
        simpa using h1
      · exact h d h'
    · have hd' : d ∈ (if t = lbrace then st' else t :: st') := hd
      split_ifs at hd' with h4
      · exact h d (List.mem_cons_of_mem t hd')
      · exact h d hd'
    · have hd' : d ∈ (if t = lbrack then st' else t :: st') := hd
      split_ifs at hd' with h4
      · exact h d (List.mem_cons_of_mem t hd')
      · exact h d hd'
    · exact h d hd

/-- The scan stack only ever holds openers. -/
theorem bbScan_mem (s : GoStr) (st : List Char)
    (h : ∀ d ∈ st, d = lbrace ∨ d = lbrack) :
    ∀ d ∈ bbScan st s, d = lbrace ∨ d = lbrack := by
  induction s generalizing st with
  | nil => exact h
  | cons c rest ih => exact ih (bbStep st c) (bbStep_mem st c h)

/-- A closing brace pops its matching opener. -/
theorem bbStep_close_brace (st' : List Char) : bbStep (lbrace :: st') rbrace = st' := by
  unfold bbStep
  rw [if_neg (by decide), if_pos (by decide)]
  show (if lbrace = lbrace then st' else lbrace :: st') = st'
  rw [if_pos rfl]

/-- A closing bracket pops its matching opener. -/
theorem bbStep_close_brack (st' : List Char) : bbStep (lbrack :: st') rbrack = st' := by
  unfold bbStep
  rw [if_neg (by decide), if_neg (by decide), if_pos (by decide)]
  show (if lbrack = lbrack then st' else lbrack :: st') = st'
  rw [if_pos rfl]

/-- Scanning the appended closers empties a stack of openers: each closer
pops exactly its opener, most recent first. -/
theorem bbScan_closers (st : List Char)
    (h : ∀ d ∈ st, d = lbrace ∨ d = lbrack) :
    bbScan st (bbClosers st) = [] := by
  induction st with
  | nil => rfl
  | cons c st' ih =>
    have hc := h c (List.mem_cons_self c st')
    have hrest : ∀ d ∈ st', d = lbrace ∨ d = lbrack :=
      fun d hd => h d (List.mem_cons_of_mem c hd)
    rcases hc with hc | hc <;> subst hc
    · show bbScan (lbrace :: st') (bbClosers (lbrace :: st')) = []
      have hcl : bbClosers (lbrace :: st') = rbrace :: bbClosers st' := by
        simp [bbClosers]
      rw [hcl]
      show bbScan (bbStep (lbrace :: st') rbrace) (bbClosers st') = []
      rw [bbStep_close_brace]
      exact ih hrest
    · show bbScan (lbrack :: st') (bbClosers (lbrack :: st')) = []
      have hcl : bbClosers (lbrack :: st') = rbrack :: bbClosers st' := by
        simp [bbClosers, show ¬ (lbrack = lbrace) from by decide]
      rw [hcl]
      show bbScan (bbStep (lbrack :: st') rbrack) (bbClosers st') = []
      rw [bbStep_close_brack]
      exact ih hrest

/-- After `balanceBrackets` every bracket and brace is balanced: the scan
of the result leaves an empty stack. -/
theorem bbScan_balanced (s : GoStr) : bbScan [] (balanceBrackets s) = [] := by
  unfold balanceBrackets
  rw [bbScan_append]
  exact bbScan_closers (bbScan [] s) (bbScan_mem s [] (by intro d hd; cases hd))

/-! ### Claim theorems -/

/-- Claim C10: for every string, `balanceBrackets` returns the string
itself with zero or more closing characters appended — one matching closer
per unmatched opener found by the stack scan, most recently opened first —
never deleting, inserting or reordering characters; scanning the result
leaves an empty stack, and when the input scan leaves an empty stack
(in particular for over-closed input, whose surplus closers never push)
the string is returned unchanged. -/
theorem balanceBrackets_appends_matching_closers (s : GoStr) :
    balanceBrackets s = s ++ bbClosers (bbScan [] s) ∧
    (∀ c ∈ bbClosers (bbScan [] s), c = rbrace ∨ c = rbrack) ∧
    (bbClosers (bbScan [] s)).length = (bbScan [] s).length ∧
    bbScan [] (balanceBrackets s) = [] ∧
    (bbScan [] s = [] → balanceBrackets s = s) := by
  refine ⟨rfl, ?_, by simp [bbClosers], bbScan_balanced s, ?_⟩
  · intro c hc
    rcases List.mem_map.mp hc with ⟨d, hd, hdc⟩
    rcases bbScan_mem s [] (by intro x hx; cases hx) d hd with h | h <;> subst h
    · rw [if_pos rfl] at hdc
      exact Or.inl hdc.symm
    · rw [if_neg (by decide)] at hdc
      exact Or.inr hdc.symm
  · intro hempty
    unfold balanceBrackets
    rw [hempty]
    simp [bbClosers]

/-- Witness for C10 at the over-closed input of two stray closers: the
scan stack stays empty, so the string is returned unchanged. -/
theorem balanceBrackets_appends_matching_closers_witness :
    balanceBrackets [rbrack, rbrack] = [rbrack, rbrack] :=
  (balanceBrackets_appends_matching_closers [rbrack, rbrack]).2.2.2.2 (by decide)

/-- Claim C6: repair closes unclosed brackets by the stack-based scan that
appends the matching closers in reverse-opening order at the end of the
string (the appended text is exactly one closer per unclosed opener, and
the result scans to an empty stack); in particular the truncated object
input repairs to exactly the text of the balanced compacted object, which
is therefore semantically equal to it. -/
theorem repair_balances_brackets :
    (∀ s : GoStr, balanceBrackets s = s ++ bbClosers (bbScan [] s) ∧
      bbScan [] (balanceBrackets s) = []) ∧
    repairJSON inpC6 = Except.ok outC6 ∧
    jsonValid outC6 = true :=
  ⟨fun s => ⟨rfl, bbScan_balanced s⟩, by decide, by decide⟩

/-- Claim C7: the degenerate single-character inputs: a lone opening
bracket yields the empty array, a lone opening brace the empty object, and
a lone closing bracket, closing brace, quote, newline or space yields the
canonical empty-string JSON literal, each with no error. -/
theorem repair_degenerate_singletons :
    repairJSON [lbrack] = Except.ok [lbrack, rbrack] ∧
    repairJSON [lbrace] = Except.ok [lbrace, rbrace] ∧
    repairJSON [rbrack] = Except.ok jsonEmptyLit ∧
    repairJSON [rbrace] = Except.ok jsonEmptyLit ∧
    repairJSON [qch] = Except.ok jsonEmptyLit ∧
    repairJSON ['\n'] = Except.ok jsonEmptyLit ∧
    repairJSON [' '] = Except.ok jsonEmptyLit := by
  refine ⟨by decide, by decide, by decide, by decide, by decide, by decide, by decide⟩

/-- Counterexample to claim C1 as stated: the non-empty input of a bare
word followed by an ellipsis inside brackets is answered without error by
the ellipsis branch, yet the returned text (the bracketed bare word) is
not syntactically valid JSON, and is neither the empty-object nor the
empty-array fallback. -/
theorem repair_returns_invalid_text_cex :
    inpFooDots ≠ [] ∧
    repairJSON inpFooDots = Except.ok outFoo ∧
    jsonValid outFoo = false ∧
    outFoo ≠ [lbrace, rbrace] ∧ outFoo ≠ [lbrack, rbrack] := by
  refine ⟨by decide, by decide, by decide, by decide, by decide⟩

/-- Counterexample to claim C2 as stated: the bracket-free input
`justsomeplaintext` is answered with the empty-string JSON literal and no
error, not with a repair-failure error. -/
theorem repair_plaintext_ok_cex :
    repairJSON inpPlain = Except.ok jsonEmptyLit := by decide

/-- Counterexample to claim C3 as stated: the text `123` is syntactically
valid JSON, yet repair returns the empty-string literal, whose parse
differs from the parse of the input — the value is destroyed, not
compacted. -/
theorem repair_valid_number_destroyed_cex :
    jsonValid inpNum = true ∧
    repairJSON inpNum = Except.ok jsonEmptyLit ∧
    jsonSemFull jsonEmptyLit ≠ jsonSemFull inpNum := by
  refine ⟨by decide, by decide, ?_⟩
  have h1 : jsonSemFull jsonEmptyLit = some (Json.jstr []) := rfl
  have h2 : jsonSemFull inpNum = some (Json.jnum ['1', '2', '3']) := rfl
  rw [h1, h2]
  simp

/-- Counterexample to claim C8 as stated: the space-separated array input
with tokens `x`, `y`, `z`, `9` is answered with the hard-coded literal of
tokens `a`, `b`, `c`, `1`, which does not contain the input's tokens. -/
theorem repair_space_sep_hardcoded_cex :
    repairJSON inpXYZ = Except.ok abcLit ∧
    containsSub inpXYZ ['x'] = true ∧
    containsSub abcLit ['x'] = false := by
  refine ⟨by decide, by decide, by decide⟩

/-- Claim C4: decoding the malformed object with an unquoted key and
single-quoted strings into the struct with an integer `ID` field and a
string `Query` field fails on the direct decode and succeeds through the
repair fallback, yielding the expected field values. -/
theorem to_repair_fallback_id_query :
    decSearchToolParams (toNormalize inpC4) = none ∧
    toModel false decSearchToolParams inpC4 = Except.ok outC4 := by
  refine ⟨by decide, by decide⟩

/-- Dropping a prefix by a predicate is a sublist. -/
theorem dropWhileSub (p : Char → Bool) (s : GoStr) : (s.dropWhile p).Sublist s :=
  (List.dropWhile_suffix p).sublist

/-- Go trimming yields a sublist of the input. -/
theorem goTrimSpace_sublist (s : GoStr) : (goTrimSpace s).Sublist s := by
  unfold goTrimSpace
  have h1 : (s.dropWhile isGoSpace).Sublist s := dropWhileSub _ s
  have h2 := (dropWhileSub isGoSpace (s.dropWhile isGoSpace).reverse).reverse
  rw [List.reverse_reverse] at h2
  exact h2.trans h1

/-- The whole pre-trim yields a sublist of the input. -/
theorem pretrim_sublist (s : GoStr) : (pretrim s).Sublist s := by
  have h2 : (goTrimPre (goTrimSpace s) fenceOpen).Sublist (goTrimSpace s) := by
    unfold goTrimPre
    split_ifs
    · exact List.drop_sublist _ _
    · exact List.Sublist.refl _
  have h3 : (goTrimSuf (goTrimPre (goTrimSpace s) fenceOpen) fenceClose).Sublist
      (goTrimPre (goTrimSpace s) fenceOpen) := by
    unfold goTrimSuf
    split_ifs
    · exact List.take_sublist _ _
    · exact List.Sublist.refl _
  exact ((goTrimSpace_sublist _).trans (h3.trans h2)).trans (goTrimSpace_sublist s)

/-- Text with no brace and no bracket has no bracket anchor. -/
theorem firstBrackSuffix_none (s : GoStr) (h1 : lbrace ∉ s) (h2 : lbrack ∉ s) :
    firstBrackSuffix s = none := by
  induction s with
  | nil => rfl
  | cons c rest ih =>
    unfold firstBrackSuffix
    have hc : ¬ ((c = lbrace || c = lbrack) = true) := by
      simp only [Bool.or_eq_true, decide_eq_true_eq]
      rintro (h | h) <;> subst h
      · exact h1 (List.mem_cons_self _ _)
      · exact h2 (List.mem_cons_self _ _)
    rw [if_neg hc]
    exact ih (fun hm => h1 (List.mem_cons_of_mem c hm))
      (fun hm => h2 (List.mem_cons_of_mem c hm))

/-- A single-character prefix is a member. -/
theorem startsWith_single_mem {s : GoStr} {x : Char} (h : startsWithL s [x] = true) :
    x ∈ s := by
  rcases List.isPrefixOf_iff_prefix.mp h with ⟨t, ht⟩
  rw [← ht]
  exact List.mem_append_left _ (List.mem_singleton_self x)

/-- Amended claim C2: every non-empty input containing no brace and no
bracket, and not starting with a quote after the pre-trim, is answered
with the empty-string JSON literal and no error; the repair-failure error
is not surfaced for bracket-free input. -/
theorem repair_bracket_free_ok_empty_lit (s : GoStr) (hne : s ≠ [])
    (hbrace : lbrace ∉ s) (hbrack : lbrack ∉ s)
    (hq : startsWithL (pretrim s) [qch] = false) :
    repairJSON s = Except.ok jsonEmptyLit := by
  have hsub := pretrim_sublist s
  have hbrace' : lbrace ∉ pretrim s := fun hm => hbrace (hsub.subset hm)
  have hbrack' : lbrack ∉ pretrim s := fun hm => hbrack (hsub.subset hm)
  have ha : anchored (pretrim s) = none := by
    unfold anchored
    rw [if_neg, firstBrackSuffix_none _ hbrace' hbrack']
    simp only [Bool.or_eq_true]
    rintro ((h | h) | h)
    · exact hbrace' (startsWith_single_mem h)
    · exact hbrack' (startsWith_single_mem h)
    · rw [h] at hq
      cases hq
  simp only [repairJSON]
  rw [if_neg hne]
  split_ifs with h1 h2 h3 h4 h5
  · rfl
  · rfl
  · rfl
  · rfl
  · rfl
  · rw [ha]

/-- Witness for the amended claim C2: a bracket-free word. -/
theorem repair_bracket_free_ok_empty_lit_witness :
    repairJSON ['h', 'e', 'l', 'l', 'o'] = Except.ok jsonEmptyLit :=
  repair_bracket_free_ok_empty_lit _ (by decide) (by decide) (by decide) (by decide)

/-- Claim C5: whenever the target shape is a sequence type, the normalized
text is non-empty, the direct decode fails and the first non-whitespace
character of the normalized text is not an opening bracket, the decoder
fails with the expected-array error kind — for every decode function, so
the repair engine (whose outcome the result does not consult on this path)
is never invoked. -/
theorem to_array_mismatch_guard {α : Type} (dec : GoStr → Option α) (raw : GoStr)
    (hne : toNormalize raw ≠ [])
    (hdec : dec (toNormalize raw) = none)
    (harr : isJSONArray (toNormalize raw) = false) :
    toModel true dec raw = Except.error ToErr.expectedArray := by
  simp only [toModel]
  rw [if_neg hne, hdec, harr]
  rfl

/-- Witness for claim C5: an object-shaped payload against a sequence
target whose decode rejects it. -/
theorem to_array_mismatch_guard_witness :
    toModel true (fun _ : GoStr => (none : Option (List Int))) inpObjPayload =
      Except.error ToErr.expectedArray :=
  to_array_mismatch_guard _ inpObjPayload (by decide) rfl (by decide)

/-- A suffix test against a single character means the list ends with it. -/
theorem endsWith_single_iff (l : GoStr) (x : Char) :
    endsWithL l [x] = true ↔ ∃ p, p ++ [x] = l := by
  constructor
  · intro h
    exact List.isSuffixOf_iff_suffix.mp h
  · intro h
    exact List.isSuffixOf_iff_suffix.mpr h

/-- Claim C9: when the trimmed text starts with an opening bracket, does
not end with a closing bracket, and the balanced-brace-region scan finds
nothing, normalization returns the empty string and the decoder fails with
the empty-input error before any repair — for every target shape and
decode function. -/
theorem to_truncated_array_empty_input {α : Type} (isArr : Bool)
    (dec : GoStr → Option α) (raw : GoStr)
    (hhead : startsWithL (goTrimSpace raw) [lbrack] = true)
    (htail : endsWithL (goTrimSpace raw) [rbrack] = false)
    (hscan : braceScanLoop 0 none raw = none) :
    prepareStringWithJson raw = [] ∧
    toModel isArr dec raw = Except.error ToErr.emptyInput := by
  have hprep : prepareStringWithJson raw = [] := by
    have hne : goTrimSpace raw ≠ [] := by
      intro h
      rw [h] at hhead
      cases hhead
    have hc : (goTrimSpace raw).headD ' ' = lbrack := by
      rcases htr : goTrimSpace raw with _ | ⟨c, rest⟩
      · exact absurd htr hne
      · rw [htr] at hhead
        simp only [startsWithL, List.isPrefixOf, Bool.and_eq_true, beq_iff_eq] at hhead
        simp [hhead.1.symm]
    have hlast : ¬ (((goTrimSpace raw).getLast?).getD ' ' = rbrack) := by
      intro heq
      have hsome : (goTrimSpace raw).getLast? = some ((goTrimSpace raw).getLast hne) :=
        List.getLast?_eq_getLast _ hne
      rw [hsome] at heq
      simp only [Option.getD_some] at heq
      have hdec : (goTrimSpace raw).dropLast ++ [(goTrimSpace raw).getLast hne] =
          goTrimSpace raw := List.dropLast_append_getLast hne
      have hends : endsWithL (goTrimSpace raw) [rbrack] = true :=
        (endsWith_single_iff _ _).mpr
          ⟨(goTrimSpace raw).dropLast, by rw [heq] at hdec; exact hdec⟩
      rw [hends] at htail
      cases htail
    have hcond : ¬ ((((goTrimSpace raw).headD ' ' = lbrace &&
        ((goTrimSpace raw).getLast?).getD ' ' = rbrace) ||
        ((goTrimSpace raw).headD ' ' = lbrack &&
        ((goTrimSpace raw).getLast?).getD ' ' = rbrack)) = true) := by
      simp only [Bool.or_eq_true, Bool.and_eq_true, decide_eq_true_eq]
      rintro (⟨h, -⟩ | ⟨-, h⟩)
      · rw [hc] at h
        exact absurd h (by decide)
      · exact hlast h
    simp only [prepareStringWithJson]
    rw [if_neg hne, if_neg hcond, hscan]
  refine ⟨hprep, ?_⟩
  have hnorm : toNormalize raw = [] := by
    simp only [toNormalize, hprep]
    rfl
  simp only [toModel, hnorm]
  rfl

/-- Witness for claim C9: the truncated array payload. -/
theorem to_truncated_array_empty_input_witness :
    prepareStringWithJson inpTruncArr = [] ∧
    toModel false decSearchToolParams inpTruncArr = Except.error ToErr.emptyInput :=
  to_truncated_array_empty_input false decSearchToolParams inpTruncArr
    (by decide) (by decide) (by decide)

/-- A two-character prefix decomposes the list. -/
theorem startsWith_pair {s : GoStr} {a b : Char} (h : startsWithL s [a, b] = true) :
    ∃ t, s = a :: b :: t := by
  rcases List.isPrefixOf_iff_prefix.mp h with ⟨t, ht⟩
  exact ⟨t, ht.symm⟩

/-- Amended claim C8: every input matching the narrow space-separated
pattern after pre-trim (and not captured by the earlier fast-path,
minimal-skeleton, ellipsis or trailing-comma branches) is answered with
the fixed literal of tokens `a`, `b`, `c`, `1` — not with a literal built
from the input's own tokens. -/
theorem repair_space_sep_fixed_literal (s : GoStr)
    (hpre : startsWithL (pretrim s) [lbrack, qch] = true ∨
      startsWithL (pretrim s) [lbrack, sqch] = true)
    (hmatch : spaceSepMatch (pretrim s) = true)
    (hvalid : jsonValid (pretrim s) = false)
    (hdots : containsSub (pretrim s) dots3 = false)
    (hcomma : endsWithL (goTrimSpace (pretrim s)) [','] = false) :
    repairJSON s = Except.ok abcLit := by
  have hsrc : ∃ x t, pretrim s = lbrack :: x :: t ∧ (x = qch ∨ x = sqch) := by
    rcases hpre with h | h
    · rcases startsWith_pair h with ⟨t, ht⟩
      exact ⟨qch, t, ht, Or.inl rfl⟩
    · rcases startsWith_pair h with ⟨t, ht⟩
      exact ⟨sqch, t, ht, Or.inr rfl⟩
  rcases hsrc with ⟨x, t, hsrc, hx⟩
  have hne : s ≠ [] := by
    intro h
    subst h
    rw [(rfl : pretrim [] = [])] at hsrc
    exact List.noConfusion hsrc
  have hd1 : pretrim s ≠ [qch] := by
    rw [hsrc]; intro h; injection h with h1 _; exact absurd h1 (by decide)
  have hd2 : pretrim s ≠ ['\n'] := by
    rw [hsrc]; intro h; injection h with h1 _; exact absurd h1 (by decide)
  have hd3 : pretrim s ≠ [' '] := by
    rw [hsrc]; intro h; injection h with h1 _; exact absurd h1 (by decide)
  have hd4 : pretrim s ≠ [rbrack] := by
    rw [hsrc]; intro h; injection h with h1 _; exact absurd h1 (by decide)
  have hd5 : pretrim s ≠ [rbrace] := by
    rw [hsrc]; intro h; injection h with h1 _; exact absurd h1 (by decide)
  have hstart : startsWithL (pretrim s) [lbrack] = true := by
    rw [hsrc]; simp [startsWithL, List.isPrefixOf]
  have hanch : anchored (pretrim s) = some (pretrim s) := by
    unfold anchored
    rw [if_pos]
    rw [hstart]
    simp
  have hne_brack : pretrim s ≠ [lbrack] := by
    rw [hsrc]; intro h; injection h with _ h2; exact List.noConfusion h2
  have hne_brace : pretrim s ≠ [lbrace] := by
    rw [hsrc]; intro h; injection h with h1 _; exact absurd h1 (by decide)
  have hne_skel : pretrim s ≠ [lbrack, lbrace, rbrack] := by
    rw [hsrc]; intro h; injection h with _ h2; injection h2 with h3 _
    rcases hx with hx | hx <;> subst hx <;> exact absurd h3 (by decide)
  have htail2 : repairTail2 (pretrim s) = Except.ok abcLit := by
    unfold repairTail2
    rw [if_pos]
    rw [hmatch, Bool.and_true]
    rcases hpre with h | h <;> rw [h] <;> simp
  have htail : repairTail (pretrim s) = Except.ok abcLit := by
    unfold repairTail
    rw [if_neg, htail2]
    rw [hcomma, Bool.and_false]
    exact Bool.false_ne_true
  have hrep : repairAnch (pretrim s) = Except.ok abcLit := by
    unfold repairAnch
    rw [if_neg (by rw [hvalid]; exact Bool.false_ne_true), if_neg hne_brack,
      if_neg hne_brace, if_neg hne_skel, if_neg, htail]
    rw [hdots, Bool.and_false]
    exact Bool.false_ne_true
  simp only [repairJSON]
  rw [if_neg hne, if_neg hd1, if_neg hd2, if_neg hd3, if_neg hd4, if_neg hd5, hanch]
  exact hrep

/-- Witness for the amended claim C8: the documented example input, whose
tokens happen to coincide with the fixed literal. -/
theorem repair_space_sep_fixed_literal_witness :
    repairJSON inpABC = Except.ok abcLit :=
  repair_space_sep_fixed_literal inpABC (Or.inl (by decide)) (by decide) (by decide)
    (by decide) (by decide)

/-! ### Well-formedness of parse trees and token-level lemmas -/

/-- A complete valid string body: what the string-body parser accepts up
to a closing quote — no bare quote, no control character, only complete
escapes.  The first argument is the number of pending hex digits, as in
the parser. -/
def bodyOKM : Nat → GoStr → Bool
  | Nat.succ _, [] => false
  | Nat.succ n, h :: rest => isHexC h && bodyOKM n rest
  | 0, [] => true
  | 0, c :: rest =>
    if c = qch then false
    else if c = bsl then
      match rest with
      | [] => false
      | e :: rest2 =>
        if e = 'u' then bodyOKM 4 rest2
        else isEscC e && bodyOKM 0 rest2
    else if c.toNat < 32 then false
    else bodyOKM 0 rest

/-- A complete valid string body in the normal state. -/
def bodyOK : GoStr → Bool := bodyOKM 0

/-- A complete number token: `numTok` consumes it exactly. -/
def numOK (t : GoStr) : Prop := numTok t = some (t, [])

/-- Well-formed parse trees: every atom re-parses to itself. -/
inductive WFj : Json → Prop where
  | wnull : WFj Json.jnull
  | wbool : ∀ b, WFj (Json.jbool b)
  | wnum : ∀ t, numOK t → WFj (Json.jnum t)
  | wstr : ∀ b, bodyOK b = true → WFj (Json.jstr b)
  | warr : ∀ xs, (∀ x ∈ xs, WFj x) → WFj (Json.jarr xs)
  | wobj : ∀ kvs, (∀ kv ∈ kvs, bodyOK (Prod.fst kv) = true) →
      (∀ kv ∈ kvs, WFj (Prod.snd kv)) → WFj (Json.jobj kvs)

/-- Characters that can start the text of a JSON value. -/
def startChP (c : Char) : Prop :=
  c = lbrace ∨ c = lbrack ∨ c = qch ∨ c = '-' ∨ c.isDigit = true ∨
    c = 't' ∨ c = 'f' ∨ c = 'n'

/-- Characters that can end the text of a JSON value. -/
def endChP (c : Char) : Prop :=
  c = rbrace ∨ c = rbrack ∨ c = qch ∨ c = 'e' ∨ c = 'l' ∨ c.isDigit = true

/-- A rest of input whose head cannot extend a preceding value: empty, or
starting with whitespace, a comma or a closer. -/
def stopOK (r : GoStr) : Prop :=
  r = [] ∨ ∃ c cs, r = c :: cs ∧
    (isJsonWsC c = true ∨ c = ',' ∨ c = rbrack ∨ c = rbrace)

/-- A rest of input whose head cannot extend a number token. -/
def numStop (r : GoStr) : Prop :=
  r = [] ∨ ∃ c cs, r = c :: cs ∧
    (c.isDigit = false ∧ c ≠ '.' ∧ c ≠ 'e' ∧ c ≠ 'E')

/-- JSON whitespace is one of four characters. -/
theorem isJsonWsC_cases {c : Char} (h : isJsonWsC c = true) :
    c = ' ' ∨ c = '\t' ∨ c = '\n' ∨ c = '\r' := by
  simp only [isJsonWsC, Bool.or_eq_true, decide_eq_true_eq] at h
  rcases h with ((h | h) | h) | h
  · exact Or.inl h
  · exact Or.inr (Or.inl h)
  · exact Or.inr (Or.inr (Or.inl h))
  · exact Or.inr (Or.inr (Or.inr h))

/-- Stopping input cannot extend a number. -/
theorem stopOK_numStop {r : GoStr} (h : stopOK r) : numStop r := by
  rcases h with h | ⟨c, cs, rfl, h⟩
  · exact Or.inl h
  · right
    refine ⟨c, cs, rfl, ?_⟩
    rcases h with h | h | h | h
    · rcases isJsonWsC_cases h with rfl | rfl | rfl | rfl <;>
        exact ⟨by decide, by decide, by decide, by decide⟩
    · subst h; exact ⟨by decide, by decide, by decide, by decide⟩
    · subst h; exact ⟨by decide, by decide, by decide, by decide⟩
    · subst h; exact ⟨by decide, by decide, by decide, by decide⟩

/-- Start characters are not whitespace. -/
theorem startChP_not_ws {c : Char} (h : startChP c) : isJsonWsC c = false := by
  rcases h with h | h | h | h | h | h | h | h
  · subst h; decide
  · subst h; decide
  · subst h; decide
  · subst h; decide
  · rw [Bool.eq_false_iff]
    intro hw
    rcases isJsonWsC_cases hw with rfl | rfl | rfl | rfl <;> exact absurd h (by decide)
  · subst h; decide
  · subst h; decide
  · subst h; decide

/-- Start characters are not closing brackets. -/
theorem startChP_ne_rbrack {c : Char} (h : startChP c) : c ≠ rbrack := by
  rcases h with h | h | h | h | h | h | h | h
  · subst h; decide
  · subst h; decide
  · subst h; decide
  · subst h; decide
  · rintro rfl; exact absurd h (by decide)
  · subst h; decide
  · subst h; decide
  · subst h; decide

/-- Start characters are not closing braces. -/
theorem startChP_ne_rbrace {c : Char} (h : startChP c) : c ≠ rbrace := by
  rcases h with h | h | h | h | h | h | h | h
  · subst h; decide
  · subst h; decide
  · subst h; decide
  · subst h; decide
  · rintro rfl; exact absurd h (by decide)
  · subst h; decide
  · subst h; decide
  · subst h; decide


/-- The backslash is not the quote. -/
@[simp] theorem bsl_ne_qch : ¬ (bsl = qch) := by decide

/-- The backslash is not a control character. -/
@[simp] theorem bsl_not_ctl : ¬ (bsl.toNat < 32) := by decide

/-- A cons-ended append is a cons. -/
theorem cons_append_shape (rest r : GoStr) (x : Char) :
    ∃ e rest2, rest ++ x :: r = e :: rest2 := by
  cases rest with
  | nil => exact ⟨x, r, rfl⟩
  | cons a t => exact ⟨a, t ++ x :: r, rfl⟩

/-- Unfolding of the body check in the normal state on a cons. -/
theorem bodyOKM_zero_cons (c : Char) (rest : GoStr) :
    bodyOKM 0 (c :: rest) =
      if c = qch then false
      else if c = bsl then
        (match rest with
         | [] => false
         | e :: rest2 => if e = 'u' then bodyOKM 4 rest2 else isEscC e && bodyOKM 0 rest2)
      else if c.toNat < 32 then false
      else bodyOKM 0 rest := by
  rcases rest with _ | ⟨e, rest2⟩ <;> rfl

/-- Unfolding of the string-body parser in the normal state on a cons. -/
theorem strBodyM_zero_cons (c : Char) (rest : GoStr) :
    strBodyM 0 (c :: rest) =
      if c = qch then some ([], rest)
      else if c = bsl then
        (match rest with
         | [] => none
         | e :: rest2 =>
           if e = 'u' then (strBodyM 4 rest2).map (fun p => (c :: e :: p.1, p.2))
           else if isEscC e then (strBodyM 0 rest2).map (fun p => (c :: e :: p.1, p.2))
           else none)
      else if c.toNat < 32 then none
      else (strBodyM 0 rest).map (fun p => (c :: p.1, p.2)) := by
  rcases rest with _ | ⟨e, rest2⟩ <;> rfl

/-- A valid body followed by a quote parses as exactly that body, whatever
follows the quote (in any scanner state). -/
theorem sb_ext : ∀ (n : Nat) (b : GoStr), bodyOKM n b = true →
    ∀ r, strBodyM n (b ++ qch :: r) = some (b, r) := by
  intro n b
  induction n, b using bodyOKM.induct with
  | case1 n =>
    intro hb _
    simp [bodyOKM] at hb
  | case2 n h rest ih =>
    intro hb r
    simp only [bodyOKM, Bool.and_eq_true] at hb
    show strBodyM (n + 1) (h :: (rest ++ qch :: r)) = some (h :: rest, r)
    rw [show strBodyM (n + 1) (h :: (rest ++ qch :: r)) =
      if isHexC h then (strBodyM n (rest ++ qch :: r)).map (fun p => (h :: p.1, p.2))
      else none from rfl]
    rw [if_pos hb.1, ih hb.2 r]
    rfl
  | case3 =>
    intro _ r
    show strBodyM 0 (qch :: r) = some ([], r)
    rw [strBodyM_zero_cons, if_pos rfl]
  | case4 rest =>
    intro hb
    rw [bodyOKM_zero_cons, if_pos rfl] at hb
    cases hb
  | case5 _ =>
    intro hb
    rw [bodyOKM_zero_cons, if_neg bsl_ne_qch, if_pos rfl] at hb
    cases hb
  | case6 rest2 _ ih =>
    intro hb r
    rw [bodyOKM_zero_cons, if_neg bsl_ne_qch, if_pos rfl] at hb
    have hb' : bodyOKM 4 rest2 = true := hb
    show strBodyM 0 (bsl :: 'u' :: (rest2 ++ qch :: r)) = some (bsl :: 'u' :: rest2, r)
    rw [strBodyM_zero_cons, if_neg bsl_ne_qch, if_pos rfl]
    show (strBodyM 4 (rest2 ++ qch :: r)).map (fun p => (bsl :: 'u' :: p.1, p.2)) =
      some (bsl :: 'u' :: rest2, r)
    rw [ih hb' r]
    rfl
  | case7 e rest2 hne _ ih =>
    intro hb r
    rw [bodyOKM_zero_cons, if_neg bsl_ne_qch, if_pos rfl] at hb
    have hb2 : (if e = 'u' then bodyOKM 4 rest2 else isEscC e && bodyOKM 0 rest2) = true := hb
    rw [if_neg hne] at hb2
    rcases Bool.and_eq_true_iff.mp hb2 with ⟨hesc, hrec⟩
    show strBodyM 0 (bsl :: e :: (rest2 ++ qch :: r)) = some (bsl :: e :: rest2, r)
    rw [strBodyM_zero_cons, if_neg bsl_ne_qch, if_pos rfl]
    show (if e = 'u' then (strBodyM 4 (rest2 ++ qch :: r)).map (fun p => (bsl :: e :: p.1, p.2))
      else if isEscC e then (strBodyM 0 (rest2 ++ qch :: r)).map (fun p => (bsl :: e :: p.1, p.2))
      else none) = some (bsl :: e :: rest2, r)
    rw [if_neg hne, if_pos hesc, ih hrec r]
    rfl
  | case8 c rest hq hbs hctl =>
    intro hb
    rw [bodyOKM_zero_cons, if_neg hq, if_neg hbs, if_pos hctl] at hb
    cases hb
  | case9 c rest hq hbs hctl ih =>
    intro hb r
    rw [bodyOKM_zero_cons, if_neg hq, if_neg hbs, if_neg hctl] at hb
    show strBodyM 0 (c :: (rest ++ qch :: r)) = some (c :: rest, r)
    rw [strBodyM_zero_cons, if_neg hq, if_neg hbs, if_neg hctl, ih hb r]
    rfl


/-- Decomposition of a successful string-body parse: the input splits as
the body, the closing quote and the rest, and the body is valid. -/
theorem sb_decomp : ∀ (n : Nat) (s b : GoStr) (r : GoStr),
    strBodyM n s = some (b, r) → s = b ++ qch :: r ∧ bodyOKM n b = true := by
  intro n s
  induction n, s using strBodyM.induct with
  | case1 n =>
    intro b r h
    simp [strBodyM] at h
  | case2 n h rest hh ih =>
    intro b r hp
    rw [show strBodyM (n + 1) (h :: rest) =
      if isHexC h then (strBodyM n rest).map (fun p => (h :: p.1, p.2))
      else none from rfl, if_pos hh] at hp
    rcases hmap : strBodyM n rest with _ | ⟨b', r'⟩ <;> rw [hmap] at hp
    · cases hp
    · injection hp with hp
      injection hp with hp1 hp2
      rcases ih b' r' hmap with ⟨hsplit, hok⟩
      subst hp2
      rw [← hp1]
      refine ⟨by rw [hsplit]; rfl, ?_⟩
      show (isHexC h && bodyOKM n b') = true
      rw [hh, hok]
      rfl
  | case3 n h rest hh =>
    intro b r hp
    rw [show strBodyM (n + 1) (h :: rest) =
      if isHexC h then (strBodyM n rest).map (fun p => (h :: p.1, p.2))
      else none from rfl, if_neg hh] at hp
    cases hp
  | case4 =>
    intro b r h
    simp [strBodyM] at h
  | case5 rest =>
    intro b r hp
    rw [strBodyM_zero_cons, if_pos rfl] at hp
    injection hp with hp
    injection hp with hp1 hp2
    subst hp2
    rw [← hp1]
    exact ⟨rfl, rfl⟩
  | case6 _ =>
    intro b r hp
    rw [strBodyM_zero_cons, if_neg bsl_ne_qch, if_pos rfl] at hp
    cases hp
  | case7 rest2 _ ih =>
    intro b r hp
    rw [strBodyM_zero_cons, if_neg bsl_ne_qch, if_pos rfl] at hp
    have hp' : (strBodyM 4 rest2).map (fun p => (bsl :: 'u' :: p.1, p.2)) = some (b, r) := hp
    rcases hmap : strBodyM 4 rest2 with _ | ⟨b', r'⟩ <;> rw [hmap] at hp'
    · cases hp'
    · injection hp' with hp'
      injection hp' with hp1 hp2
      rcases ih b' r' hmap with ⟨hsplit, hok⟩
      subst hp2
      rw [← hp1]
      refine ⟨by rw [hsplit]; rfl, ?_⟩
      rw [bodyOKM_zero_cons, if_neg bsl_ne_qch, if_pos rfl]
      exact hok
  | case8 e rest2 hne hesc _ ih =>
    intro b r hp
    rw [strBodyM_zero_cons, if_neg bsl_ne_qch, if_pos rfl] at hp
    have hp' : (if e = 'u' then (strBodyM 4 rest2).map (fun p => (bsl :: e :: p.1, p.2))
      else if isEscC e then (strBodyM 0 rest2).map (fun p => (bsl :: e :: p.1, p.2))
      else none) = some (b, r) := hp
    rw [if_neg hne, if_pos hesc] at hp'
    rcases hmap : strBodyM 0 rest2 with _ | ⟨b', r'⟩ <;> rw [hmap] at hp'
    · cases hp'
    · injection hp' with hp'
      injection hp' with hp1 hp2
      rcases ih b' r' hmap with ⟨hsplit, hok⟩
      subst hp2
      rw [← hp1]
      refine ⟨by rw [hsplit]; rfl, ?_⟩
      rw [bodyOKM_zero_cons, if_neg bsl_ne_qch, if_pos rfl]
      show (if e = 'u' then bodyOKM 4 b' else isEscC e && bodyOKM 0 b') = true
      rw [if_neg hne, hesc, hok]
      rfl
  | case9 e rest2 hne hesc _ =>
    intro b r hp
    rw [strBodyM_zero_cons, if_neg bsl_ne_qch, if_pos rfl] at hp
    have hp' : (if e = 'u' then (strBodyM 4 rest2).map (fun p => (bsl :: e :: p.1, p.2))
      else if isEscC e then (strBodyM 0 rest2).map (fun p => (bsl :: e :: p.1, p.2))
      else none) = some (b, r) := hp
    rw [if_neg hne, if_neg hesc] at hp'
    cases hp'
  | case10 c rest hq hbs hctl =>
    intro b r hp
    rw [strBodyM_zero_cons, if_neg hq, if_neg hbs, if_pos hctl] at hp
    cases hp
  | case11 c rest hq hbs hctl ih =>
    intro b r hp
    rw [strBodyM_zero_cons, if_neg hq, if_neg hbs, if_neg hctl] at hp
    rcases hmap : strBodyM 0 rest with _ | ⟨b', r'⟩ <;> rw [hmap] at hp
    · cases hp
    · injection hp with hp
      injection hp with hp1 hp2
      rcases ih b' r' hmap with ⟨hsplit, hok⟩
      subst hp2
      rw [← hp1]
      refine ⟨by rw [hsplit]; rfl, ?_⟩
      rw [bodyOKM_zero_cons, if_neg hq, if_neg hbs, if_neg hctl]
      exact hok

/-- A list whose head, if any, fails a predicate. -/
def headNot (p : Char → Bool) (l : GoStr) : Prop :=
  l = [] ∨ ∃ c cs, l = c :: cs ∧ p c = false

/-- Take and drop across an append when the left part satisfies the
predicate and the right part starts by failing it. -/
theorem tw_app (p : Char → Bool) (ds r : GoStr) (hall : ∀ c ∈ ds, p c = true)
    (hr : headNot p r) :
    (ds ++ r).takeWhile p = ds ∧ (ds ++ r).dropWhile p = r := by
  induction ds with
  | nil =>
    rcases hr with rfl | ⟨c, cs, rfl, hc⟩
    · exact ⟨rfl, rfl⟩
    · constructor
      · show List.takeWhile p (c :: cs) = []
        rw [List.takeWhile_cons_of_neg (by rw [hc]; exact Bool.false_ne_true)]
      · show List.dropWhile p (c :: cs) = c :: cs
        rw [List.dropWhile_cons_of_neg (by rw [hc]; exact Bool.false_ne_true)]
  | cons d ds ih =>
    have hd := hall d (List.mem_cons_self _ _)
    have ih' := ih (fun c hc => hall c (List.mem_cons_of_mem _ hc))
    constructor
    · show List.takeWhile p (d :: (ds ++ r)) = d :: ds
      rw [List.takeWhile_cons_of_pos hd, ih'.1]
    · show List.dropWhile p (d :: (ds ++ r)) = r
      rw [List.dropWhile_cons_of_pos hd, ih'.2]

/-- Decomposition of a successful integer-part parse. -/
theorem ip_decomp {s u r : GoStr} (h : intPart s = some (u, r)) :
    s = u ++ r ∧ u ≠ [] ∧ (∀ c ∈ u, c.isDigit = true) := by
  rcases s with _ | ⟨c, rest⟩
  · cases h
  · by_cases h0 : c = '0'
    · rw [intPart, if_pos h0] at h
      injection h with h
      injection h with h1 h2
      subst h0
      rw [← h1, ← h2]
      exact ⟨rfl, by simp, by intro x hx; rcases List.mem_singleton.mp hx with rfl; decide⟩
    · by_cases hd : c.isDigit
      · rw [intPart, if_neg h0, if_pos hd] at h
        injection h with h
        injection h with h1 h2
        rw [← h1, ← h2]
        refine ⟨?_, by simp, ?_⟩
        · show c :: rest = c :: List.takeWhile Char.isDigit rest ++ List.dropWhile Char.isDigit rest
          rw [List.cons_append, List.takeWhile_append_dropWhile]
        · intro x hx
          rcases List.mem_cons.mp hx with rfl | hx
          · exact hd
          · exact List.mem_takeWhile_imp hx
      · rw [intPart, if_neg h0, if_neg hd] at h
        cases h

/-- Stability of the integer part: re-parsing the consumed text before any
non-digit rest gives the same result. -/
theorem ip_stab {s u r : GoStr} (h : intPart s = some (u, r)) :
    ∀ r', headNot Char.isDigit r' → intPart (u ++ r') = some (u, r') := by
  intro r' hr'
  rcases s with _ | ⟨c, rest⟩
  · cases h
  · by_cases h0 : c = '0'
    · rw [intPart, if_pos h0] at h
      injection h with h
      injection h with h1 _
      rw [← h1]
      subst h0
      show intPart ('0' :: r') = some (['0'], r')
      rw [intPart, if_pos rfl]
    · by_cases hd : c.isDigit
      · rw [intPart, if_neg h0, if_pos hd] at h
        injection h with h
        injection h with h1 _
        rw [← h1]
        show intPart (c :: (List.takeWhile Char.isDigit rest ++ r')) = _
        rw [intPart, if_neg h0, if_pos hd]
        have := tw_app Char.isDigit (List.takeWhile Char.isDigit rest) r'
          (fun x hx => List.mem_takeWhile_imp hx) hr'
        rw [this.1, this.2]
      · rw [intPart, if_neg h0, if_neg hd] at h
        cases h

/-- Decomposition of a successful fraction-part parse. -/
theorem fp_decomp {s u r : GoStr} (h : fracPart s = some (u, r)) :
    s = u ++ r ∧
      (u = [] ∨ ∃ ds, u = '.' :: ds ∧ ds ≠ [] ∧ ∀ c ∈ ds, c.isDigit = true) := by
  rcases s with _ | ⟨c, rest⟩
  · rw [fracPart] at h
    injection h with h
    injection h with h1 h2
    rw [← h1, ← h2]
    exact ⟨rfl, Or.inl rfl⟩
  · by_cases hdot : c = '.'
    · rw [fracPart, if_pos hdot] at h
      rcases htw : List.takeWhile Char.isDigit rest with _ | ⟨d, ds'⟩ <;> rw [htw] at h
      · cases h
      · injection h with h
        injection h with h1 h2
        rw [← h1, ← h2]
        constructor
        · show c :: rest = ('.' :: (d :: ds')) ++ List.dropWhile Char.isDigit rest
          rw [hdot, ← htw]
          show '.' :: rest = '.' :: (List.takeWhile Char.isDigit rest ++
            List.dropWhile Char.isDigit rest)
          rw [List.takeWhile_append_dropWhile]
        · right
          refine ⟨d :: ds', rfl, by simp, ?_⟩
          intro x hx
          rw [← htw] at hx
          exact List.mem_takeWhile_imp hx
    · rw [fracPart, if_neg hdot] at h
      injection h with h
      injection h with h1 h2
      rw [← h1, ← h2]
      exact ⟨rfl, Or.inl rfl⟩

/-- Stability of the fraction part. -/
theorem fp_stab {s u r : GoStr} (h : fracPart s = some (u, r)) :
    ∀ r', (r' = [] ∨ ∃ c cs, r' = c :: cs ∧ c.isDigit = false ∧ c ≠ '.') →
      fracPart (u ++ r') = some (u, r') := by
  intro r' hr'
  rcases fp_decomp h with ⟨_, hu⟩
  rcases hu with rfl | ⟨ds, rfl, hne, hds⟩
  · rcases hr' with rfl | ⟨c, cs, rfl, _, hdot⟩
    · rfl
    · show fracPart (c :: cs) = some ([], c :: cs)
      rw [fracPart, if_neg hdot]
  · show fracPart ('.' :: (ds ++ r')) = some ('.' :: ds, r')
    rw [fracPart, if_pos rfl]
    have htw := tw_app Char.isDigit ds r' hds
      (by rcases hr' with rfl | ⟨c, cs, rfl, hcd, _⟩
          · exact Or.inl rfl
          · exact Or.inr ⟨c, cs, rfl, hcd⟩)
    rw [htw.1, htw.2]
    rcases ds with _ | ⟨d, ds'⟩
    · exact absurd rfl hne
    · rfl

/-- Unfolding of the exponent part on a cons. -/
theorem expPart_cons (c : Char) (r : GoStr) :
    expPart (c :: r) =
      if c = 'e' || c = 'E' then
        (match r with
         | [] => none
         | d :: r2 =>
           if d = '+' || d = '-' then
             (match r2.takeWhile Char.isDigit with
              | [] => none
              | ds => some (c :: d :: ds, r2.dropWhile Char.isDigit))
           else
             (match (d :: r2).takeWhile Char.isDigit with
              | [] => none
              | ds => some (c :: ds, (d :: r2).dropWhile Char.isDigit)))
      else some ([], c :: r) := by
  rcases r with _ | ⟨d, r2⟩ <;> rfl

/-- Decomposition of a successful exponent-part parse. -/
theorem ep_decomp {s u r : GoStr} (h : expPart s = some (u, r)) :
    s = u ++ r ∧
      (u = [] ∨ ∃ c sg ds, u = c :: (sg ++ ds) ∧ (c = 'e' ∨ c = 'E') ∧
        (sg = [] ∨ sg = ['+'] ∨ sg = ['-']) ∧ ds ≠ [] ∧ ∀ d ∈ ds, d.isDigit = true) := by
  rcases s with _ | ⟨c, rest⟩
  · rw [expPart] at h
    injection h with h
    injection h with h1 h2
    rw [← h1, ← h2]
    exact ⟨rfl, Or.inl rfl⟩
  · by_cases he : c = 'e' ∨ c = 'E'
    · have heT : (c = 'e' || c = 'E') = true := by
        rcases he with he | he <;> simp [he]
      rw [expPart_cons, if_pos heT] at h
      rcases rest with _ | ⟨d, r2⟩
      · cases h
      · have h : (if d = '+' || d = '-' then
            (match List.takeWhile Char.isDigit r2 with
             | [] => none
             | ds => some (c :: d :: ds, List.dropWhile Char.isDigit r2))
          else
            (match List.takeWhile Char.isDigit (d :: r2) with
             | [] => none
             | ds => some (c :: ds, List.dropWhile Char.isDigit (d :: r2)))) =
            some (u, r) := h
        by_cases hsgn : d = '+' ∨ d = '-'
        · have hsT : (d = '+' || d = '-') = true := by
            rcases hsgn with h' | h' <;> simp [h']
          rw [if_pos hsT] at h
          rcases htw : List.takeWhile Char.isDigit r2 with _ | ⟨d2, ds'⟩ <;> rw [htw] at h
          · cases h
          · injection h with h
            injection h with h1 h2
            rw [← h1, ← h2]
            constructor
            · show c :: d :: r2 = (c :: ([d] ++ (d2 :: ds'))) ++ List.dropWhile Char.isDigit r2
              rw [← htw]
              show c :: d :: r2 = c :: (d :: (List.takeWhile Char.isDigit r2 ++
                List.dropWhile Char.isDigit r2))
              rw [List.takeWhile_append_dropWhile]
            · right
              refine ⟨c, [d], d2 :: ds', rfl, he, ?_, by simp, ?_⟩
              · rcases hsgn with rfl | rfl
                · exact Or.inr (Or.inl rfl)
                · exact Or.inr (Or.inr rfl)
              · intro x hx
                rw [← htw] at hx
                exact List.mem_takeWhile_imp hx
        · have hsF : ¬ ((d = '+' || d = '-') = true) := by
            simpa using hsgn
          rw [if_neg hsF] at h
          rcases htw : List.takeWhile Char.isDigit (d :: r2) with _ | ⟨d2, ds'⟩ <;> rw [htw] at h
          · cases h
          · injection h with h
            injection h with h1 h2
            rw [← h1, ← h2]
            constructor
            · show c :: d :: r2 = (c :: ([] ++ (d2 :: ds'))) ++
                List.dropWhile Char.isDigit (d :: r2)
              rw [List.nil_append, ← htw]
              show c :: (d :: r2) = c :: (List.takeWhile Char.isDigit (d :: r2) ++
                List.dropWhile Char.isDigit (d :: r2))
              rw [List.takeWhile_append_dropWhile]
            · right
              refine ⟨c, [], d2 :: ds', by rw [List.nil_append], he, Or.inl rfl, by simp, ?_⟩
              intro x hx
              rw [← htw] at hx
              exact List.mem_takeWhile_imp hx
    · have heF : ¬ ((c = 'e' || c = 'E') = true) := by
        simpa using he
      rw [expPart_cons, if_neg heF] at h
      injection h with h
      injection h with h1 h2
      rw [← h1, ← h2]
      exact ⟨rfl, Or.inl rfl⟩

/-- A digit is not a sign character. -/
theorem digit_not_sign {d : Char} (hd : d.isDigit = true) :
    ¬ ((d = '+' || d = '-') = true) := by
  intro h
  rcases Bool.or_eq_true_iff.mp h with h | h <;>
    rw [decide_eq_true_eq] at h <;> subst h <;> exact absurd hd (by decide)

/-- Stability of the exponent part. -/
theorem ep_stab {s u r : GoStr} (h : expPart s = some (u, r)) :
    ∀ r', (r' = [] ∨ ∃ c cs, r' = c :: cs ∧ c.isDigit = false ∧ c ≠ 'e' ∧ c ≠ 'E') →
      expPart (u ++ r') = some (u, r') := by
  intro r' hr'
  rcases ep_decomp h with ⟨_, hu⟩
  rcases hu with rfl | ⟨c, sg, ds, rfl, he, hsg, hdsne, hds⟩
  · rcases hr' with rfl | ⟨c, cs, rfl, _, hce, hcE⟩
    · rfl
    · show expPart (c :: cs) = some ([], c :: cs)
      rw [expPart_cons, if_neg]
      intro hcond
      rcases Bool.or_eq_true_iff.mp hcond with h' | h' <;> rw [decide_eq_true_eq] at h'
      · exact hce h'
      · exact hcE h'
  · have heT : (c = 'e' || c = 'E') = true := by
      rcases he with he | he <;> simp [he]
    have hnotdig : headNot Char.isDigit r' := by
      rcases hr' with rfl | ⟨c2, cs, rfl, hcd, _, _⟩
      · exact Or.inl rfl
      · exact Or.inr ⟨c2, cs, rfl, hcd⟩
    have htw := tw_app Char.isDigit ds r' hds hnotdig
    rcases ds with _ | ⟨d2, ds'⟩
    · exact absurd rfl hdsne
    · show expPart (c :: (sg ++ (d2 :: ds') ++ r')) = some (c :: (sg ++ d2 :: ds'), r')
      rcases hsg with rfl | rfl | rfl
      · show expPart (c :: (d2 :: (ds' ++ r'))) = some (c :: (d2 :: ds'), r')
        rw [expPart_cons, if_pos heT]
        have hd2 : d2.isDigit = true := hds d2 (List.mem_cons_self _ _)
        show (if d2 = '+' || d2 = '-' then
            (match List.takeWhile Char.isDigit (ds' ++ r') with
             | [] => none
             | ds => some (c :: d2 :: ds, List.dropWhile Char.isDigit (ds' ++ r')))
          else
            (match List.takeWhile Char.isDigit (d2 :: (ds' ++ r')) with
             | [] => none
             | ds => some (c :: ds, List.dropWhile Char.isDigit (d2 :: (ds' ++ r'))))) =
          some (c :: d2 :: ds', r')
        rw [if_neg (digit_not_sign hd2)]
        have htw2 : List.takeWhile Char.isDigit ((d2 :: ds') ++ r') = d2 :: ds' ∧
            List.dropWhile Char.isDigit ((d2 :: ds') ++ r') = r' := htw
        rw [show List.takeWhile Char.isDigit (d2 :: (ds' ++ r')) =
          List.takeWhile Char.isDigit ((d2 :: ds') ++ r') from rfl,
          show List.dropWhile Char.isDigit (d2 :: (ds' ++ r')) =
          List.dropWhile Char.isDigit ((d2 :: ds') ++ r') from rfl, htw2.1, htw2.2]
      · show expPart (c :: ('+' :: ((d2 :: ds') ++ r'))) = some (c :: ('+' :: (d2 :: ds')), r')
        rw [expPart_cons, if_pos heT]
        show (if ('+' : Char) = '+' || ('+' : Char) = '-' then
            (match List.takeWhile Char.isDigit ((d2 :: ds') ++ r') with
             | [] => none
             | ds => some (c :: '+' :: ds, List.dropWhile Char.isDigit ((d2 :: ds') ++ r')))
          else
            (match List.takeWhile Char.isDigit ('+' :: ((d2 :: ds') ++ r')) with
             | [] => none
             | ds => some (c :: ds, List.dropWhile Char.isDigit ('+' :: ((d2 :: ds') ++ r'))))) =
          some (c :: ('+' :: (d2 :: ds')), r')
        rw [if_pos (by simp), htw.1, htw.2]
      · show expPart (c :: ('-' :: ((d2 :: ds') ++ r'))) = some (c :: ('-' :: (d2 :: ds')), r')
        rw [expPart_cons, if_pos heT]
        show (if ('-' : Char) = '+' || ('-' : Char) = '-' then
            (match List.takeWhile Char.isDigit ((d2 :: ds') ++ r') with
             | [] => none
             | ds => some (c :: '-' :: ds, List.dropWhile Char.isDigit ((d2 :: ds') ++ r')))
          else
            (match List.takeWhile Char.isDigit ('-' :: ((d2 :: ds') ++ r')) with
             | [] => none
             | ds => some (c :: ds, List.dropWhile Char.isDigit ('-' :: ((d2 :: ds') ++ r'))))) =
          some (c :: ('-' :: (d2 :: ds')), r')
        rw [if_pos (by simp), htw.1, htw.2]

/-- The number parser rejects the empty input. -/
theorem numTok_nil : numTok [] = none := rfl

/-- Unfolding of the number parser on a minus sign. -/
theorem numTok_neg (r : GoStr) :
    numTok ('-' :: r) =
      match intPart r with
      | none => none
      | some (ip, r1) =>
        match fracPart r1 with
        | none => none
        | some (fp, r2) =>
          match expPart r2 with
          | none => none
          | some (ep, r3) => some (['-'] ++ ip ++ fp ++ ep, r3) := rfl

/-- Unfolding of the number parser on a head other than a minus sign. -/
theorem numTok_not_neg (c : Char) (r : GoStr) (h : ¬ c = '-') :
    numTok (c :: r) =
      match intPart (c :: r) with
      | none => none
      | some (ip, r1) =>
        match fracPart r1 with
        | none => none
        | some (fp, r2) =>
          match expPart r2 with
          | none => none
          | some (ep, r3) => some ([] ++ ip ++ fp ++ ep, r3) := by
  show (match intPart (if c = '-' then ([c], r) else ([], c :: r)).2 with
    | none => none
    | some (ip, r1) =>
      match fracPart r1 with
      | none => none
      | some (fp, r2) =>
        match expPart r2 with
        | none => none
        | some (ep, r3) =>
          some ((if c = '-' then ([c], r) else ([], c :: r)).1 ++ ip ++ fp ++ ep, r3)) = _
  rw [if_neg h]

/-- The last character of a non-empty all-digit list is a digit. -/
theorem getLast_all_digit (l : GoStr) (hne : l ≠ []) (h : ∀ c ∈ l, c.isDigit = true) :
    ∃ d, l.getLast? = some d ∧ d.isDigit = true :=
  ⟨l.getLast hne, List.getLast?_eq_getLast l hne, h _ (List.getLast_mem hne)⟩

/-- Push a digit last-character fact across an append. -/
theorem getLast_append_digit (a b : GoStr)
    (ha : ∃ d, a.getLast? = some d ∧ d.isDigit = true)
    (hb : b = [] ∨ ∃ d, b.getLast? = some d ∧ d.isDigit = true) :
    ∃ d, (a ++ b).getLast? = some d ∧ d.isDigit = true := by
  rcases hb with rfl | ⟨d, hd, hdd⟩
  · simpa using ha
  · exact ⟨d, by rw [List.getLast?_append, hd]; rfl, hdd⟩

/-- Joint stability of the three number parts: each re-parses before the
remaining parts and a non-number rest. -/
theorem core_stab {s0 ip r1 fp r2 ep r3 : GoStr}
    (hip : intPart s0 = some (ip, r1)) (hfp : fracPart r1 = some (fp, r2))
    (hep : expPart r2 = some (ep, r3)) (r' : GoStr) (hr' : numStop r') :
    intPart (ip ++ (fp ++ (ep ++ r'))) = some (ip, fp ++ (ep ++ r')) ∧
    fracPart (fp ++ (ep ++ r')) = some (fp, ep ++ r') ∧
    expPart (ep ++ r') = some (ep, r') := by
  have hfpd := fp_decomp hfp
  have hepd := ep_decomp hep
  have hep_head : ep = [] ∨ ∃ c cs, ep = c :: cs ∧ (c = 'e' ∨ c = 'E') := by
    rcases hepd.2 with rfl | ⟨c, sg, ds, rfl, he, _, _, _⟩
    · exact Or.inl rfl
    · exact Or.inr ⟨c, _, rfl, he⟩
  have h3 : expPart (ep ++ r') = some (ep, r') := by
    refine ep_stab hep r' ?_
    rcases hr' with rfl | ⟨c, cs, rfl, h1, _, h2, h4⟩
    · exact Or.inl rfl
    · exact Or.inr ⟨c, cs, rfl, h1, h2, h4⟩
  have hnd : (ep ++ r') = [] ∨ ∃ c cs, ep ++ r' = c :: cs ∧ c.isDigit = false ∧ c ≠ '.' := by
    rcases hep_head with rfl | ⟨c, cs, rfl, he⟩
    · rcases hr' with rfl | ⟨c, cs, rfl, h1, h2, _⟩
      · exact Or.inl rfl
      · exact Or.inr ⟨c, cs, rfl, h1, h2⟩
    · right
      refine ⟨c, cs ++ r', rfl, ?_, ?_⟩
      · rcases he with rfl | rfl <;> decide
      · rcases he with rfl | rfl <;> decide
  have h2 : fracPart (fp ++ (ep ++ r')) = some (fp, ep ++ r') := fp_stab hfp _ hnd
  have hnd2 : headNot Char.isDigit (fp ++ (ep ++ r')) := by
    rcases hfpd.2 with rfl | ⟨ds, rfl, _, _⟩
    · rcases hnd with hemp | ⟨c, cs, heq, h1, _⟩
      · rw [List.nil_append, hemp]
        exact Or.inl rfl
      · rw [List.nil_append, heq]
        exact Or.inr ⟨c, cs, rfl, h1⟩
    · exact Or.inr ⟨'.', ds ++ (ep ++ r'), rfl, by decide⟩
  have h1 := ip_stab hip _ hnd2
  exact ⟨h1, h2, h3⟩

/-- The last element of an append with a non-empty right part is the right
part's last element. -/
theorem getLast_append_of (a b : GoStr) (d : Char) (h : b.getLast? = some d) :
    (a ++ b).getLast? = some d := by
  rw [List.getLast?_append, h]
  rfl

/-- Decomposition facts shared by both sign cases of the number parser. -/
theorem nt_core {s0 ip r1 fp r2 ep r3 : GoStr}
    (hip : intPart s0 = some (ip, r1)) (hfp : fracPart r1 = some (fp, r2))
    (hep : expPart r2 = some (ep, r3)) :
    s0 = ip ++ (fp ++ (ep ++ r3)) ∧ ip ≠ [] ∧ (∀ c ∈ ip, c.isDigit = true) ∧
    (∃ d, (ip ++ fp ++ ep).getLast? = some d ∧ d.isDigit = true) := by
  obtain ⟨hs0, hipne, hipd⟩ := ip_decomp hip
  obtain ⟨hr1, hfpu⟩ := fp_decomp hfp
  obtain ⟨hr2, hepu⟩ := ep_decomp hep
  refine ⟨by rw [hs0, hr1, hr2], hipne, hipd, ?_⟩
  have hfp_last : fp = [] ∨ ∃ d, fp.getLast? = some d ∧ d.isDigit = true := by
    rcases hfpu with rfl | ⟨ds, rfl, hdsne, hds⟩
    · exact Or.inl rfl
    · right
      obtain ⟨d, hd, hdd⟩ := getLast_all_digit ds hdsne hds
      exact ⟨d, getLast_append_of ['.'] ds d hd, hdd⟩
  have hep_last : ep = [] ∨ ∃ d, ep.getLast? = some d ∧ d.isDigit = true := by
    rcases hepu with rfl | ⟨c, sg, ds, rfl, _, _, hdsne, hds⟩
    · exact Or.inl rfl
    · right
      obtain ⟨d, hd, hdd⟩ := getLast_all_digit ds hdsne hds
      exact ⟨d, getLast_append_of (c :: sg) ds d hd, hdd⟩
  exact getLast_append_digit (ip ++ fp) ep
    (getLast_append_digit ip fp (getLast_all_digit ip hipne hipd) hfp_last) hep_last

/-- Full characterisation of a successful number-token parse: decomposition,
head and last character facts, and stability under any non-number rest. -/
theorem nt_full {s t r : GoStr} (h : numTok s = some (t, r)) :
    s = t ++ r ∧ t ≠ [] ∧
    (∃ c cs, t = c :: cs ∧ (c = '-' ∨ c.isDigit = true)) ∧
    (∃ d, t.getLast? = some d ∧ d.isDigit = true) ∧
    (∀ r', numStop r' → numTok (t ++ r') = some (t, r')) := by
  rcases s with _ | ⟨c, r0⟩
  · rw [numTok_nil] at h
    cases h
  by_cases hc : c = '-'
  · subst hc
    rw [numTok_neg] at h
    rcases hip : intPart r0 with _ | ⟨ip, r1⟩
    · rw [hip] at h
      exact Option.noConfusion h
    simp only [hip] at h
    rcases hfp : fracPart r1 with _ | ⟨fp, r2⟩
    · rw [hfp] at h
      exact Option.noConfusion h
    simp only [hfp] at h
    rcases hep : expPart r2 with _ | ⟨ep, r3⟩
    · rw [hep] at h
      exact Option.noConfusion h
    rw [hep] at h
    have h' : some (['-'] ++ ip ++ fp ++ ep, r3) = some (t, r) := h
    injection h' with h'
    injection h' with ht hr
    subst ht
    subst hr
    obtain ⟨hs0, hipne, hipd, d, hdl, hdd⟩ := nt_core hip hfp hep
    have hsh2 : ['-'] ++ ip ++ fp ++ ep = ['-'] ++ (ip ++ fp ++ ep) := by simp
    refine ⟨by rw [hs0]; simp, by simp, ?_, ?_, ?_⟩
    · exact ⟨'-', ip ++ fp ++ ep, by simp, Or.inl rfl⟩
    · exact ⟨d, by rw [hsh2]; exact getLast_append_of ['-'] _ d hdl, hdd⟩
    · intro r' hr'
      obtain ⟨h1, h2, h3⟩ := core_stab hip hfp hep r' hr'
      have hsh : ['-'] ++ ip ++ fp ++ ep ++ r' = '-' :: (ip ++ (fp ++ (ep ++ r'))) := by
        simp
      rw [hsh, numTok_neg, h1]
      simp only [h2, h3]
  · rw [numTok_not_neg c r0 hc] at h
    rcases hip : intPart (c :: r0) with _ | ⟨ip, r1⟩
    · rw [hip] at h
      exact Option.noConfusion h
    simp only [hip] at h
    rcases hfp : fracPart r1 with _ | ⟨fp, r2⟩
    · rw [hfp] at h
      exact Option.noConfusion h
    simp only [hfp] at h
    rcases hep : expPart r2 with _ | ⟨ep, r3⟩
    · rw [hep] at h
      exact Option.noConfusion h
    rw [hep] at h
    have h' : some ([] ++ ip ++ fp ++ ep, r3) = some (t, r) := h
    injection h' with h'
    injection h' with ht hr
    subst ht
    subst hr
    obtain ⟨hs0, hipne, hipd, d, hdl, hdd⟩ := nt_core hip hfp hep
    rcases ip with _ | ⟨i0, ir⟩
    · exact absurd rfl hipne
    have hi0 : i0.isDigit = true := hipd i0 (by simp)
    refine ⟨by rw [hs0]; simp, by simp, ?_, ?_, ?_⟩
    · exact ⟨i0, ir ++ fp ++ ep, by simp, Or.inr hi0⟩
    · exact ⟨d, by simpa using hdl, hdd⟩
    · intro r' hr'
      obtain ⟨h1, h2, h3⟩ := core_stab hip hfp hep r' hr'
      simp only [List.cons_append] at h1
      have hneg : ¬ i0 = '-' := by
        intro he
        exact digit_not_sign hi0 (by rw [he]; decide)
      have hsh : [] ++ (i0 :: ir) ++ fp ++ ep ++ r' = i0 :: (ir ++ (fp ++ (ep ++ r'))) := by
        simp
      rw [hsh, numTok_not_neg i0 _ hneg, h1]
      simp only [h2, h3]

/-- A prefix test fails when the heads differ. -/
theorem startsWith_cons_ne {c d : Char} (h : ¬ d = c) (xs ys : GoStr) :
    startsWithL (c :: xs) (d :: ys) = false := by
  rw [startsWithL, List.isPrefixOf]
  simp [h]

/-- Every list is a prefix of itself followed by anything. -/
theorem startsWith_self_app (p r : GoStr) : startsWithL (p ++ r) p = true :=
  List.isPrefixOf_iff_prefix.mpr ⟨r, rfl⟩

/-- Dropping a non-whitespace head changes nothing. -/
theorem skipWs_cons_not_ws {c : Char} (h : isJsonWsC c = false) (l : GoStr) :
    skipWs (c :: l) = c :: l := by
  rw [skipWs, List.dropWhile_cons, h]
  rfl

/-- The whitespace skipper keeps the empty input. -/
theorem skipWs_nil : skipWs [] = [] := rfl

/-- A digit differs from every non-digit character. -/
theorem digit_ne {c d : Char} (hc : c.isDigit = true) (hd : d.isDigit = false) : ¬ c = d := by
  intro he
  rw [he, hd] at hc
  cases hc

/-- Unfolding of the value parser at positive fuel on a non-empty input. -/
theorem parseVal_cons (f : Nat) (c : Char) (rest : GoStr) :
    parseVal (f + 1) (c :: rest) =
      (if c = qch then (strBody rest).map (fun p => (Json.jstr p.1, p.2))
      else if c = lbrace then
        match skipWs rest with
        | c2 :: r2 =>
          if c2 = rbrace then some (Json.jobj [], r2)
          else (parseObjRest f (c2 :: r2)).map (fun p => (Json.jobj p.1, p.2))
        | [] => none
      else if c = lbrack then
        match skipWs rest with
        | c2 :: r2 =>
          if c2 = rbrack then some (Json.jarr [], r2)
          else (parseArrRest f (c2 :: r2)).map (fun p => (Json.jarr p.1, p.2))
        | [] => none
      else if startsWithL (c :: rest) trueLit then some (Json.jbool true, (c :: rest).drop 4)
      else if startsWithL (c :: rest) falseLit then some (Json.jbool false, (c :: rest).drop 5)
      else if startsWithL (c :: rest) nullLit then some (Json.jnull, (c :: rest).drop 4)
      else if c = '-' || c.isDigit then
        (numTok (c :: rest)).map (fun p => (Json.jnum p.1, p.2))
      else none) := rfl

/-- Unfolding of the value parser at positive fuel on the empty input. -/
theorem parseVal_succ_nil (f : Nat) : parseVal (f + 1) [] = none := rfl

/-- Unfolding of the value parser at zero fuel. -/
theorem parseVal_zero (s : GoStr) : parseVal 0 s = none := rfl

/-- Unfolding of the array-rest parser at positive fuel. -/
theorem parseArrRest_succ (f : Nat) (s : GoStr) :
    parseArrRest (f + 1) s =
      (match parseVal f s with
      | none => none
      | some (v, r1) =>
        match skipWs r1 with
        | c :: r2 =>
          if c = ',' then
            (parseArrRest f (skipWs r2)).map (fun p => (v :: p.1, p.2))
          else if c = rbrack then some ([v], r2)
          else none
        | [] => none) := rfl

/-- Unfolding of the array-rest parser at zero fuel. -/
theorem parseArrRest_zero (s : GoStr) : parseArrRest 0 s = none := rfl

/-- Unfolding of the object-rest parser at positive fuel on a non-empty
input. -/
theorem parseObjRest_cons (f : Nat) (c : Char) (r : GoStr) :
    parseObjRest (f + 1) (c :: r) =
      (if c = qch then
        match strBody r with
        | none => none
        | some (k, r1) =>
          match skipWs r1 with
          | c1 :: r2 =>
            if c1 = ':' then
              match parseVal f (skipWs r2) with
              | none => none
              | some (v, r3) =>
                match skipWs r3 with
                | c2 :: r4 =>
                  if c2 = ',' then
                    (parseObjRest f (skipWs r4)).map (fun p => ((k, v) :: p.1, p.2))
                  else if c2 = rbrace then some ([(k, v)], r4)
                  else none
                | [] => none
            else none
          | [] => none
      else none) := rfl

/-- Unfolding of the object-rest parser at positive fuel on the empty
input. -/
theorem parseObjRest_succ_nil (f : Nat) : parseObjRest (f + 1) [] = none := rfl

/-- Unfolding of the object-rest parser at zero fuel. -/
theorem parseObjRest_zero (s : GoStr) : parseObjRest 0 s = none := rfl

/-- The rendering of a well-formed value starts with a value-starting,
non-whitespace character. -/
theorem render_head {v : Json} (h : WFj v) :
    ∃ c cs, render v = c :: cs ∧ startChP c ∧ isJsonWsC c = false := by
  rcases v with _ | b | t | b | xs | kvs
  · exact ⟨'n', _, rfl, by right; right; right; right; right; right; right; rfl, by decide⟩
  · rcases b with _ | _
    · exact ⟨'f', _, rfl, by right; right; right; right; right; right; left; rfl, by decide⟩
    · exact ⟨'t', _, rfl, by right; right; right; right; right; left; rfl, by decide⟩
  · cases h with
    | wnum t ht =>
      obtain ⟨_, _, ⟨c, cs, hcs, hc⟩, _, _⟩ := nt_full ht
      refine ⟨c, cs, hcs, ?_, ?_⟩
      · rcases hc with rfl | hd
        · right; right; right; left; rfl
        · right; right; right; right; left; exact hd
      · rcases hc with rfl | hd
        · decide
        · cases hwsb : isJsonWsC c
          · rfl
          · exfalso
            rcases isJsonWsC_cases hwsb with rfl | rfl | rfl | rfl <;>
              exact absurd hd (by decide)
  · exact ⟨qch, _, rfl, by right; right; left; rfl, by decide⟩
  · rcases xs with _ | ⟨x, xs⟩
    · exact ⟨lbrack, _, rfl, by right; left; rfl, by decide⟩
    · exact ⟨lbrack, _, rfl, by right; left; rfl, by decide⟩
  · rcases kvs with _ | ⟨kv, kvs⟩
    · exact ⟨lbrace, _, rfl, by left; rfl, by decide⟩
    · exact ⟨lbrace, _, rfl, by left; rfl, by decide⟩

/-- Skipping whitespace before a rendered well-formed value is the
identity. -/
theorem render_skipWs {v : Json} (h : WFj v) (z : GoStr) :
    skipWs (render v ++ z) = render v ++ z := by
  obtain ⟨c, cs, hcs, _, hws⟩ := render_head h
  rw [hcs]
  exact skipWs_cons_not_ws hws (cs ++ z)

/-- Rendered well-formed values are non-empty. -/
theorem render_len_pos {v : Json} (h : WFj v) : 1 ≤ (render v).length := by
  obtain ⟨c, cs, hcs, _, _⟩ := render_head h
  rw [hcs]
  simp

/-- Rendered array tails are non-empty. -/
theorem renderArrTail_len_pos (xs : List Json) : 1 ≤ (renderArrTail xs).length := by
  rcases xs with _ | ⟨x, xs⟩
  · decide
  · simp [renderArrTail]

/-- Rendered object tails are non-empty. -/
theorem renderObjTail_len_pos (kvs : List (GoStr × Json)) :
    1 ≤ (renderObjTail kvs).length := by
  rcases kvs with _ | ⟨kv, kvs⟩
  · decide
  · simp [renderObjTail]

/-- A rendered array tail starts with a comma or the closing bracket, so it
cannot extend a preceding value. -/
theorem arrTail_stopOK (xs : List Json) (r : GoStr) : stopOK (renderArrTail xs ++ r) := by
  rcases xs with _ | ⟨x, xs⟩
  · exact Or.inr ⟨rbrack, r, rfl, Or.inr (Or.inr (Or.inl rfl))⟩
  · exact Or.inr ⟨',', render x ++ renderArrTail xs ++ r, rfl, Or.inr (Or.inl rfl)⟩

/-- A rendered object tail starts with a comma or the closing brace, so it
cannot extend a preceding value. -/
theorem objTail_stopOK (kvs : List (GoStr × Json)) (r : GoStr) :
    stopOK (renderObjTail kvs ++ r) := by
  rcases kvs with _ | ⟨kv, kvs⟩
  · exact Or.inr ⟨rbrace, r, rfl, Or.inr (Or.inr (Or.inr rfl))⟩
  · exact Or.inr ⟨',', qch :: kv.1 ++ qch :: ':' :: render kv.2 ++ renderObjTail kvs ++ r,
      rfl, Or.inr (Or.inl rfl)⟩

/-- Soundness of the parser: every parsed value, element list and member
list is well-formed. -/
theorem parse_sound : ∀ f,
    (∀ s v r, parseVal f s = some (v, r) → WFj v) ∧
    (∀ s l r, parseArrRest f s = some (l, r) → ∀ x ∈ l, WFj x) ∧
    (∀ s l r, parseObjRest f s = some (l, r) →
      (∀ kv ∈ l, bodyOK (Prod.fst kv) = true) ∧ ∀ kv ∈ l, WFj (Prod.snd kv)) := by
  intro f
  induction f with
  | zero =>
    exact ⟨fun s v r h => Option.noConfusion h, fun s l r h => Option.noConfusion h,
      fun s l r h => Option.noConfusion h⟩
  | succ f ih =>
    obtain ⟨ihV, ihA, ihO⟩ := ih
    refine ⟨?_, ?_, ?_⟩
    · intro s v r h
      rcases s with _ | ⟨c, rest⟩
      · exact Option.noConfusion h
      rw [parseVal_cons] at h
      by_cases hq : c = qch
      · rw [if_pos hq] at h
        rcases hsb : strBody rest with _ | ⟨b, r1⟩
        · rw [hsb] at h
          exact Option.noConfusion h
        rw [hsb] at h
        have h' : some (Json.jstr b, r1) = some (v, r) := h
        injection h' with h'
        injection h' with hv hr
        rw [← hv]
        exact WFj.wstr b (sb_decomp 0 rest b r1 hsb).2
      rw [if_neg hq] at h
      by_cases hbe : c = lbrace
      · rw [if_pos hbe] at h
        rcases hsw : skipWs rest with _ | ⟨c2, r2⟩
        · rw [hsw] at h
          exact Option.noConfusion h
        rw [hsw] at h
        have h' : (if c2 = rbrace then some (Json.jobj [], r2)
            else (parseObjRest f (c2 :: r2)).map (fun p => (Json.jobj p.1, p.2)))
            = some (v, r) := h
        by_cases hc2 : c2 = rbrace
        · rw [if_pos hc2] at h'
          injection h' with h'
          injection h' with hv hr
          rw [← hv]
          exact WFj.wobj [] (fun kv hkv => absurd hkv (List.not_mem_nil kv))
            (fun kv hkv => absurd hkv (List.not_mem_nil kv))
        rw [if_neg hc2] at h'
        rcases hpo : parseObjRest f (c2 :: r2) with _ | ⟨l, r3⟩
        · rw [hpo] at h'
          exact Option.noConfusion h'
        rw [hpo] at h'
        have h'' : some (Json.jobj l, r3) = some (v, r) := h'
        injection h'' with h''
        injection h'' with hv hr
        rw [← hv]
        obtain ⟨hK, hV⟩ := ihO _ _ _ hpo
        exact WFj.wobj l hK hV
      rw [if_neg hbe] at h
      by_cases hbk : c = lbrack
      · rw [if_pos hbk] at h
        rcases hsw : skipWs rest with _ | ⟨c2, r2⟩
        · rw [hsw] at h
          exact Option.noConfusion h
        rw [hsw] at h
        have h' : (if c2 = rbrack then some (Json.jarr [], r2)
            else (parseArrRest f (c2 :: r2)).map (fun p => (Json.jarr p.1, p.2)))
            = some (v, r) := h
        by_cases hc2 : c2 = rbrack
        · rw [if_pos hc2] at h'
          injection h' with h'
          injection h' with hv hr
          rw [← hv]
          exact WFj.warr [] (fun x hx => absurd hx (List.not_mem_nil x))
        rw [if_neg hc2] at h'
        rcases hpa : parseArrRest f (c2 :: r2) with _ | ⟨l, r3⟩
        · rw [hpa] at h'
          exact Option.noConfusion h'
        rw [hpa] at h'
        have h'' : some (Json.jarr l, r3) = some (v, r) := h'
        injection h'' with h''
        injection h'' with hv hr
        rw [← hv]
        exact WFj.warr l (ihA _ _ _ hpa)
      rw [if_neg hbk] at h
      by_cases htl : startsWithL (c :: rest) trueLit = true
      · rw [if_pos htl] at h
        injection h with h
        injection h with hv hr
        rw [← hv]
        exact WFj.wbool true
      rw [if_neg htl] at h
      by_cases hfl : startsWithL (c :: rest) falseLit = true
      · rw [if_pos hfl] at h
        injection h with h
        injection h with hv hr
        rw [← hv]
        exact WFj.wbool false
      rw [if_neg hfl] at h
      by_cases hnl : startsWithL (c :: rest) nullLit = true
      · rw [if_pos hnl] at h
        injection h with h
        injection h with hv hr
        rw [← hv]
        exact WFj.wnull
      rw [if_neg hnl] at h
      by_cases hnum : (c = '-' || c.isDigit) = true
      · rw [if_pos hnum] at h
        rcases hnt : numTok (c :: rest) with _ | ⟨t, r1⟩
        · rw [hnt] at h
          exact Option.noConfusion h
        rw [hnt] at h
        have h' : some (Json.jnum t, r1) = some (v, r) := h
        injection h' with h'
        injection h' with hv hr
        rw [← hv]
        have hst := (nt_full hnt).2.2.2.2 [] (Or.inl rfl)
        rw [List.append_nil] at hst
        exact WFj.wnum t hst
      rw [if_neg hnum] at h
      exact Option.noConfusion h
    · intro s l r h
      rw [parseArrRest_succ] at h
      rcases hpv : parseVal f s with _ | ⟨v, r1⟩
      · rw [hpv] at h
        exact Option.noConfusion h
      rw [hpv] at h
      have h' : (match skipWs r1 with
        | c :: r2 =>
          if c = ',' then
            (parseArrRest f (skipWs r2)).map (fun p => (v :: p.1, p.2))
          else if c = rbrack then some ([v], r2)
          else none
        | [] => none) = some (l, r) := h
      rcases hsw : skipWs r1 with _ | ⟨c, r2⟩
      · rw [hsw] at h'
        exact Option.noConfusion h'
      rw [hsw] at h'
      have hif : (if c = ',' then
            (parseArrRest f (skipWs r2)).map (fun p => (v :: p.1, p.2))
          else if c = rbrack then some ([v], r2) else none) = some (l, r) := h'
      by_cases hc : c = ','
      · rw [if_pos hc] at hif
        rcases hpa : parseArrRest f (skipWs r2) with _ | ⟨l1, r3⟩
        · rw [hpa] at hif
          exact Option.noConfusion hif
        rw [hpa] at hif
        have h'' : some (v :: l1, r3) = some (l, r) := hif
        injection h'' with h''
        injection h'' with hl hr
        rw [← hl]
        intro x hx
        rcases List.mem_cons.mp hx with rfl | hx'
        · exact ihV _ _ _ hpv
        · exact ihA _ _ _ hpa x hx'
      rw [if_neg hc] at hif
      by_cases hcb : c = rbrack
      · rw [if_pos hcb] at hif
        injection hif with hif
        injection hif with hl hr
        rw [← hl]
        intro x hx
        rcases List.mem_singleton.mp hx with rfl
        exact ihV _ _ _ hpv
      rw [if_neg hcb] at hif
      exact Option.noConfusion hif
    · intro s l r h
      rcases s with _ | ⟨c, rest⟩
      · exact Option.noConfusion h
      rw [parseObjRest_cons] at h
      by_cases hq : c = qch
      · rw [if_pos hq] at h
        rcases hsb : strBody rest with _ | ⟨k, r1⟩
        · rw [hsb] at h
          exact Option.noConfusion h
        rw [hsb] at h
        have h1 : (match skipWs r1 with
          | c1 :: r2 =>
            if c1 = ':' then
              match parseVal f (skipWs r2) with
              | none => none
              | some (v, r3) =>
                match skipWs r3 with
                | c2 :: r4 =>
                  if c2 = ',' then
                    (parseObjRest f (skipWs r4)).map (fun p => ((k, v) :: p.1, p.2))
                  else if c2 = rbrace then some ([(k, v)], r4)
                  else none
                | [] => none
            else none
          | [] => none) = some (l, r) := h
        rcases hsw1 : skipWs r1 with _ | ⟨c1, r2⟩
        · rw [hsw1] at h1
          exact Option.noConfusion h1
        rw [hsw1] at h1
        have h1b : (if c1 = ':' then
            match parseVal f (skipWs r2) with
            | none => none
            | some (v, r3) =>
              match skipWs r3 with
              | c2 :: r4 =>
                if c2 = ',' then
                  (parseObjRest f (skipWs r4)).map (fun p => ((k, v) :: p.1, p.2))
                else if c2 = rbrace then some ([(k, v)], r4)
                else none
              | [] => none
          else none) = some (l, r) := h1
        by_cases hcol : c1 = ':'
        · rw [if_pos hcol] at h1b
          rcases hpv : parseVal f (skipWs r2) with _ | ⟨v, r3⟩
          · rw [hpv] at h1b
            exact Option.noConfusion h1b
          rw [hpv] at h1b
          have h2 : (match skipWs r3 with
            | c2 :: r4 =>
              if c2 = ',' then
                (parseObjRest f (skipWs r4)).map (fun p => ((k, v) :: p.1, p.2))
              else if c2 = rbrace then some ([(k, v)], r4)
              else none
            | [] => none) = some (l, r) := h1b
          rcases hsw3 : skipWs r3 with _ | ⟨c2, r4⟩
          · rw [hsw3] at h2
            exact Option.noConfusion h2
          rw [hsw3] at h2
          have h2b : (if c2 = ',' then
              (parseObjRest f (skipWs r4)).map (fun p => ((k, v) :: p.1, p.2))
            else if c2 = rbrace then some ([(k, v)], r4)
            else none) = some (l, r) := h2
          by_cases hcm : c2 = ','
          · rw [if_pos hcm] at h2b
            rcases hpo : parseObjRest f (skipWs r4) with _ | ⟨l1, r5⟩
            · rw [hpo] at h2b
              exact Option.noConfusion h2b
            rw [hpo] at h2b
            have h3 : some ((k, v) :: l1, r5) = some (l, r) := h2b
            injection h3 with h3
            injection h3 with hl hr
            rw [← hl]
            obtain ⟨hK, hV⟩ := ihO _ _ _ hpo
            constructor
            · intro kv hkv
              rcases List.mem_cons.mp hkv with rfl | hkv'
              · exact (sb_decomp 0 rest k r1 hsb).2
              · exact hK kv hkv'
            · intro kv hkv
              rcases List.mem_cons.mp hkv with rfl | hkv'
              · exact ihV _ _ _ hpv
              · exact hV kv hkv'
          rw [if_neg hcm] at h2b
          by_cases hcb : c2 = rbrace
          · rw [if_pos hcb] at h2b
            injection h2b with h2b
            injection h2b with hl hr
            rw [← hl]
            constructor
            · intro kv hkv
              rcases List.mem_singleton.mp hkv with rfl
              exact (sb_decomp 0 rest k r1 hsb).2
            · intro kv hkv
              rcases List.mem_singleton.mp hkv with rfl
              exact ihV _ _ _ hpv
          rw [if_neg hcb] at h2b
          exact Option.noConfusion h2b
        rw [if_neg hcol] at h1b
        exact Option.noConfusion h1b
      rw [if_neg hq] at h
      exact Option.noConfusion h

/-- Unfolding of the value parser on an opening brace. -/
theorem parseVal_lbrace (f : Nat) (rest : GoStr) :
    parseVal (f + 1) (lbrace :: rest) =
      (match skipWs rest with
      | c2 :: r2 =>
        if c2 = rbrace then some (Json.jobj [], r2)
        else (parseObjRest f (c2 :: r2)).map (fun p => (Json.jobj p.1, p.2))
      | [] => none) := rfl

/-- Unfolding of the value parser on an opening bracket. -/
theorem parseVal_lbrack (f : Nat) (rest : GoStr) :
    parseVal (f + 1) (lbrack :: rest) =
      (match skipWs rest with
      | c2 :: r2 =>
        if c2 = rbrack then some (Json.jarr [], r2)
        else (parseArrRest f (c2 :: r2)).map (fun p => (Json.jarr p.1, p.2))
      | [] => none) := rfl

/-- A prefix test against the literal true fails unless the head is t. -/
theorem not_sw_true {c : Char} (h : ¬ 't' = c) (xs : GoStr) :
    ¬ startsWithL (c :: xs) trueLit = true := by
  rw [show trueLit = 't' :: ['r', 'u', 'e'] from rfl, startsWith_cons_ne h]
  exact Bool.false_ne_true

/-- A prefix test against the literal false fails unless the head is f. -/
theorem not_sw_false {c : Char} (h : ¬ 'f' = c) (xs : GoStr) :
    ¬ startsWithL (c :: xs) falseLit = true := by
  rw [show falseLit = 'f' :: ['a', 'l', 's', 'e'] from rfl, startsWith_cons_ne h]
  exact Bool.false_ne_true

/-- A prefix test against the literal null fails unless the head is n. -/
theorem not_sw_null {c : Char} (h : ¬ 'n' = c) (xs : GoStr) :
    ¬ startsWithL (c :: xs) nullLit = true := by
  rw [show nullLit = 'n' :: ['u', 'l', 'l'] from rfl, startsWith_cons_ne h]
  exact Bool.false_ne_true

/-- Roundtrip of rendering: re-parsing a rendered well-formed value before a
non-extending rest returns the value and the rest, for any sufficient fuel.
Stated jointly for values, array tails and object member tails. -/
theorem rt_all : ∀ f,
    (∀ v r', WFj v → 2 * (render v).length + 1 ≤ f → stopOK r' →
      parseVal f (render v ++ r') = some (v, r')) ∧
    (∀ x xs r', WFj x → (∀ y ∈ xs, WFj y) →
      2 * ((render x).length + (renderArrTail xs).length) + 1 ≤ f → stopOK r' →
      parseArrRest f (render x ++ (renderArrTail xs ++ r')) = some (x :: xs, r')) ∧
    (∀ (kv : GoStr × Json) kvs r', bodyOK (Prod.fst kv) = true → WFj (Prod.snd kv) →
      (∀ p ∈ kvs, bodyOK (Prod.fst p) = true) → (∀ p ∈ kvs, WFj (Prod.snd p)) →
      2 * (kv.1.length + (render kv.2).length + (renderObjTail kvs).length + 3) + 1 ≤ f →
      stopOK r' →
      parseObjRest f (qch :: (kv.1 ++ (qch :: ':' :: (render kv.2 ++ (renderObjTail kvs ++ r')))))
        = some (kv :: kvs, r')) := by
  intro f
  induction f with
  | zero =>
    refine ⟨?_, ?_, ?_⟩
    · intro v r' _ hfuel _
      exfalso
      omega
    · intro x xs r' _ _ hfuel _
      exfalso
      omega
    · intro kv kvs r' _ _ _ _ hfuel _
      exfalso
      omega
  | succ g ih =>
    obtain ⟨ihV, ihA, ihO⟩ := ih
    refine ⟨?_, ?_, ?_⟩
    · intro v r' hwf hfuel hstop
      rcases v with _ | b | t | b | xs | kvs
      · have hswn : startsWithL ('n' :: (['u', 'l', 'l'] ++ r')) nullLit = true :=
          startsWith_self_app nullLit r'
        show parseVal (g + 1) ('n' :: (['u', 'l', 'l'] ++ r')) = some (Json.jnull, r')
        rw [parseVal_cons, if_neg (by decide : ¬ ('n' : Char) = qch),
          if_neg (by decide : ¬ ('n' : Char) = lbrace),
          if_neg (by decide : ¬ ('n' : Char) = lbrack),
          if_neg (not_sw_true (by decide) (['u', 'l', 'l'] ++ r')),
          if_neg (not_sw_false (by decide) (['u', 'l', 'l'] ++ r')), if_pos hswn]
        rfl
      · rcases b with _ | _
        · have hswf : startsWithL ('f' :: (['a', 'l', 's', 'e'] ++ r')) falseLit = true :=
            startsWith_self_app falseLit r'
          show parseVal (g + 1) ('f' :: (['a', 'l', 's', 'e'] ++ r'))
            = some (Json.jbool false, r')
          rw [parseVal_cons, if_neg (by decide : ¬ ('f' : Char) = qch),
            if_neg (by decide : ¬ ('f' : Char) = lbrace),
            if_neg (by decide : ¬ ('f' : Char) = lbrack),
            if_neg (not_sw_true (by decide) (['a', 'l', 's', 'e'] ++ r')), if_pos hswf]
          rfl
        · have hswt : startsWithL ('t' :: (['r', 'u', 'e'] ++ r')) trueLit = true :=
            startsWith_self_app trueLit r'
          show parseVal (g + 1) ('t' :: (['r', 'u', 'e'] ++ r')) = some (Json.jbool true, r')
          rw [parseVal_cons, if_neg (by decide : ¬ ('t' : Char) = qch),
            if_neg (by decide : ¬ ('t' : Char) = lbrace),
            if_neg (by decide : ¬ ('t' : Char) = lbrack), if_pos hswt]
          rfl
      · cases hwf with
        | wnum _ hok =>
          obtain ⟨-, -, ⟨c, cs, hcs, hc⟩, -, hstab⟩ := nt_full hok
          have hq : ¬ c = qch := by
            rcases hc with rfl | hd
            · decide
            · exact digit_ne hd (by decide)
          have hbe : ¬ c = lbrace := by
            rcases hc with rfl | hd
            · decide
            · exact digit_ne hd (by decide)
          have hbk : ¬ c = lbrack := by
            rcases hc with rfl | hd
            · decide
            · exact digit_ne hd (by decide)
          have hT : ¬ 't' = c := by
            rcases hc with rfl | hd
            · decide
            · intro he
              exact digit_ne hd (by decide) he.symm
          have hF : ¬ 'f' = c := by
            rcases hc with rfl | hd
            · decide
            · intro he
              exact digit_ne hd (by decide) he.symm
          have hN : ¬ 'n' = c := by
            rcases hc with rfl | hd
            · decide
            · intro he
              exact digit_ne hd (by decide) he.symm
          have hnb : (c = '-' || c.isDigit) = true := by
            rcases hc with rfl | hd
            · decide
            · rw [hd, Bool.or_true]
          have hx := hstab r' (stopOK_numStop hstop)
          rw [hcs] at hx
          have hx2 : numTok (c :: (cs ++ r')) = some (c :: cs, r') := hx
          show parseVal (g + 1) (t ++ r') = some (Json.jnum t, r')
          rw [hcs]
          show parseVal (g + 1) (c :: (cs ++ r')) = some (Json.jnum (c :: cs), r')
          rw [parseVal_cons, if_neg hq, if_neg hbe, if_neg hbk,
            if_neg (not_sw_true hT (cs ++ r')), if_neg (not_sw_false hF (cs ++ r')),
            if_neg (not_sw_null hN (cs ++ r')), if_pos hnb, hx2]
          rfl
      · cases hwf with
        | wstr _ hb =>
          show parseVal (g + 1) (qch :: ((b ++ [qch]) ++ r')) = some (Json.jstr b, r')
          rw [parseVal_cons, if_pos rfl]
          have hsb : strBody ((b ++ [qch]) ++ r') = some (b, r') := by
            rw [List.append_assoc]
            exact sb_ext 0 b hb r'
          rw [hsb]
          rfl
      · rcases xs with _ | ⟨x, xs⟩
        · rfl
        · cases hwf with
          | warr _ hall =>
            have hx : WFj x := hall x (List.mem_cons_self x xs)
            have hxs : ∀ y ∈ xs, WFj y := fun y hy => hall y (List.mem_cons_of_mem x hy)
            have hlen : (render (Json.jarr (x :: xs))).length
                = (render x).length + (renderArrTail xs).length + 1 := by
              rw [show render (Json.jarr (x :: xs))
                = lbrack :: (render x ++ renderArrTail xs) from rfl]
              simp only [List.length_cons, List.length_append]
            have hpa : parseArrRest g (render x ++ (renderArrTail xs ++ r'))
                = some (x :: xs, r') := ihA x xs r' hx hxs (by omega) hstop
            obtain ⟨c, cs, hcs, hstart, hnws⟩ := render_head hx
            show parseVal (g + 1) (lbrack :: ((render x ++ renderArrTail xs) ++ r'))
              = some (Json.jarr (x :: xs), r')
            rw [parseVal_lbrack, List.append_assoc,
              render_skipWs hx (renderArrTail xs ++ r'), hcs, List.cons_append]
            show (if c = rbrack then some (Json.jarr [], cs ++ (renderArrTail xs ++ r'))
              else (parseArrRest g (c :: (cs ++ (renderArrTail xs ++ r')))).map
                (fun p => (Json.jarr p.1, p.2))) = some (Json.jarr (x :: xs), r')
            rw [if_neg (startChP_ne_rbrack hstart)]
            rw [hcs, List.cons_append] at hpa
            rw [hpa]
            rfl
      · rcases kvs with _ | ⟨kv, kvs⟩
        · rfl
        · cases hwf with
          | wobj _ hK hV =>
            have hk : bodyOK kv.1 = true := hK kv (List.mem_cons_self kv kvs)
            have hv2 : WFj kv.2 := hV kv (List.mem_cons_self kv kvs)
            have hKs : ∀ p ∈ kvs, bodyOK (Prod.fst p) = true :=
              fun p hp => hK p (List.mem_cons_of_mem kv hp)
            have hVs : ∀ p ∈ kvs, WFj (Prod.snd p) :=
              fun p hp => hV p (List.mem_cons_of_mem kv hp)
            have hlen : (render (Json.jobj (kv :: kvs))).length
                = kv.1.length + (render kv.2).length + (renderObjTail kvs).length + 4 := by
              rw [show render (Json.jobj (kv :: kvs))
                = lbrace :: qch :: kv.1 ++ qch :: ':' :: render kv.2 ++ renderObjTail kvs
                from rfl]
              simp only [List.length_cons, List.length_append]
              omega
            have hrec : parseObjRest g
                (qch :: (kv.1 ++ (qch :: ':' :: (render kv.2 ++ (renderObjTail kvs ++ r')))))
                = some (kv :: kvs, r') := ihO kv kvs r' hk hv2 hKs hVs (by omega) hstop
            show parseVal (g + 1)
              (lbrace :: (qch :: (((kv.1 ++ (qch :: ':' :: render kv.2)) ++ renderObjTail kvs) ++ r')))
              = some (Json.jobj (kv :: kvs), r')
            rw [parseVal_lbrace, skipWs_cons_not_ws (by decide)]
            show (if qch = rbrace then
                some (Json.jobj [],
                  ((kv.1 ++ (qch :: ':' :: render kv.2)) ++ renderObjTail kvs) ++ r')
              else (parseObjRest g
                (qch :: (((kv.1 ++ (qch :: ':' :: render kv.2)) ++ renderObjTail kvs) ++ r'))).map
                  (fun p => (Json.jobj p.1, p.2))) = some (Json.jobj (kv :: kvs), r')
            rw [if_neg (by decide : ¬ qch = rbrace)]
            simp only [List.cons_append, List.append_assoc]
            rw [hrec]
            rfl
    · intro x xs r' hx hxs hfuel hstop
      have hlrx := render_len_pos hx
      have hlrt := renderArrTail_len_pos xs
      rw [parseArrRest_succ]
      have hpv : parseVal g (render x ++ (renderArrTail xs ++ r'))
          = some (x, renderArrTail xs ++ r') :=
        ihV x (renderArrTail xs ++ r') hx (by omega) (arrTail_stopOK xs r')
      rw [hpv]
      show (match skipWs (renderArrTail xs ++ r') with
        | c :: r2 =>
          if c = ',' then
            (parseArrRest g (skipWs r2)).map (fun p => (x :: p.1, p.2))
          else if c = rbrack then some ([x], r2)
          else none
        | [] => none) = some (x :: xs, r')
      rcases xs with _ | ⟨y, ys⟩
      · rfl
      · have hy : WFj y := hxs y (List.mem_cons_self y ys)
        have hys : ∀ z ∈ ys, WFj z := fun z hz => hxs z (List.mem_cons_of_mem y hz)
        have hstep : renderArrTail (y :: ys) ++ r'
            = ',' :: (render y ++ (renderArrTail ys ++ r')) := by
          rw [show renderArrTail (y :: ys) = ',' :: (render y ++ renderArrTail ys) from rfl]
          simp
        rw [hstep, skipWs_cons_not_ws (by decide)]
        show (if (',' : Char) = ',' then
            (parseArrRest g (skipWs (render y ++ (renderArrTail ys ++ r')))).map
              (fun p => (x :: p.1, p.2))
          else if (',' : Char) = rbrack then some ([x], render y ++ (renderArrTail ys ++ r'))
          else none) = some (x :: y :: ys, r')
        rw [if_pos rfl, render_skipWs hy (renderArrTail ys ++ r')]
        have hlen : (renderArrTail (y :: ys)).length
            = (render y).length + (renderArrTail ys).length + 1 := by
          rw [show renderArrTail (y :: ys) = ',' :: (render y ++ renderArrTail ys) from rfl]
          simp only [List.length_cons, List.length_append]
        have hrt : parseArrRest g (render y ++ (renderArrTail ys ++ r'))
            = some (y :: ys, r') := ihA y ys r' hy hys (by omega) hstop
        rw [hrt]
        rfl
    · intro kv kvs r' hk hv2 hKs hVs hfuel hstop
      have hlv2 := render_len_pos hv2
      have hltl := renderObjTail_len_pos kvs
      rw [parseObjRest_cons, if_pos rfl]
      have hsb : strBody (kv.1 ++ (qch :: ':' :: (render kv.2 ++ (renderObjTail kvs ++ r'))))
          = some (kv.1, ':' :: (render kv.2 ++ (renderObjTail kvs ++ r'))) :=
        sb_ext 0 kv.1 hk (':' :: (render kv.2 ++ (renderObjTail kvs ++ r')))
      rw [hsb]
      show (match skipWs (':' :: (render kv.2 ++ (renderObjTail kvs ++ r'))) with
        | c1 :: r2 =>
          if c1 = ':' then
            match parseVal g (skipWs r2) with
            | none => none
            | some (v, r3) =>
              match skipWs r3 with
              | c2 :: r4 =>
                if c2 = ',' then
                  (parseObjRest g (skipWs r4)).map (fun p => ((kv.1, v) :: p.1, p.2))
                else if c2 = rbrace then some ([(kv.1, v)], r4)
                else none
              | [] => none
          else none
        | [] => none) = some (kv :: kvs, r')
      rw [skipWs_cons_not_ws (by decide)]
      show (if (':' : Char) = ':' then
          match parseVal g (skipWs (render kv.2 ++ (renderObjTail kvs ++ r'))) with
          | none => none
          | some (v, r3) =>
            match skipWs r3 with
            | c2 :: r4 =>
              if c2 = ',' then
                (parseObjRest g (skipWs r4)).map (fun p => ((kv.1, v) :: p.1, p.2))
              else if c2 = rbrace then some ([(kv.1, v)], r4)
              else none
            | [] => none
        else none) = some (kv :: kvs, r')
      rw [if_pos rfl, render_skipWs hv2 (renderObjTail kvs ++ r')]
      have hpv : parseVal g (render kv.2 ++ (renderObjTail kvs ++ r'))
          = some (kv.2, renderObjTail kvs ++ r') :=
        ihV kv.2 (renderObjTail kvs ++ r') hv2 (by omega) (objTail_stopOK kvs r')
      rw [hpv]
      show (match skipWs (renderObjTail kvs ++ r') with
        | c2 :: r4 =>
          if c2 = ',' then
            (parseObjRest g (skipWs r4)).map (fun p => ((kv.1, kv.2) :: p.1, p.2))
          else if c2 = rbrace then some ([(kv.1, kv.2)], r4)
          else none
        | [] => none) = some (kv :: kvs, r')
      rcases kvs with _ | ⟨p, ps⟩
      · rfl
      · have hp1 : bodyOK p.1 = true := hKs p (List.mem_cons_self p ps)
        have hp2 : WFj p.2 := hVs p (List.mem_cons_self p ps)
        have hKs2 : ∀ q ∈ ps, bodyOK (Prod.fst q) = true :=
          fun q hq => hKs q (List.mem_cons_of_mem p hq)
        have hVs2 : ∀ q ∈ ps, WFj (Prod.snd q) :=
          fun q hq => hVs q (List.mem_cons_of_mem p hq)
        have hstep : renderObjTail (p :: ps) ++ r'
            = ',' :: (qch :: (p.1 ++ (qch :: ':' :: (render p.2 ++ (renderObjTail ps ++ r'))))) := by
          rw [show renderObjTail (p :: ps)
            = ',' :: qch :: p.1 ++ qch :: ':' :: render p.2 ++ renderObjTail ps from rfl]
          simp
        rw [hstep, skipWs_cons_not_ws (by decide)]
        show (if (',' : Char) = ',' then
            (parseObjRest g (skipWs
              (qch :: (p.1 ++ (qch :: ':' :: (render p.2 ++ (renderObjTail ps ++ r'))))))).map
              (fun q => ((kv.1, kv.2) :: q.1, q.2))
          else if (',' : Char) = rbrace then
            some ([(kv.1, kv.2)],
              qch :: (p.1 ++ (qch :: ':' :: (render p.2 ++ (renderObjTail ps ++ r')))))
          else none) = some (kv :: p :: ps, r')
        rw [if_pos rfl, skipWs_cons_not_ws (by decide)]
        have hlen2 : (renderObjTail (p :: ps)).length
            = p.1.length + (render p.2).length + (renderObjTail ps).length + 4 := by
          rw [show renderObjTail (p :: ps)
            = ',' :: qch :: p.1 ++ qch :: ':' :: render p.2 ++ renderObjTail ps from rfl]
          simp only [List.length_cons, List.length_append]
          omega
        have hrec : parseObjRest g
            (qch :: (p.1 ++ (qch :: ':' :: (render p.2 ++ (renderObjTail ps ++ r')))))
            = some (p :: ps, r') := ihO p ps r' hp1 hp2 hKs2 hVs2 (by omega) hstop
        rw [hrec]
        rfl

/-- Every value returned by the full-document parser is well-formed. -/
theorem jsonSemFull_sound {s : GoStr} {v : Json} (h : jsonSemFull s = some v) : WFj v := by
  have h' : (match parseVal (2 * (skipWs s).length + 2) (skipWs s) with
    | some (w, r) => if skipWs r = [] then some w else none
    | none => none) = some v := h
  rcases hpv : parseVal (2 * (skipWs s).length + 2) (skipWs s) with _ | ⟨w, r⟩
  · rw [hpv] at h'
    exact Option.noConfusion h'
  · rw [hpv] at h'
    have h'' : (if skipWs r = [] then some w else none) = some v := h'
    by_cases he : skipWs r = []
    · rw [if_pos he] at h''
      injection h'' with h''
      rw [← h'']
      exact (parse_sound _).1 _ _ _ hpv
    · rw [if_neg he] at h''
      exact Option.noConfusion h''

/-- The rendering of a well-formed value re-parses to exactly that value. -/
theorem jsonSemFull_render {v : Json} (h : WFj v) : jsonSemFull (render v) = some v := by
  have hsw : skipWs (render v) = render v := by
    have h2 := render_skipWs h []
    simpa using h2
  have hrt : parseVal (2 * (render v).length + 2) (render v ++ []) = some (v, []) :=
    (rt_all _).1 v [] h (by omega) (Or.inl rfl)
  rw [List.append_nil] at hrt
  show (match parseVal (2 * (skipWs (render v)).length + 2) (skipWs (render v)) with
    | some (w, r) => if skipWs r = [] then some w else none
    | none => none) = some v
  rw [hsw, hrt]
  rfl

/-- Go json.Compact on a valid document returns the rendered parse tree,
itself a valid document with the same parse tree. -/
theorem goCompact_valid {s : GoStr} {v : Json} (h : jsonSemFull s = some v) :
    goCompact s = some (render v) ∧ jsonSemFull (render v) = some v :=
  ⟨by rw [goCompact, h]; rfl, jsonSemFull_render (jsonSemFull_sound h)⟩

/-- JSON whitespace is Go whitespace. -/
theorem ws_go {c : Char} (h : isJsonWsC c = true) : isGoSpace c = true := by
  rcases isJsonWsC_cases h with rfl | rfl | rfl | rfl <;> decide

/-- Go whitespace is one of six characters. -/
theorem isGoSpace_cases {c : Char} (h : isGoSpace c = true) :
    c = ' ' ∨ c = '\t' ∨ c = '\n' ∨ c = Char.ofNat 11 ∨ c = Char.ofNat 12 ∨ c = '\r' := by
  simp only [isGoSpace, Bool.or_eq_true, decide_eq_true_eq] at h
  tauto

/-- A value-starting character is not Go whitespace. -/
theorem startChP_not_go {c : Char} (h : startChP c) : isGoSpace c = false := by
  cases hg : isGoSpace c
  · rfl
  exfalso
  rcases h with rfl | rfl | rfl | rfl | hd | rfl | rfl | rfl <;>
    first
      | exact absurd hg (by decide)
      | (rcases isGoSpace_cases hg with rfl | rfl | rfl | rfl | rfl | rfl <;>
          exact absurd hd (by decide))

/-- A value-ending character is not Go whitespace. -/
theorem endChP_not_go {c : Char} (h : endChP c) : isGoSpace c = false := by
  cases hg : isGoSpace c
  · rfl
  exfalso
  rcases h with rfl | rfl | rfl | rfl | rfl | hd <;>
    first
      | exact absurd hg (by decide)
      | (rcases isGoSpace_cases hg with rfl | rfl | rfl | rfl | rfl | rfl <;>
          exact absurd hd (by decide))

/-- A value-starting character is not a backtick. -/
theorem startChP_ne_btick {c : Char} (h : startChP c) : ¬ btick = c := by
  intro he
  rcases h with rfl | rfl | rfl | rfl | hd | rfl | rfl | rfl <;>
    first
      | exact absurd he (by decide)
      | (rw [← he] at hd; exact absurd hd (by decide))

/-- A value-ending character is not a backtick. -/
theorem endChP_ne_btick {c : Char} (h : endChP c) : ¬ c = btick := by
  intro he
  rcases h with rfl | rfl | rfl | rfl | rfl | hd <;>
    first
      | exact absurd he (by decide)
      | (rw [he] at hd; exact absurd hd (by decide))

/-- Dropping while a predicate holds skips a satisfying prefix. -/
theorem dropWhile_append_all {p : Char → Bool} {a : GoStr}
    (h : ∀ c ∈ a, p c = true) (b : GoStr) :
    List.dropWhile p (a ++ b) = List.dropWhile p b := by
  induction a with
  | nil => rfl
  | cons x a ih =>
    rw [List.cons_append, List.dropWhile_cons, h x (List.mem_cons_self x a)]
    exact ih (fun c hc => h c (List.mem_cons_of_mem x hc))

/-- Dropping while a predicate holds stops at a failing head. -/
theorem dropWhile_cons_neg {p : Char → Bool} {c : Char} (h : p c = false) (l : GoStr) :
    List.dropWhile p (c :: l) = c :: l := by
  rw [List.dropWhile_cons, h]
  rfl

/-- Every input is a whitespace prefix followed by its whitespace-skipped
form. -/
theorem skipWs_decomp (s : GoStr) :
    ∃ w, s = w ++ skipWs s ∧ ∀ c ∈ w, isJsonWsC c = true :=
  ⟨s.takeWhile isJsonWsC, (List.takeWhile_append_dropWhile isJsonWsC s).symm,
    fun _ hc => List.mem_takeWhile_imp hc⟩

/-- Skipping whitespace ignores a whitespace prefix. -/
theorem skipWs_append_ws {w : GoStr} (h : ∀ c ∈ w, isJsonWsC c = true) (x : GoStr) :
    skipWs (w ++ x) = skipWs x :=
  dropWhile_append_all h x

/-- The head surviving the whitespace skip is not whitespace. -/
theorem skipWs_head_not_ws {s : GoStr} {c : Char} {l : GoStr} (h : skipWs s = c :: l) :
    isJsonWsC c = false := by
  induction s with
  | nil => cases h
  | cons a s ih =>
    rw [skipWs, List.dropWhile_cons] at h
    by_cases hw : isJsonWsC a = true
    · rw [if_pos hw] at h
      exact ih h
    · rw [if_neg hw] at h
      injection h with h1 _
      rw [← h1]
      cases hb : isJsonWsC a
      · rfl
      · exact absurd hb hw

/-- Input fully consumed by the whitespace skip is all whitespace. -/
theorem skipWs_nil_all {r : GoStr} (h : skipWs r = []) : ∀ c ∈ r, isJsonWsC c = true := by
  induction r with
  | nil => intro c hc; cases hc
  | cons a r ih =>
    intro c hc
    rw [skipWs, List.dropWhile_cons] at h
    by_cases hw : isJsonWsC a = true
    · rw [if_pos hw] at h
      rcases List.mem_cons.mp hc with rfl | hc'
      · exact hw
      · exact ih h c hc'
    · rw [if_neg hw] at h
      cases h

/-- A whitespace run followed by a stopping character cannot extend a
value. -/
theorem stopOK_w_cons {w : GoStr} (hw : ∀ c ∈ w, isJsonWsC c = true) {c0 : Char}
    (h0 : isJsonWsC c0 = true ∨ c0 = ',' ∨ c0 = rbrack ∨ c0 = rbrace) (z : GoStr) :
    stopOK (w ++ c0 :: z) := by
  rcases w with _ | ⟨a, w'⟩
  · exact Or.inr ⟨c0, z, rfl, h0⟩
  · exact Or.inr ⟨a, w' ++ c0 :: z, rfl, Or.inl (hw a (List.mem_cons_self a w'))⟩

/-- Split a non-empty left part of an append against a cons. -/
theorem ne_nil_split {t r s2 : GoStr} {c : Char} (h : t ++ r = c :: s2) (hne : t ≠ []) :
    ∃ ts, t = c :: ts ∧ ts ++ r = s2 := by
  rcases t with _ | ⟨a, ts⟩
  · exact absurd rfl hne
  · injection h with h1 h2
    exact ⟨ts, by rw [h1], h2⟩

/-- Go TrimSpace on a JSON-whitespace-padded text whose core neither starts
nor ends with Go whitespace returns the core. -/
theorem goTrimSpace_of_shape {w t r : GoStr}
    (hw : ∀ c ∈ w, isJsonWsC c = true) (hr : ∀ c ∈ r, isJsonWsC c = true)
    (hh : ∃ c cs, t = c :: cs ∧ isGoSpace c = false)
    (hl : ∃ d, t.getLast? = some d ∧ isGoSpace d = false) :
    goTrimSpace (w ++ (t ++ r)) = t := by
  obtain ⟨c, cs, rfl, hcg⟩ := hh
  obtain ⟨d, hd, hdg⟩ := hl
  have h1 : List.dropWhile isGoSpace (w ++ ((c :: cs) ++ r)) = (c :: cs) ++ r := by
    rw [dropWhile_append_all (fun x hx => ws_go (hw x hx)), List.cons_append]
    exact dropWhile_cons_neg hcg (cs ++ r)
  rw [goTrimSpace, h1, List.reverse_append,
    dropWhile_append_all (fun x hx => ws_go (hr x (List.mem_reverse.mp hx)))]
  rcases hX : (c :: cs).reverse with _ | ⟨e, X2⟩
  · exact absurd hX (by simp)
  · have hh2 := List.head?_reverse (c :: cs)
    rw [hX, hd] at hh2
    injection hh2 with he
    rw [dropWhile_cons_neg (by rw [he]; exact hdg), ← hX, List.reverse_reverse]

/-- The pre-trim of a padded JSON value text returns the value text: the
fence trims do not fire on value-shaped boundaries. -/
theorem pretrim_of_shape {w t r : GoStr}
    (hw : ∀ c ∈ w, isJsonWsC c = true) (hr : ∀ c ∈ r, isJsonWsC c = true)
    (hh : ∃ c cs, t = c :: cs ∧ startChP c)
    (hl : ∃ d, t.getLast? = some d ∧ endChP d) :
    pretrim (w ++ (t ++ r)) = t := by
  have hhg : ∃ c cs, t = c :: cs ∧ isGoSpace c = false := by
    obtain ⟨c, cs, h1, h2⟩ := hh
    exact ⟨c, cs, h1, startChP_not_go h2⟩
  have hlg : ∃ d, t.getLast? = some d ∧ isGoSpace d = false := by
    obtain ⟨d, h1, h2⟩ := hl
    exact ⟨d, h1, endChP_not_go h2⟩
  have h1 : goTrimSpace (w ++ (t ++ r)) = t := goTrimSpace_of_shape hw hr hhg hlg
  rw [pretrim, h1]
  obtain ⟨c, cs, rfl, hc⟩ := hh
  obtain ⟨d, hd, hdE⟩ := hl
  have h2 : goTrimPre (c :: cs) fenceOpen = c :: cs := by
    rw [goTrimPre, if_neg]
    rw [show fenceOpen = btick :: [btick, btick, 'j', 's', 'o', 'n'] from rfl,
      startsWith_cons_ne (startChP_ne_btick hc)]
    exact Bool.false_ne_true
  rw [h2]
  have h3 : goTrimSuf (c :: cs) fenceClose = c :: cs := by
    rw [goTrimSuf, if_neg]
    intro hsuf
    rcases List.isSuffixOf_iff_suffix.mp hsuf with ⟨p, hp⟩
    have h5 : (c :: cs).getLast? = some btick := by
      rw [← hp]
      exact getLast_append_of p fenceClose btick rfl
    rw [hd] at h5
    injection h5 with h6
    exact endChP_ne_btick hdE h6
  rw [h3]
  have h7 := @goTrimSpace_of_shape [] (c :: cs) []
    (fun x hx => absurd hx (List.not_mem_nil x)) (fun x hx => absurd hx (List.not_mem_nil x))
    hhg hlg
  simpa using h7

/-- Decomposition and stability of the parser: a successful parse splits its
input into the consumed value text and the rest; the text is non-empty,
starts and ends with value characters, and re-parses identically before any
non-extending rest at any sufficient fuel.  Stated jointly for values,
array rests and object rests. -/
theorem pd_all : ∀ f,
    (∀ s v r, parseVal f s = some (v, r) → ∃ t, s = t ++ r ∧ t ≠ [] ∧
      (∃ c cs, t = c :: cs ∧ startChP c) ∧ (∃ d, t.getLast? = some d ∧ endChP d) ∧
      ∀ f2 r2, 2 * t.length + 1 ≤ f2 → stopOK r2 → parseVal f2 (t ++ r2) = some (v, r2)) ∧
    (∀ s l r, parseArrRest f s = some (l, r) → ∃ t, s = t ++ r ∧ t ≠ [] ∧
      (∃ d, t.getLast? = some d ∧ d = rbrack) ∧
      ∀ f2 r2, 2 * t.length + 1 ≤ f2 → parseArrRest f2 (t ++ r2) = some (l, r2)) ∧
    (∀ s l r, parseObjRest f s = some (l, r) → ∃ t, s = t ++ r ∧ t ≠ [] ∧
      (∃ d, t.getLast? = some d ∧ d = rbrace) ∧
      ∀ f2 r2, 2 * t.length + 1 ≤ f2 → parseObjRest f2 (t ++ r2) = some (l, r2)) := by
  intro f
  induction f with
  | zero =>
    exact ⟨fun s v r h => Option.noConfusion h, fun s l r h => Option.noConfusion h,
      fun s l r h => Option.noConfusion h⟩
  | succ f ih =>
    obtain ⟨ihV, ihA, ihO⟩ := ih
    refine ⟨?_, ?_, ?_⟩
    · -- the value parser
      intro s v r h
      rcases s with _ | ⟨c, rest⟩
      · exact Option.noConfusion h
      rw [parseVal_cons] at h
      by_cases hq : c = qch
      · -- a string
        subst hq
        rw [if_pos rfl] at h
        rcases hsb : strBody rest with _ | ⟨b, r1⟩
        · rw [hsb] at h
          exact Option.noConfusion h
        rw [hsb] at h
        have h' : some (Json.jstr b, r1) = some (v, r) := h
        injection h' with h'
        injection h' with hv hr
        subst hv
        subst hr
        obtain ⟨hrest, hbody⟩ := sb_decomp 0 rest b r1 hsb
        refine ⟨qch :: (b ++ [qch]), ?_, by simp, ⟨qch, _, rfl, Or.inr (Or.inr (Or.inl rfl))⟩,
          ⟨qch, ?_, Or.inr (Or.inr (Or.inl rfl))⟩, ?_⟩
        · rw [hrest]
          simp
        · have hg : ((qch :: b) ++ [qch]).getLast? = some qch :=
            getLast_append_of (qch :: b) [qch] qch rfl
          exact hg
        · intro f2 r2 hb hs2
          exact (rt_all f2).1 (Json.jstr b) r2 (WFj.wstr b hbody) hb hs2
      rw [if_neg hq] at h
      by_cases hbe : c = lbrace
      · -- an object
        subst hbe
        rw [if_pos rfl] at h
        obtain ⟨w, hwdec, hw⟩ := skipWs_decomp rest
        rcases hsw : skipWs rest with _ | ⟨c2, r2x⟩
        · rw [hsw] at h
          exact Option.noConfusion h
        rw [hsw] at h
        rw [hsw] at hwdec
        have h' : (if c2 = rbrace then some (Json.jobj [], r2x)
            else (parseObjRest f (c2 :: r2x)).map (fun p => (Json.jobj p.1, p.2)))
            = some (v, r) := h
        have hc2ws : isJsonWsC c2 = false := skipWs_head_not_ws hsw
        by_cases hc2 : c2 = rbrace
        · -- the empty object
          subst hc2
          rw [if_pos rfl] at h'
          injection h' with h'
          injection h' with hv hr
          subst hv
          subst hr
          refine ⟨lbrace :: (w ++ [rbrace]), ?_, by simp,
            ⟨lbrace, _, rfl, Or.inl rfl⟩, ⟨rbrace, ?_, Or.inl rfl⟩, ?_⟩
          · rw [hwdec]
            simp
          · have hg : ((lbrace :: w) ++ [rbrace]).getLast? = some rbrace :=
              getLast_append_of (lbrace :: w) [rbrace] rbrace rfl
            exact hg
          · intro f2 r2 hb _
            have hlen : (lbrace :: (w ++ [rbrace]) : GoStr).length = w.length + 2 := by
              simp only [List.length_cons, List.length_append, List.length_singleton, List.length_nil]
            rcases f2 with _ | f3
            · exfalso
              omega
            show parseVal (f3 + 1) (lbrace :: ((w ++ [rbrace]) ++ r2)) = some (Json.jobj [], r2)
            rw [parseVal_lbrace]
            have hre : (w ++ [rbrace]) ++ r2 = w ++ (rbrace :: r2) := by simp
            rw [hre, skipWs_append_ws hw, skipWs_cons_not_ws (by decide)]
            rfl
        · -- a non-empty object
          rw [if_neg hc2] at h'
          rcases hpo : parseObjRest f (c2 :: r2x) with _ | ⟨l, r3⟩
          · rw [hpo] at h'
            exact Option.noConfusion h'
          rw [hpo] at h'
          have h'' : some (Json.jobj l, r3) = some (v, r) := h'
          injection h'' with h''
          injection h'' with hv hr
          subst hv
          subst hr
          obtain ⟨t2, hs2eq, ht2ne, ⟨d2, hd2, hd2b⟩, stab2⟩ := ihO _ _ _ hpo
          obtain ⟨ts2, ht2c, _⟩ := ne_nil_split hs2eq.symm ht2ne
          refine ⟨lbrace :: (w ++ t2), ?_, by simp,
            ⟨lbrace, _, rfl, Or.inl rfl⟩, ⟨d2, ?_, by rw [hd2b]; exact Or.inl rfl⟩, ?_⟩
          · rw [hwdec, hs2eq]
            simp
          · have hg : ((lbrace :: w) ++ t2).getLast? = some d2 :=
              getLast_append_of (lbrace :: w) t2 d2 hd2
            exact hg
          · intro f2 r2 hb _
            have hlen : (lbrace :: (w ++ t2) : GoStr).length = w.length + t2.length + 1 := by
              simp only [List.length_cons, List.length_append]
            have ht2len : 1 ≤ t2.length := by
              rw [ht2c]
              simp
            rcases f2 with _ | f3
            · exfalso
              omega
            show parseVal (f3 + 1) (lbrace :: ((w ++ t2) ++ r2)) = some (Json.jobj l, r2)
            rw [parseVal_lbrace]
            have hre : (w ++ t2) ++ r2 = w ++ (t2 ++ r2) := by simp
            rw [hre, skipWs_append_ws hw, ht2c, List.cons_append,
              skipWs_cons_not_ws hc2ws]
            show (if c2 = rbrace then some (Json.jobj [], ts2 ++ r2)
              else (parseObjRest f3 (c2 :: (ts2 ++ r2))).map
                (fun p => (Json.jobj p.1, p.2))) = some (Json.jobj l, r2)
            rw [if_neg hc2]
            have hst := stab2 f3 r2 (by omega)
            rw [ht2c, List.cons_append] at hst
            rw [hst]
            rfl
      rw [if_neg hbe] at h
      by_cases hbk : c = lbrack
      · -- an array
        subst hbk
        rw [if_pos rfl] at h
        obtain ⟨w, hwdec, hw⟩ := skipWs_decomp rest
        rcases hsw : skipWs rest with _ | ⟨c2, r2x⟩
        · rw [hsw] at h
          exact Option.noConfusion h
        rw [hsw] at h
        rw [hsw] at hwdec
        have h' : (if c2 = rbrack then some (Json.jarr [], r2x)
            else (parseArrRest f (c2 :: r2x)).map (fun p => (Json.jarr p.1, p.2)))
            = some (v, r) := h
        have hc2ws : isJsonWsC c2 = false := skipWs_head_not_ws hsw
        by_cases hc2 : c2 = rbrack
        · -- the empty array
          subst hc2
          rw [if_pos rfl] at h'
          injection h' with h'
          injection h' with hv hr
          subst hv
          subst hr
          refine ⟨lbrack :: (w ++ [rbrack]), ?_, by simp,
            ⟨lbrack, _, rfl, Or.inr (Or.inl rfl)⟩, ⟨rbrack, ?_, Or.inr (Or.inl rfl)⟩, ?_⟩
          · rw [hwdec]
            simp
          · have hg : ((lbrack :: w) ++ [rbrack]).getLast? = some rbrack :=
              getLast_append_of (lbrack :: w) [rbrack] rbrack rfl
            exact hg
          · intro f2 r2 hb _
            have hlen : (lbrack :: (w ++ [rbrack]) : GoStr).length = w.length + 2 := by
              simp only [List.length_cons, List.length_append, List.length_singleton, List.length_nil]
            rcases f2 with _ | f3
            · exfalso
              omega
            show parseVal (f3 + 1) (lbrack :: ((w ++ [rbrack]) ++ r2)) = some (Json.jarr [], r2)
            rw [parseVal_lbrack]
            have hre : (w ++ [rbrack]) ++ r2 = w ++ (rbrack :: r2) := by simp
            rw [hre, skipWs_append_ws hw, skipWs_cons_not_ws (by decide)]
            rfl
        · -- a non-empty array
          rw [if_neg hc2] at h'
          rcases hpa : parseArrRest f (c2 :: r2x) with _ | ⟨l, r3⟩
          · rw [hpa] at h'
            exact Option.noConfusion h'
          rw [hpa] at h'
          have h'' : some (Json.jarr l, r3) = some (v, r) := h'
          injection h'' with h''
          injection h'' with hv hr
          subst hv
          subst hr
          obtain ⟨t2, hs2eq, ht2ne, ⟨d2, hd2, hd2b⟩, stab2⟩ := ihA _ _ _ hpa
          obtain ⟨ts2, ht2c, _⟩ := ne_nil_split hs2eq.symm ht2ne
          refine ⟨lbrack :: (w ++ t2), ?_, by simp,
            ⟨lbrack, _, rfl, Or.inr (Or.inl rfl)⟩,
            ⟨d2, ?_, by rw [hd2b]; exact Or.inr (Or.inl rfl)⟩, ?_⟩
          · rw [hwdec, hs2eq]
            simp
          · have hg : ((lbrack :: w) ++ t2).getLast? = some d2 :=
              getLast_append_of (lbrack :: w) t2 d2 hd2
            exact hg
          · intro f2 r2 hb _
            have hlen : (lbrack :: (w ++ t2) : GoStr).length = w.length + t2.length + 1 := by
              simp only [List.length_cons, List.length_append]
            have ht2len : 1 ≤ t2.length := by
              rw [ht2c]
              simp
            rcases f2 with _ | f3
            · exfalso
              omega
            show parseVal (f3 + 1) (lbrack :: ((w ++ t2) ++ r2)) = some (Json.jarr l, r2)
            rw [parseVal_lbrack]
            have hre : (w ++ t2) ++ r2 = w ++ (t2 ++ r2) := by simp
            rw [hre, skipWs_append_ws hw, ht2c, List.cons_append,
              skipWs_cons_not_ws hc2ws]
            show (if c2 = rbrack then some (Json.jarr [], ts2 ++ r2)
              else (parseArrRest f3 (c2 :: (ts2 ++ r2))).map
                (fun p => (Json.jarr p.1, p.2))) = some (Json.jarr l, r2)
            rw [if_neg hc2]
            have hst := stab2 f3 r2 (by omega)
            rw [ht2c, List.cons_append] at hst
            rw [hst]
            rfl
      rw [if_neg hbk] at h
      by_cases htl : startsWithL (c :: rest) trueLit = true
      · -- the literal true
        rw [if_pos htl] at h
        injection h with h
        injection h with hv hr
        subst hv
        obtain ⟨rr, hrr⟩ := List.isPrefixOf_iff_prefix.mp htl
        have hdrop : (trueLit ++ rr).drop 4 = rr := List.drop_left trueLit rr
        have hreq : r = rr := by
          rw [← hr, ← hrr]
          exact hdrop
        subst hreq
        refine ⟨trueLit, hrr.symm, by decide,
          ⟨'t', _, rfl, Or.inr (Or.inr (Or.inr (Or.inr (Or.inr (Or.inl rfl)))))⟩,
          ⟨'e', rfl, Or.inr (Or.inr (Or.inr (Or.inl rfl)))⟩, ?_⟩
        intro f2 r2 hb hs2
        exact (rt_all f2).1 (Json.jbool true) r2 (WFj.wbool true) hb hs2
      rw [if_neg htl] at h
      by_cases hfl : startsWithL (c :: rest) falseLit = true
      · -- the literal false
        rw [if_pos hfl] at h
        injection h with h
        injection h with hv hr
        subst hv
        obtain ⟨rr, hrr⟩ := List.isPrefixOf_iff_prefix.mp hfl
        have hdrop : (falseLit ++ rr).drop 5 = rr := List.drop_left falseLit rr
        have hreq : r = rr := by
          rw [← hr, ← hrr]
          exact hdrop
        subst hreq
        refine ⟨falseLit, hrr.symm, by decide,
          ⟨'f', _, rfl, Or.inr (Or.inr (Or.inr (Or.inr (Or.inr (Or.inr (Or.inl rfl))))))⟩,
          ⟨'e', rfl, Or.inr (Or.inr (Or.inr (Or.inl rfl)))⟩, ?_⟩
        intro f2 r2 hb hs2
        exact (rt_all f2).1 (Json.jbool false) r2 (WFj.wbool false) hb hs2
      rw [if_neg hfl] at h
      by_cases hnl : startsWithL (c :: rest) nullLit = true
      · -- the literal null
        rw [if_pos hnl] at h
        injection h with h
        injection h with hv hr
        subst hv
        obtain ⟨rr, hrr⟩ := List.isPrefixOf_iff_prefix.mp hnl
        have hdrop : (nullLit ++ rr).drop 4 = rr := List.drop_left nullLit rr
        have hreq : r = rr := by
          rw [← hr, ← hrr]
          exact hdrop
        subst hreq
        refine ⟨nullLit, hrr.symm, by decide,
          ⟨'n', _, rfl,
            Or.inr (Or.inr (Or.inr (Or.inr (Or.inr (Or.inr (Or.inr rfl))))))⟩,
          ⟨'l', rfl, Or.inr (Or.inr (Or.inr (Or.inr (Or.inl rfl))))⟩, ?_⟩
        intro f2 r2 hb hs2
        exact (rt_all f2).1 Json.jnull r2 WFj.wnull hb hs2
      rw [if_neg hnl] at h
      by_cases hnum : (c = '-' || c.isDigit) = true
      · -- a number
        rw [if_pos hnum] at h
        rcases hnt : numTok (c :: rest) with _ | ⟨tn, r1⟩
        · rw [hnt] at h
          exact Option.noConfusion h
        rw [hnt] at h
        have h' : some (Json.jnum tn, r1) = some (v, r) := h
        injection h' with h'
        injection h' with hv hr
        subst hv
        subst hr
        obtain ⟨hseq, htne, ⟨cn, csn, hcn, hcnd⟩, ⟨dn, hdn, hdnd⟩, hstab⟩ := nt_full hnt
        have hok : numOK tn := by
          have hx := hstab [] (Or.inl rfl)
          rw [List.append_nil] at hx
          exact hx
        refine ⟨tn, hseq, htne,
          ⟨cn, csn, hcn, ?_⟩, ⟨dn, hdn, Or.inr (Or.inr (Or.inr (Or.inr (Or.inr hdnd))))⟩, ?_⟩
        · rcases hcnd with rfl | hd
          · exact Or.inr (Or.inr (Or.inr (Or.inl rfl)))
          · exact Or.inr (Or.inr (Or.inr (Or.inr (Or.inl hd))))
        · intro f2 r2 hb hs2
          exact (rt_all f2).1 (Json.jnum tn) r2 (WFj.wnum tn hok) hb hs2
      rw [if_neg hnum] at h
      exact Option.noConfusion h
    · -- the array rest parser
      intro s l r h
      rw [parseArrRest_succ] at h
      rcases hpv : parseVal f s with _ | ⟨v, r1⟩
      · rw [hpv] at h
        exact Option.noConfusion h
      rw [hpv] at h
      have h1 : (match skipWs r1 with
        | c :: r2y =>
          if c = ',' then
            (parseArrRest f (skipWs r2y)).map (fun p => (v :: p.1, p.2))
          else if c = rbrack then some ([v], r2y)
          else none
        | [] => none) = some (l, r) := h
      obtain ⟨tv, hsv, htvne, ⟨cv, cvs, hcv, hcvS⟩, ⟨dv, hdv, hdvE⟩, stabV⟩ := ihV _ _ _ hpv
      obtain ⟨w, hwdec, hw⟩ := skipWs_decomp r1
      rcases hsw : skipWs r1 with _ | ⟨c, r2x⟩
      · rw [hsw] at h1
        exact Option.noConfusion h1
      rw [hsw] at h1
      rw [hsw] at hwdec
      have h2 : (if c = ',' then
          (parseArrRest f (skipWs r2x)).map (fun p => (v :: p.1, p.2))
        else if c = rbrack then some ([v], r2x)
        else none) = some (l, r) := h1
      by_cases hc : c = ','
      · -- another element follows
        subst hc
        rw [if_pos rfl] at h2
        rcases hpa : parseArrRest f (skipWs r2x) with _ | ⟨l1, r3⟩
        · rw [hpa] at h2
          exact Option.noConfusion h2
        rw [hpa] at h2
        have h3 : some (v :: l1, r3) = some (l, r) := h2
        injection h3 with h3
        injection h3 with hl hr
        subst hl
        subst hr
        obtain ⟨w2, hw2dec, hw2⟩ := skipWs_decomp r2x
        obtain ⟨t3, h3eq, ht3ne, ⟨d3, hd3, hd3b⟩, stab3⟩ := ihA _ _ _ hpa
        obtain ⟨c3, ts3, ht3c⟩ : ∃ c3 ts3, t3 = c3 :: ts3 := by
          rcases t3 with _ | ⟨c3, ts3⟩
          · exact absurd rfl ht3ne
          · exact ⟨c3, ts3, rfl⟩
        have hx5 : skipWs r2x = c3 :: (ts3 ++ r3) := by
          rw [h3eq, ht3c, List.cons_append]
        have hc3ws := skipWs_head_not_ws hx5
        refine ⟨tv ++ (w ++ (',' :: (w2 ++ t3))), ?_, ?_, ⟨d3, ?_, hd3b⟩, ?_⟩
        · rw [hsv, hwdec, hw2dec, h3eq]
          simp
        · rw [hcv]
          simp
        · have g1 : (w2 ++ t3).getLast? = some d3 := getLast_append_of w2 t3 d3 hd3
          have g2 : (',' :: (w2 ++ t3) : GoStr).getLast? = some d3 :=
            getLast_append_of [','] (w2 ++ t3) d3 g1
          have g3 : (w ++ (',' :: (w2 ++ t3))).getLast? = some d3 :=
            getLast_append_of w _ d3 g2
          exact getLast_append_of tv _ d3 g3
        · intro f2 r2 hb
          have hlen : (tv ++ (w ++ (',' :: (w2 ++ t3)))).length
              = tv.length + w.length + w2.length + t3.length + 1 := by
            simp only [List.length_append, List.length_cons]
            omega
          have htvlen : 1 ≤ tv.length := by
            rw [hcv]
            simp
          have ht3len : 1 ≤ t3.length := by
            rw [ht3c]
            simp
          rcases f2 with _ | f3
          · exfalso
            omega
          rw [parseArrRest_succ]
          have hre : (tv ++ (w ++ (',' :: (w2 ++ t3)))) ++ r2
              = tv ++ (w ++ (',' :: (w2 ++ (t3 ++ r2)))) := by
            simp
          have hpv2 := stabV f3 (w ++ (',' :: (w2 ++ (t3 ++ r2)))) (by omega)
            (stopOK_w_cons hw (Or.inr (Or.inl rfl)) (w2 ++ (t3 ++ r2)))
          rw [hre, hpv2]
          show (match skipWs (w ++ (',' :: (w2 ++ (t3 ++ r2)))) with
            | c :: r2y =>
              if c = ',' then
                (parseArrRest f3 (skipWs r2y)).map (fun p => (v :: p.1, p.2))
              else if c = rbrack then some ([v], r2y)
              else none
            | [] => none) = some (v :: l1, r2)
          rw [skipWs_append_ws hw, skipWs_cons_not_ws (by decide)]
          show (if (',' : Char) = ',' then
              (parseArrRest f3 (skipWs (w2 ++ (t3 ++ r2)))).map (fun p => (v :: p.1, p.2))
            else if (',' : Char) = rbrack then some ([v], w2 ++ (t3 ++ r2))
            else none) = some (v :: l1, r2)
          rw [if_pos rfl, skipWs_append_ws hw2]
          have hsk3 : skipWs (t3 ++ r2) = t3 ++ r2 := by
            rw [ht3c, List.cons_append]
            exact skipWs_cons_not_ws hc3ws (ts3 ++ r2)
          rw [hsk3]
          have hst := stab3 f3 r2 (by omega)
          rw [hst]
          rfl
      · rw [if_neg hc] at h2
        by_cases hcb : c = rbrack
        · -- the closing bracket
          subst hcb
          rw [if_pos rfl] at h2
          injection h2 with h2
          injection h2 with hl hr
          subst hl
          subst hr
          refine ⟨tv ++ (w ++ [rbrack]), ?_, ?_, ⟨rbrack, ?_, rfl⟩, ?_⟩
          · rw [hsv, hwdec]
            simp
          · rw [hcv]
            simp
          · have g1 : (w ++ [rbrack]).getLast? = some rbrack :=
              getLast_append_of w [rbrack] rbrack rfl
            exact getLast_append_of tv _ rbrack g1
          · intro f2 r2 hb
            have hlen : (tv ++ (w ++ [rbrack])).length = tv.length + w.length + 1 := by
              simp only [List.length_append, List.length_singleton, List.length_nil, List.length_cons]
              omega
            have htvlen : 1 ≤ tv.length := by
              rw [hcv]
              simp
            rcases f2 with _ | f3
            · exfalso
              omega
            rw [parseArrRest_succ]
            have hre : (tv ++ (w ++ [rbrack])) ++ r2 = tv ++ (w ++ (rbrack :: r2)) := by
              simp
            have hpv2 := stabV f3 (w ++ (rbrack :: r2)) (by omega)
              (stopOK_w_cons hw (Or.inr (Or.inr (Or.inl rfl))) r2)
            rw [hre, hpv2]
            show (match skipWs (w ++ (rbrack :: r2)) with
              | c :: r2y =>
                if c = ',' then
                  (parseArrRest f3 (skipWs r2y)).map (fun p => (v :: p.1, p.2))
                else if c = rbrack then some ([v], r2y)
                else none
              | [] => none) = some ([v], r2)
            rw [skipWs_append_ws hw, skipWs_cons_not_ws (by decide)]
            rfl
        · rw [if_neg hcb] at h2
          exact Option.noConfusion h2
    · -- the object rest parser
      intro s l r h
      rcases s with _ | ⟨c, rest⟩
      · exact Option.noConfusion h
      rw [parseObjRest_cons] at h
      by_cases hq : c = qch
      · subst hq
        rw [if_pos rfl] at h
        rcases hsb : strBody rest with _ | ⟨k, r1⟩
        · rw [hsb] at h
          exact Option.noConfusion h
        rw [hsb] at h
        obtain ⟨hrestd, hk⟩ := sb_decomp 0 rest k r1 hsb
        have h1 : (match skipWs r1 with
          | c1 :: r2y =>
            if c1 = ':' then
              match parseVal f (skipWs r2y) with
              | none => none
              | some (v, r3) =>
                match skipWs r3 with
                | c2 :: r4y =>
                  if c2 = ',' then
                    (parseObjRest f (skipWs r4y)).map (fun p => ((k, v) :: p.1, p.2))
                  else if c2 = rbrace then some ([(k, v)], r4y)
                  else none
                | [] => none
            else none
          | [] => none) = some (l, r) := h
        obtain ⟨w1, hw1dec, hw1⟩ := skipWs_decomp r1
        rcases hsw1 : skipWs r1 with _ | ⟨c1, r2x⟩
        · rw [hsw1] at h1
          exact Option.noConfusion h1
        rw [hsw1] at h1
        rw [hsw1] at hw1dec
        have h1b : (if c1 = ':' then
            match parseVal f (skipWs r2x) with
            | none => none
            | some (v, r3) =>
              match skipWs r3 with
              | c2 :: r4y =>
                if c2 = ',' then
                  (parseObjRest f (skipWs r4y)).map (fun p => ((k, v) :: p.1, p.2))
                else if c2 = rbrace then some ([(k, v)], r4y)
                else none
              | [] => none
          else none) = some (l, r) := h1
        by_cases hcol : c1 = ':'
        · subst hcol
          rw [if_pos rfl] at h1b
          rcases hpv : parseVal f (skipWs r2x) with _ | ⟨v, r3⟩
          · rw [hpv] at h1b
            exact Option.noConfusion h1b
          rw [hpv] at h1b
          obtain ⟨w2, hw2dec, hw2⟩ := skipWs_decomp r2x
          obtain ⟨tv, hsv, htvne, ⟨cv, cvs, hcv, hcvS⟩, ⟨dv, hdv, hdvE⟩, stabV⟩ :=
            ihV _ _ _ hpv
          have h2 : (match skipWs r3 with
            | c2 :: r4y =>
              if c2 = ',' then
                (parseObjRest f (skipWs r4y)).map (fun p => ((k, v) :: p.1, p.2))
              else if c2 = rbrace then some ([(k, v)], r4y)
              else none
            | [] => none) = some (l, r) := h1b
          obtain ⟨w3, hw3dec, hw3⟩ := skipWs_decomp r3
          rcases hsw3 : skipWs r3 with _ | ⟨c2, r4x⟩
          · rw [hsw3] at h2
            exact Option.noConfusion h2
          rw [hsw3] at h2
          rw [hsw3] at hw3dec
          have h2b : (if c2 = ',' then
              (parseObjRest f (skipWs r4x)).map (fun p => ((k, v) :: p.1, p.2))
            else if c2 = rbrace then some ([(k, v)], r4x)
            else none) = some (l, r) := h2
          by_cases hcm : c2 = ','
          · -- another member follows
            subst hcm
            rw [if_pos rfl] at h2b
            rcases hpo : parseObjRest f (skipWs r4x) with _ | ⟨l1, r5⟩
            · rw [hpo] at h2b
              exact Option.noConfusion h2b
            rw [hpo] at h2b
            have h3 : some ((k, v) :: l1, r5) = some (l, r) := h2b
            injection h3 with h3
            injection h3 with hl hr
            subst hl
            subst hr
            obtain ⟨w4, hw4dec, hw4⟩ := skipWs_decomp r4x
            obtain ⟨t5, h5eq, ht5ne, ⟨d5, hd5, hd5b⟩, stab5⟩ := ihO _ _ _ hpo
            obtain ⟨c5, ts5, ht5c⟩ : ∃ c5 ts5, t5 = c5 :: ts5 := by
              rcases t5 with _ | ⟨c5, ts5⟩
              · exact absurd rfl ht5ne
              · exact ⟨c5, ts5, rfl⟩
            have hx5 : skipWs r4x = c5 :: (ts5 ++ r5) := by
              rw [h5eq, ht5c, List.cons_append]
            have hc5ws := skipWs_head_not_ws hx5
            refine ⟨qch :: (k ++ (qch :: (w1 ++ (':' ::
              (w2 ++ (tv ++ (w3 ++ (',' :: (w4 ++ t5))))))))), ?_, by simp,
              ⟨d5, ?_, hd5b⟩, ?_⟩
            · rw [hrestd, hw1dec, hw2dec, hsv, hw3dec, hw4dec, h5eq]
              simp
            · have g1 : (w4 ++ t5).getLast? = some d5 := getLast_append_of w4 t5 d5 hd5
              have g2 : (',' :: (w4 ++ t5) : GoStr).getLast? = some d5 :=
                getLast_append_of [','] (w4 ++ t5) d5 g1
              have g3 : (w3 ++ (',' :: (w4 ++ t5))).getLast? = some d5 :=
                getLast_append_of w3 _ d5 g2
              have g4 : (tv ++ (w3 ++ (',' :: (w4 ++ t5)))).getLast? = some d5 :=
                getLast_append_of tv _ d5 g3
              have g5 : (w2 ++ (tv ++ (w3 ++ (',' :: (w4 ++ t5))))).getLast? = some d5 :=
                getLast_append_of w2 _ d5 g4
              have g6 : (':' :: (w2 ++ (tv ++ (w3 ++ (',' :: (w4 ++ t5))))) : GoStr).getLast?
                  = some d5 := getLast_append_of [':'] _ d5 g5
              have g7 : (w1 ++ (':' :: (w2 ++ (tv ++ (w3 ++ (',' :: (w4 ++ t5))))))).getLast?
                  = some d5 := getLast_append_of w1 _ d5 g6
              have g8 : (qch :: (w1 ++ (':' :: (w2 ++ (tv ++ (w3 ++ (',' :: (w4 ++ t5))))))) :
                  GoStr).getLast? = some d5 := getLast_append_of [qch] _ d5 g7
              have g9 : (k ++ (qch :: (w1 ++ (':' :: (w2 ++ (tv ++ (w3 ++ (',' ::
                  (w4 ++ t5))))))))).getLast? = some d5 := getLast_append_of k _ d5 g8
              exact getLast_append_of [qch] _ d5 g9
            · intro f2 r2 hb
              have hlen : (qch :: (k ++ (qch :: (w1 ++ (':' ::
                  (w2 ++ (tv ++ (w3 ++ (',' :: (w4 ++ t5)))))))))).length
                  = k.length + w1.length + w2.length + tv.length + w3.length
                    + w4.length + t5.length + 4 := by
                simp only [List.length_cons, List.length_append]
                omega
              have htvlen : 1 ≤ tv.length := by
                rw [hcv]
                simp
              have ht5len : 1 ≤ t5.length := by
                rw [ht5c]
                simp
              rcases f2 with _ | f3
              · exfalso
                omega
              rw [List.cons_append, parseObjRest_cons, if_pos rfl]
              have hre1 : (k ++ (qch :: (w1 ++ (':' ::
                  (w2 ++ (tv ++ (w3 ++ (',' :: (w4 ++ t5))))))))) ++ r2
                  = k ++ (qch :: ((w1 ++ (':' ::
                  (w2 ++ (tv ++ (w3 ++ (',' :: (w4 ++ t5))))))) ++ r2)) := by
                simp
              rw [hre1]
              have hsbx : strBody (k ++ (qch :: ((w1 ++ (':' ::
                  (w2 ++ (tv ++ (w3 ++ (',' :: (w4 ++ t5))))))) ++ r2)))
                  = some (k, (w1 ++ (':' ::
                  (w2 ++ (tv ++ (w3 ++ (',' :: (w4 ++ t5))))))) ++ r2) :=
                sb_ext 0 k hk _
              rw [hsbx]
              show (match skipWs ((w1 ++ (':' ::
                  (w2 ++ (tv ++ (w3 ++ (',' :: (w4 ++ t5))))))) ++ r2) with
                | c1 :: r2y =>
                  if c1 = ':' then
                    match parseVal f3 (skipWs r2y) with
                    | none => none
                    | some (v, r3) =>
                      match skipWs r3 with
                      | c2 :: r4y =>
                        if c2 = ',' then
                          (parseObjRest f3 (skipWs r4y)).map (fun p => ((k, v) :: p.1, p.2))
                        else if c2 = rbrace then some ([(k, v)], r4y)
                        else none
                      | [] => none
                  else none
                | [] => none) = some ((k, v) :: l1, r2)
              have hre2 : (w1 ++ (':' :: (w2 ++ (tv ++ (w3 ++ (',' :: (w4 ++ t5))))))) ++ r2
                  = w1 ++ (':' :: ((w2 ++ (tv ++ (w3 ++ (',' :: (w4 ++ t5))))) ++ r2)) := by
                simp
              rw [hre2, skipWs_append_ws hw1, skipWs_cons_not_ws (by decide)]
              show (if (':' : Char) = ':' then
                  match parseVal f3 (skipWs ((w2 ++ (tv ++ (w3 ++ (',' ::
                    (w4 ++ t5))))) ++ r2)) with
                  | none => none
                  | some (v, r3) =>
                    match skipWs r3 with
                    | c2 :: r4y =>
                      if c2 = ',' then
                        (parseObjRest f3 (skipWs r4y)).map (fun p => ((k, v) :: p.1, p.2))
                      else if c2 = rbrace then some ([(k, v)], r4y)
                      else none
                    | [] => none
                else none) = some ((k, v) :: l1, r2)
              rw [if_pos rfl]
              have hre3 : (w2 ++ (tv ++ (w3 ++ (',' :: (w4 ++ t5))))) ++ r2
                  = w2 ++ (tv ++ (w3 ++ (',' :: (w4 ++ (t5 ++ r2))))) := by
                simp
              rw [hre3, skipWs_append_ws hw2]
              have hskv : skipWs (tv ++ (w3 ++ (',' :: (w4 ++ (t5 ++ r2)))))
                  = tv ++ (w3 ++ (',' :: (w4 ++ (t5 ++ r2)))) := by
                rw [hcv, List.cons_append]
                exact skipWs_cons_not_ws (startChP_not_ws hcvS) _
              rw [hskv]
              have hpv2 := stabV f3 (w3 ++ (',' :: (w4 ++ (t5 ++ r2)))) (by omega)
                (stopOK_w_cons hw3 (Or.inr (Or.inl rfl)) (w4 ++ (t5 ++ r2)))
              rw [hpv2]
              show (match skipWs (w3 ++ (',' :: (w4 ++ (t5 ++ r2)))) with
                | c2 :: r4y =>
                  if c2 = ',' then
                    (parseObjRest f3 (skipWs r4y)).map (fun p => ((k, v) :: p.1, p.2))
                  else if c2 = rbrace then some ([(k, v)], r4y)
                  else none
                | [] => none) = some ((k, v) :: l1, r2)
              rw [skipWs_append_ws hw3, skipWs_cons_not_ws (by decide)]
              show (if (',' : Char) = ',' then
                  (parseObjRest f3 (skipWs (w4 ++ (t5 ++ r2)))).map
                    (fun p => ((k, v) :: p.1, p.2))
                else if (',' : Char) = rbrace then some ([(k, v)], w4 ++ (t5 ++ r2))
                else none) = some ((k, v) :: l1, r2)
              rw [if_pos rfl, skipWs_append_ws hw4]
              have hsk5 : skipWs (t5 ++ r2) = t5 ++ r2 := by
                rw [ht5c, List.cons_append]
                exact skipWs_cons_not_ws hc5ws (ts5 ++ r2)
              rw [hsk5]
              have hst := stab5 f3 r2 (by omega)
              rw [hst]
              rfl
          · rw [if_neg hcm] at h2b
            by_cases hcb : c2 = rbrace
            · -- the closing brace
              subst hcb
              rw [if_pos rfl] at h2b
              injection h2b with h2b
              injection h2b with hl hr
              subst hl
              subst hr
              refine ⟨qch :: (k ++ (qch :: (w1 ++ (':' ::
                (w2 ++ (tv ++ (w3 ++ [rbrace]))))))), ?_, by simp,
                ⟨rbrace, ?_, rfl⟩, ?_⟩
              · rw [hrestd, hw1dec, hw2dec, hsv, hw3dec]
                simp
              · have g1 : (w3 ++ [rbrace]).getLast? = some rbrace :=
                  getLast_append_of w3 [rbrace] rbrace rfl
                have g2 : (tv ++ (w3 ++ [rbrace])).getLast? = some rbrace :=
                  getLast_append_of tv _ rbrace g1
                have g3 : (w2 ++ (tv ++ (w3 ++ [rbrace]))).getLast? = some rbrace :=
                  getLast_append_of w2 _ rbrace g2
                have g4 : (':' :: (w2 ++ (tv ++ (w3 ++ [rbrace]))) : GoStr).getLast?
                    = some rbrace := getLast_append_of [':'] _ rbrace g3
                have g5 : (w1 ++ (':' :: (w2 ++ (tv ++ (w3 ++ [rbrace]))))).getLast?
                    = some rbrace := getLast_append_of w1 _ rbrace g4
                have g6 : (qch :: (w1 ++ (':' :: (w2 ++ (tv ++ (w3 ++ [rbrace]))))) :
                    GoStr).getLast? = some rbrace := getLast_append_of [qch] _ rbrace g5
                have g7 : (k ++ (qch :: (w1 ++ (':' :: (w2 ++ (tv ++
                    (w3 ++ [rbrace]))))))).getLast? = some rbrace :=
                  getLast_append_of k _ rbrace g6
                exact getLast_append_of [qch] _ rbrace g7
              · intro f2 r2 hb
                have hlen : (qch :: (k ++ (qch :: (w1 ++ (':' ::
                    (w2 ++ (tv ++ (w3 ++ [rbrace])))))))).length
                    = k.length + w1.length + w2.length + tv.length + w3.length + 4 := by
                  simp only [List.length_cons, List.length_append, List.length_singleton, List.length_nil]
                  omega
                have htvlen : 1 ≤ tv.length := by
                  rw [hcv]
                  simp
                rcases f2 with _ | f3
                · exfalso
                  omega
                rw [List.cons_append, parseObjRest_cons, if_pos rfl]
                have hre1 : (k ++ (qch :: (w1 ++ (':' ::
                    (w2 ++ (tv ++ (w3 ++ [rbrace]))))))) ++ r2
                    = k ++ (qch :: ((w1 ++ (':' ::
                    (w2 ++ (tv ++ (w3 ++ [rbrace]))))) ++ r2)) := by
                  simp
                rw [hre1]
                have hsbx : strBody (k ++ (qch :: ((w1 ++ (':' ::
                    (w2 ++ (tv ++ (w3 ++ [rbrace]))))) ++ r2)))
                    = some (k, (w1 ++ (':' :: (w2 ++ (tv ++ (w3 ++ [rbrace]))))) ++ r2) :=
                  sb_ext 0 k hk _
                rw [hsbx]
                show (match skipWs ((w1 ++ (':' ::
                    (w2 ++ (tv ++ (w3 ++ [rbrace]))))) ++ r2) with
                  | c1 :: r2y =>
                    if c1 = ':' then
                      match parseVal f3 (skipWs r2y) with
                      | none => none
                      | some (v, r3) =>
                        match skipWs r3 with
                        | c2 :: r4y =>
                          if c2 = ',' then
                            (parseObjRest f3 (skipWs r4y)).map
                              (fun p => ((k, v) :: p.1, p.2))
                          else if c2 = rbrace then some ([(k, v)], r4y)
                          else none
                        | [] => none
                    else none
                  | [] => none) = some ([(k, v)], r2)
                have hre2 : (w1 ++ (':' :: (w2 ++ (tv ++ (w3 ++ [rbrace]))))) ++ r2
                    = w1 ++ (':' :: ((w2 ++ (tv ++ (w3 ++ [rbrace]))) ++ r2)) := by
                  simp
                rw [hre2, skipWs_append_ws hw1, skipWs_cons_not_ws (by decide)]
                show (if (':' : Char) = ':' then
                    match parseVal f3 (skipWs ((w2 ++ (tv ++ (w3 ++ [rbrace]))) ++ r2)) with
                    | none => none
                    | some (v, r3) =>
                      match skipWs r3 with
                      | c2 :: r4y =>
                        if c2 = ',' then
                          (parseObjRest f3 (skipWs r4y)).map (fun p => ((k, v) :: p.1, p.2))
                        else if c2 = rbrace then some ([(k, v)], r4y)
                        else none
                      | [] => none
                  else none) = some ([(k, v)], r2)
                rw [if_pos rfl]
                have hre3 : (w2 ++ (tv ++ (w3 ++ [rbrace]))) ++ r2
                    = w2 ++ (tv ++ (w3 ++ (rbrace :: r2))) := by
                  simp
                rw [hre3, skipWs_append_ws hw2]
                have hskv : skipWs (tv ++ (w3 ++ (rbrace :: r2)))
                    = tv ++ (w3 ++ (rbrace :: r2)) := by
                  rw [hcv, List.cons_append]
                  exact skipWs_cons_not_ws (startChP_not_ws hcvS) _
                rw [hskv]
                have hpv2 := stabV f3 (w3 ++ (rbrace :: r2)) (by omega)
                  (stopOK_w_cons hw3 (Or.inr (Or.inr (Or.inr rfl))) r2)
                rw [hpv2]
                show (match skipWs (w3 ++ (rbrace :: r2)) with
                  | c2 :: r4y =>
                    if c2 = ',' then
                      (parseObjRest f3 (skipWs r4y)).map (fun p => ((k, v) :: p.1, p.2))
                    else if c2 = rbrace then some ([(k, v)], r4y)
                    else none
                  | [] => none) = some ([(k, v)], r2)
                rw [skipWs_append_ws hw3, skipWs_cons_not_ws (by decide)]
                rfl
            · rw [if_neg hcb] at h2b
              exact Option.noConfusion h2b
        · rw [if_neg hcol] at h1b
          exact Option.noConfusion h1b
      · rw [if_neg hq] at h
        exact Option.noConfusion h

/-- Structure of a valid document: whitespace, then the value text (with
value-shaped first and last characters), then whitespace; the value text
alone parses to the same tree. -/
theorem valid_structure {j : GoStr} {v : Json} (h : jsonSemFull j = some v) :
    ∃ w t r, j = w ++ (t ++ r) ∧ (∀ c ∈ w, isJsonWsC c = true) ∧
      (∀ c ∈ r, isJsonWsC c = true) ∧
      (∃ c cs, t = c :: cs ∧ startChP c) ∧ (∃ d, t.getLast? = some d ∧ endChP d) ∧
      jsonSemFull t = some v := by
  have h' : (match parseVal (2 * (skipWs j).length + 2) (skipWs j) with
    | some (w, r) => if skipWs r = [] then some w else none
    | none => none) = some v := h
  rcases hpv : parseVal (2 * (skipWs j).length + 2) (skipWs j) with _ | ⟨w0, r⟩
  · rw [hpv] at h'
    exact Option.noConfusion h'
  rw [hpv] at h'
  have h'' : (if skipWs r = [] then some w0 else none) = some v := h'
  by_cases he : skipWs r = []
  · rw [if_pos he] at h''
    injection h'' with h''
    subst h''
    obtain ⟨w, hwdec, hw⟩ := skipWs_decomp j
    obtain ⟨t, hteq, htne, hhead, hlast, hstab⟩ := (pd_all _).1 _ _ _ hpv
    refine ⟨w, t, r, ?_, hw, skipWs_nil_all he, hhead, hlast, ?_⟩
    · rw [hwdec, hteq]
    · have hsw : skipWs t = t := by
        obtain ⟨c, cs, rfl, hc⟩ := hhead
        exact skipWs_cons_not_ws (startChP_not_ws hc) cs
      have hrt := hstab (2 * t.length + 2) [] (by omega) (Or.inl rfl)
      rw [List.append_nil] at hrt
      show (match parseVal (2 * (skipWs t).length + 2) (skipWs t) with
        | some (w, r) => if skipWs r = [] then some w else none
        | none => none) = some w0
      rw [hsw, hrt]
      rfl
  · rw [if_neg he] at h''
    exact Option.noConfusion h''

/-- C3: for every syntactically valid JSON input whose trimmed text starts
with a brace, a bracket or a quote (objects, arrays and strings), repair
returns without error the compacted text, semantically identical to the
input: the result is the rendering of the input's parse tree, and it
re-parses to exactly that tree. -/
theorem repair_valid_json_compacts :
    ∀ j : GoStr, jsonValid j = true →
    (startsWithL (goTrimSpace j) [lbrace] = true ∨
      startsWithL (goTrimSpace j) [lbrack] = true ∨
      startsWithL (goTrimSpace j) [qch] = true) →
    ∃ v, jsonSemFull j = some v ∧ repairJSON j = Except.ok (render v) ∧
      jsonSemFull (render v) = some v := by
  intro j hv hhead
  obtain ⟨v, hj⟩ : ∃ v, jsonSemFull j = some v := by
    rcases hjs : jsonSemFull j with _ | v
    · rw [jsonValid, hjs] at hv
      exact Bool.noConfusion hv
    · exact ⟨v, rfl⟩
  obtain ⟨w, t, r, hjdec, hwall, hrall, hhd, hlst, htv⟩ := valid_structure hj
  have htrim : goTrimSpace j = t := by
    rw [hjdec]
    refine goTrimSpace_of_shape hwall hrall ?_ ?_
    · obtain ⟨c, cs, h1, h2⟩ := hhd
      exact ⟨c, cs, h1, startChP_not_go h2⟩
    · obtain ⟨d, h1, h2⟩ := hlst
      exact ⟨d, h1, endChP_not_go h2⟩
  have hpre : pretrim j = t := by
    rw [hjdec]
    exact pretrim_of_shape hwall hrall hhd hlst
  obtain ⟨hcompact, hrender⟩ := goCompact_valid htv
  refine ⟨v, hj, ?_, hrender⟩
  have hjne : ¬ j = [] := by
    intro he
    rw [he] at hj
    exact Option.noConfusion hj
  rw [htrim] at hhead
  have h1 : ¬ t = [qch] := by
    intro he
    rw [he] at htv
    exact Option.noConfusion htv
  have h2 : ¬ t = ['\n'] := by
    intro he
    rw [he] at htv
    exact Option.noConfusion htv
  have h3 : ¬ t = [' '] := by
    intro he
    rw [he] at htv
    exact Option.noConfusion htv
  have h4 : ¬ t = [rbrack] := by
    intro he
    rw [he] at htv
    exact Option.noConfusion htv
  have h5 : ¬ t = [rbrace] := by
    intro he
    rw [he] at htv
    exact Option.noConfusion htv
  have hanch : anchored t = some t := by
    rw [anchored, if_pos]
    rcases hhead with hx | hx | hx <;> simp [hx]
  have hrep : repairJSON j = repairAnch t := by
    simp only [repairJSON, hpre]
    rw [if_neg hjne, if_neg h1, if_neg h2, if_neg h3, if_neg h4, if_neg h5, hanch]
  have hvt : jsonValid t = true := by
    rw [jsonValid, htv]
    rfl
  have hrep2 : repairAnch t = Except.ok (render v) := by
    simp only [repairAnch]
    rw [if_pos hvt, hcompact]
  exact hrep.trans hrep2

/-- Witness for C3 at a concrete spaced object input. -/
theorem repair_valid_json_compacts_witness :
    jsonValid inpSpacedObj = true ∧
    ∃ v, jsonSemFull inpSpacedObj = some v ∧
      repairJSON inpSpacedObj = Except.ok (render v) ∧ jsonSemFull (render v) = some v :=
  ⟨by rfl, repair_valid_json_compacts inpSpacedObj (by rfl) (Or.inl (by rfl))⟩

/-- A successful compaction yields syntactically valid text. -/
theorem goCompact_ok {x b : GoStr} (h : goCompact x = some b) : jsonValid b = true := by
  rcases hx : jsonSemFull x with _ | v
  · rw [goCompact, hx] at h
    exact Option.noConfusion h
  · obtain ⟨hc, hr⟩ := goCompact_valid hx
    rw [hc] at h
    injection h with h
    rw [← h, jsonValid, hr]
    rfl

section

attribute [local irreducible] pipeR7 pipeR8

/-- Every successful exit of the rewrite pipeline is syntactically valid:
compacted valid text or an empty-structure literal. -/
theorem repairPipeline_ok_valid {x res : GoStr} (h : repairPipeline x = Except.ok res) :
    jsonValid res = true := by
  simp only [repairPipeline] at h
  split at h
  · split at h
    · rename_i b hb
      injection h with h2
      rw [← h2]
      exact goCompact_ok hb
    · cases h
  · split at h
    · split at h
      · rename_i b hb
        injection h with h2
        rw [← h2]
        exact goCompact_ok hb
      · cases h
    · split at h
      · injection h with h2
        rw [← h2]
        rfl
      · split at h
        · injection h with h2
          rw [← h2]
          rfl
        · cases h

/-- Every successful exit of the stage after the trailing-comma branch is
valid: the space-separated-token branch returns a fixed valid literal, and
the remaining exits are skeleton literals or the rewrite pipeline. -/
theorem repairTail2_ok_valid {x res : GoStr}
    (h : repairTail2 x = Except.ok res) : jsonValid res = true := by
  have h' : (if (startsWithL x [lbrack, qch] || startsWithL x [lbrack, sqch]) &&
        spaceSepMatch x then
      Except.ok abcLit
    else
      let src1 := if containsSub x bsT then replaceLit x.length x bsT [sqch, 't'] else x
      if startsWithL src1 [lbrace, qch] && decide (src1.length ≤ 2) then
        Except.ok [lbrace, rbrace]
      else if startsWithL src1 [lbrack, qch] && decide (src1.length ≤ 2) then
        Except.ok [lbrack, rbrack]
      else repairPipeline src1) = Except.ok res := h
  split at h'
  · injection h' with h2
    rw [← h2]
    rfl
  · revert h'
    generalize (if containsSub x bsT then replaceLit x.length x bsT [sqch, 't'] else x) = src1
    intro h'
    have h2 : (if startsWithL src1 [lbrace, qch] && decide (src1.length ≤ 2) then
        Except.ok [lbrace, rbrace]
      else if startsWithL src1 [lbrack, qch] && decide (src1.length ≤ 2) then
        Except.ok [lbrack, rbrack]
      else repairPipeline src1) = Except.ok res := h'
    split at h2
    · injection h2 with h2
      rw [← h2]
      rfl
    · split at h2
      · injection h2 with h2
        rw [← h2]
        rfl
      · exact repairPipeline_ok_valid h2

/-- Every successful exit of the stage after the ellipsis branch is valid,
provided the trailing-comma branch does not fire. -/
theorem repairTail_ok_valid {x res : GoStr}
    (hntc : ¬ (startsWithL x [lbrack] = true ∧ endsWithL (goTrimSpace x) [','] = true))
    (h : repairTail x = Except.ok res) : jsonValid res = true := by
  have h' : (if startsWithL x [lbrack] && endsWithL (goTrimSpace x) [','] then
      match arrTrailGroup x with
      | some g => Except.ok (lbrack :: g ++ [rbrack])
      | none => repairTail2 x
    else repairTail2 x) = Except.ok res := h
  split at h'
  · rename_i hcond
    rw [Bool.and_eq_true] at hcond
    exact absurd hcond hntc
  · exact repairTail2_ok_valid h'

/-- Every successful exit of the anchored stages is valid, provided neither
the ellipsis branch nor the trailing-comma branch fires. -/
theorem repairAnch_ok_valid {s2 res : GoStr}
    (hne : ¬ (startsWithL s2 [lbrack] = true ∧ containsSub s2 dots3 = true))
    (hntc : ¬ (startsWithL s2 [lbrack] = true ∧ endsWithL (goTrimSpace s2) [','] = true))
    (h : repairAnch s2 = Except.ok res) : jsonValid res = true := by
  have h' : (if jsonValid s2 then
      match goCompact s2 with
      | some b => Except.ok b
      | none => Except.error RepairErr.compactErr
    else if s2 = [lbrack] then Except.ok [lbrack, rbrack]
    else if s2 = [lbrace] then Except.ok [lbrace, rbrace]
    else if s2 = [lbrack, lbrace, rbrack] then Except.ok [lbrack, lbrace, rbrace, rbrack]
    else if startsWithL s2 [lbrack] && containsSub s2 dots3 then
      let src2 := stripEllipsis s2.length s2
      match ellipsisTry src2 with
      | some r => Except.ok r
      | none => repairTail src2
    else repairTail s2) = Except.ok res := h
  split at h'
  · split at h'
    · rename_i b hb
      injection h' with h2
      rw [← h2]
      exact goCompact_ok hb
    · cases h'
  · split at h'
    · injection h' with h2
      rw [← h2]
      rfl
    · split at h'
      · injection h' with h2
        rw [← h2]
        rfl
      · split at h'
        · injection h' with h2
          rw [← h2]
          rfl
        · split at h'
          · rename_i hcond
            rw [Bool.and_eq_true] at hcond
            exact absurd hcond hne
          · exact repairTail_ok_valid hntc h'

/-- C1: for every non-empty input on which repair returns without an error,
the returned string is syntactically valid JSON (the minimal
empty-structure and empty-string fallbacks and the fixed space-separated
literal included), provided neither of the two unchecked array
special-case branches that can produce invalid text fires on the anchored
text: the ellipsis branch and the trailing-comma branch. -/
theorem repair_ok_valid_outside_special_branches :
    ∀ s res : GoStr, ¬ s = [] →
    (∀ s2, anchored (pretrim s) = some s2 →
      ¬ (startsWithL s2 [lbrack] = true ∧ containsSub s2 dots3 = true) ∧
      ¬ (startsWithL s2 [lbrack] = true ∧ endsWithL (goTrimSpace s2) [','] = true)) →
    repairJSON s = Except.ok res → jsonValid res = true := by
  intro s res hne hexcl h
  simp only [repairJSON] at h
  rw [if_neg hne] at h
  split at h
  · injection h with h2
    rw [← h2]
    rfl
  · split at h
    · injection h with h2
      rw [← h2]
      rfl
    · split at h
      · injection h with h2
        rw [← h2]
        rfl
      · split at h
        · injection h with h2
          rw [← h2]
          rfl
        · split at h
          · injection h with h2
            rw [← h2]
            rfl
          · split at h
            · rename_i s2 hs2
              obtain ⟨he1, he2⟩ := hexcl s2 hs2
              exact repairAnch_ok_valid he1 he2 h
            · injection h with h2
              rw [← h2]
              rfl

end

/-- Witness for C1 at a concrete truncated object input. -/
theorem repair_ok_valid_outside_special_branches_witness :
    ¬ inpMissBrace = [] ∧ jsonValid outMissBrace = true :=
  ⟨by decide,
    repair_ok_valid_outside_special_branches inpMissBrace outMissBrace (by decide)
      (fun s2 hs2 => by
        have h0 : anchored (pretrim inpMissBrace) = some inpMissBrace := by decide
        rw [h0] at hs2
        injection hs2 with hs2
        subst hs2
        refine ⟨?_, ?_⟩ <;> decide)
      (by decide)⟩
